import Mathlib

/-!
Verification development for `policy-engine`.

A shallow embedding of the ingestion utilities of the repository
(`pkg/topsort`, `pkg/input`) and of its location postprocessor
(`pkg/postprocess`), together with theorems about them.

* Go maps are association lists; a map read is `List.lookup` (first entry),
  a map delete removes every entry of the key, a map write to an existing key
  rewrites its entries in place.  A list with pairwise distinct keys is exactly
  a Go map; no theorem below needs more than that, and most need less.
* Go's unordered map iteration is an explicit choice oracle.
* Loops that are not structurally recursive carry a fuel argument that the
  top-level function computes from its input; the theorems show that the fuel
  is never exhausted.
* Functions that update their argument in place return the updated value; the
  postprocessor returns with it the list of the calls it made to the loader.
-/

namespace topsort

/-- The type `Key = string`. -/
abbrev Key := String

/-- The type `Graph = map[Key][]Key`, as an association list. -/
abbrev Graph := List (Key × List Key)

/-- The keys of the map, in the order of the association list. -/
def keys (g : Graph) : List Key := g.map Prod.fst

/-- The map read `g[k]`: the zero value (the empty slice) for an absent key. -/
def neighborsOf (g : Graph) (k : Key) : List Key :=
  match g.lookup k with
  | some nbs => nbs
  | none => []

/-- The map write `g[k] = nbs` for a key that is present. -/
def setNeighbors (g : Graph) (k : Key) (nbs : List Key) : Graph :=
  g.map (fun e => if e.1 = k then (e.1, nbs) else e)

/-- The map delete `delete(g, k)`. -/
def delete (g : Graph) (k : Key) : Graph := g.filter (fun e => e.1 ≠ k)

/-- The function `pop`: `for k := range g { return &k }; return nil`.  Go leaves
the iteration order of a map unspecified; `choice` selects which key the
iteration meets first. -/
def pop (choice : Nat) (g : Graph) : Option Key :=
  (keys g)[choice % (keys g).length]?

/-- The variables of the inner `for i := 0; i < len(neighbors) && next == nil;`
loop that are live after it. -/
structure ScanState where
  g : Graph
  neighbors : List Key
  next : Option Key

/-- The inner loop of `Topsort` that looks for a neighbour which is not done:
one unfolding per iteration, `i` the loop index.  Every iteration either
shortens `neighbors` or advances `i` or leaves the loop, so `len(neighbors)`
iterations of fuel are enough; with no fuel left the loop condition
`i < len(neighbors)` is false.  The assignment `curr = next` of the branch that
finds a neighbour stores nil in `curr`; the walk assigns `curr` again before it
reads it, so the state does not record it. -/
def scanNeighbors (done : List Key) (curr : Key) : Nat → Nat → Graph → List Key → ScanState
  | 0, _, g, neighbors => ⟨g, neighbors, none⟩
  | fuel + 1, i, g, neighbors =>
    match neighbors[i]? with
    | none => ⟨g, neighbors, none⟩
    | some k =>
      if k ∉ keys g then
        -- Trim in-place if not exists.
        let neighbors := neighbors.eraseIdx i
        scanNeighbors done curr fuel i (setNeighbors g curr neighbors) neighbors
      else if k ∉ done then
        -- Found an element that is not done.
        ⟨g, neighbors, some k⟩
      else
        -- Try next neighbor.
        scanNeighbors done curr fuel (i + 1) g neighbors

/-- How one walk (`for next != nil`) ends. -/
inductive WalkResult where
  /-- The walk reached `curr`, a node without unfinished dependency. -/
  | finished (g : Graph) (curr : Key)
  /-- The walk met a node of `visited` again. -/
  | cycle (visited : List Key)
  /-- The model ran out of fuel. -/
  | outOfFuel

/-- The loop `for next != nil` of `Topsort`, entered with `next = curr`.
`visited` lists the nodes of the current walk in the order of their visit. -/
def walk (done : List Key) : Nat → Graph → List Key → Key → WalkResult
  | 0, _, _, _ => .outOfFuel
  | fuel + 1, g, visited, curr =>
    -- Check for cycles.
    if curr ∈ visited then .cycle visited
    else
      let visited := visited ++ [curr]
      -- Find a neighbor that is not done.
      let neighbors := neighborsOf g curr
      let s := scanNeighbors done curr neighbors.length 0 g neighbors
      match s.next with
      | none => .finished s.g curr
      | some k => walk done fuel s.g visited k

/-- The error of `Topsort`, the value of `fmt.Errorf(format)`: the code hands to
the library one argument, the format string, and no operand.  The error is kept
as that format string; its text is what `fmt` prints for the format, in which
a `%` begins a verb. -/
structure CycleError where
  format : String
deriving DecidableEq, Repr

/-- The error that `Topsort` returns when a walk meets a node again:
`fmt.Errorf("Variables form a cycle: " + strings.Join(cycle, ", "))`, where
`cycle` lists the keys of the map `visited`.  Go ranges over that map in an
unspecified order; the keys stand here in the order of their visit. -/
def cycleError (visited : List Key) : CycleError :=
  ⟨"Variables form a cycle: " ++ ", ".intercalate visited⟩

/-- The outer loop `for curr := pop(g); curr != nil; curr = pop(g)` of `Topsort`;
`n` counts the calls of `pop` made so far and `pick n` is the choice of the
next one.  `none` is the model running out of fuel. -/
def topsortLoop (pick : Nat → Nat) : Nat → Nat → Graph → List Key → List Key →
    Option (Except CycleError (List Key))
  | 0, _, _, _, _ => none
  | fuel + 1, n, g, done, sorted =>
    match pop (pick n) g with
    | none => some (.ok sorted)
    | some start =>
      match walk done ((keys g).length + 1) g [] start with
      | .outOfFuel => none
      | .cycle visited => some (.error (cycleError visited))
      | .finished g curr =>
        -- Add to sorted once we are done and remove from the graph.
        topsortLoop pick fuel (n + 1) (delete g curr) (curr :: done) (sorted ++ [curr])

/-- The function `Topsort`.  The working copy of the graph is the graph itself
(values are immutable here).  `some (.ok sorted)` is the Go result
`(sorted, nil)`, `some (.error e)` is `(nil, err)`. -/
def Topsort (pick : Nat → Nat) (original : Graph) : Option (Except CycleError (List Key)) :=
  topsortLoop pick ((keys original).length + 1) 0 original [] []

/-- A cycle of the graph: keys `k0 .. k(n-1)` of `g`, `n ≥ 1`, with
`k((i+1) mod n)` among the dependencies of `ki`. -/
def IsCycle (g : Graph) (c : List Key) : Prop :=
  0 < c.length ∧ (∀ k ∈ c, k ∈ keys g) ∧
    ∀ i, (h : i < c.length) →
      c.get ⟨(i + 1) % c.length, Nat.mod_lt _ (Nat.zero_lt_of_lt h)⟩ ∈ neighborsOf g (c.get ⟨i, h⟩)

/-- The graph has no cycle among its present keys. -/
def Acyclic (g : Graph) : Prop := ∀ c, ¬ IsCycle g c

/-! ### Specification predicates -/

/-- What the neighbour scan guarantees about its final state `s`, when entered
with the graph `g` and `nbs = g[curr]`. -/
def ScanSpec (done : List Key) (curr : Key) (g : Graph) (nbs : List Key) (s : ScanState) : Prop :=
  keys s.g = keys g ∧
  (∀ k, k ≠ curr → neighborsOf s.g k = neighborsOf g k) ∧
  neighborsOf s.g curr = s.neighbors ∧
  (∀ d ∈ s.neighbors, d ∈ nbs) ∧
  (∀ d ∈ nbs, d ∈ keys g → d ∈ s.neighbors) ∧
  (∀ k, s.next = some k → k ∈ nbs ∧ k ∈ keys g ∧ k ∉ done) ∧
  (s.next = none → ∀ d ∈ s.neighbors, d ∈ keys g ∧ d ∈ done)

/-- The working graph `g` is the original graph from which some entries and some
dependencies that are not keys of `g` have been removed. -/
def Refines (orig g : Graph) : Prop :=
  (∀ k ∈ keys g, k ∈ keys orig) ∧
  (∀ k d, d ∈ neighborsOf g k → d ∈ neighborsOf orig k) ∧
  (∀ k d, k ∈ keys g → d ∈ neighborsOf orig k → d ∈ keys g → d ∈ neighborsOf g k)

/-- What one walk guarantees: it ends, a finished walk ends at a key none of
whose dependencies is left in the graph, and a walk that meets a node again has
gone round a cycle of the original graph. -/
def WalkSpec (orig : Graph) (ks : List Key) : WalkResult → Prop
  | .outOfFuel => False
  | .cycle vs => (∀ k ∈ vs, k ∈ keys orig) ∧ ∃ c, IsCycle orig c ∧ ∀ k ∈ c, k ∈ vs
  | .finished g c =>
    keys g = ks ∧ Refines orig g ∧ c ∈ ks ∧ ∀ d ∈ neighborsOf orig c, d ∉ ks

/-- The invariant of the outer loop of `Topsort`. -/
structure Inv (orig g : Graph) (done sorted : List Key) : Prop where
  refines : Refines orig g
  cover : ∀ k ∈ keys orig, k ∈ keys g ∨ k ∈ sorted
  sorted_keys : ∀ k ∈ sorted, k ∈ keys orig ∧ k ∉ keys g
  nodup : sorted.Nodup
  done_iff : ∀ k, k ∈ done ↔ k ∈ sorted
  precede : ∀ k ∈ sorted, ∀ d ∈ neighborsOf orig k, d ∈ keys orig →
    d ∈ sorted ∧ sorted.indexOf d < sorted.indexOf k

/-- What `Topsort` guarantees about its result. -/
def TopsortSpec (orig : Graph) : Option (Except CycleError (List Key)) → Prop
  | none => False
  | some (.error e) =>
    ∃ visited, e = cycleError visited ∧
      (∀ k ∈ visited, k ∈ keys orig) ∧ ∃ c, IsCycle orig c ∧ ∀ k ∈ c, k ∈ visited
  | some (.ok sorted) =>
    sorted.Nodup ∧ (∀ k, k ∈ sorted ↔ k ∈ keys orig) ∧
      ∀ k ∈ sorted, ∀ d ∈ neighborsOf orig k, d ∈ keys orig →
        d ∈ sorted ∧ sorted.indexOf d < sorted.indexOf k

end topsort

namespace topsort

/-! ### The states of a run, and the algorithm without the set of finished nodes -/

/-- The states in which a run of `Topsort` on `orig` stands at the head of the
outer loop: `n` calls of `pop` made, `g` the working graph, `done` the finished
nodes and `sorted` the result so far. -/
inductive Reached (pick : Nat → Nat) (orig : Graph) :
    Nat → Graph → List Key → List Key → Prop where
  | start : Reached pick orig 0 orig [] []
  | step (n : Nat) (g g2 : Graph) (done sorted : List Key) (first curr : Key) :
    Reached pick orig n g done sorted → pop (pick n) g = some first →
    walk done ((keys g).length + 1) g [] first = .finished g2 curr →
    Reached pick orig (n + 1) (delete g2 curr) (curr :: done) (sorted ++ [curr])

/-- The neighbour scan of `Topsort` without the check of `done` and without the
branch `Try next neighbor`: a neighbour that is a key of the graph is taken at
once. -/
def scanNeighborsSimple (curr : Key) : Nat → Nat → Graph → List Key → ScanState
  | 0, _, g, neighbors => ⟨g, neighbors, none⟩
  | fuel + 1, i, g, neighbors =>
    match neighbors[i]? with
    | none => ⟨g, neighbors, none⟩
    | some k =>
      if k ∉ keys g then
        let neighbors := neighbors.eraseIdx i
        scanNeighborsSimple curr fuel i (setNeighbors g curr neighbors) neighbors
      else
        ⟨g, neighbors, some k⟩

/-- The walk of `Topsort` over `scanNeighborsSimple`. -/
def walkSimple : Nat → Graph → List Key → Key → WalkResult
  | 0, _, _, _ => .outOfFuel
  | fuel + 1, g, visited, curr =>
    if curr ∈ visited then .cycle visited
    else
      let visited := visited ++ [curr]
      let neighbors := neighborsOf g curr
      let s := scanNeighborsSimple curr neighbors.length 0 g neighbors
      match s.next with
      | none => .finished s.g curr
      | some k => walkSimple fuel s.g visited k

/-- The outer loop of `Topsort` over `walkSimple`, without the set `done`. -/
def topsortLoopSimple (pick : Nat → Nat) : Nat → Nat → Graph → List Key →
    Option (Except CycleError (List Key))
  | 0, _, _, _ => none
  | fuel + 1, n, g, sorted =>
    match pop (pick n) g with
    | none => some (.ok sorted)
    | some first =>
      match walkSimple ((keys g).length + 1) g [] first with
      | .outOfFuel => none
      | .cycle visited => some (.error (cycleError visited))
      | .finished g curr =>
        topsortLoopSimple pick fuel (n + 1) (delete g curr) (sorted ++ [curr])

/-- The function `Topsort` with the branch `Try next neighbor` and the check of
`done` removed. -/
def TopsortSimple (pick : Nat → Nat) (original : Graph) :
    Option (Except CycleError (List Key)) :=
  topsortLoopSimple pick ((keys original).length + 1) 0 original []

/-- A graph in which `a` depends on `b` and `b` on itself. -/
def leadInGraph : Graph := [("a", ["b"]), ("b", ["b"])]

/-- The graph `Graph{"%d": {"%d"}}`: one key, `%d`, that depends on itself. -/
def percentGraph : Graph := [("%d", ["%d"])]

/-- The graph `Graph{"a, b": {"a, b"}}`: one key, `a, b`, that depends on
itself. -/
def commaGraph : Graph := [("a, b", ["a, b"])]

/-- The graph `Graph{"a": {"b"}, "b": {"a"}}`: two keys that depend on each
other. -/
def pairGraph : Graph := [("a", ["b"]), ("b", ["a"])]

end topsort

namespace input

/-! ## `pkg/input/types.go` -/

/-- The struct `Type`: one or more types of inputs.  `Children` holds pointers
to types declared elsewhere; the types pointed to are never changed, so the
pointer is the value it points to. -/
inductive InputType where
  | mk (Name : String) (Aliases : List String) (Children : List InputType)

/-- The type `Types []*Type`. -/
abbrev Types := List InputType

/-- The field `Name`, the primary name of the input type. -/
def InputType.Name : InputType → String
  | .mk name _ _ => name

/-- The field `Aliases`, the alternate names of the input type. -/
def InputType.Aliases : InputType → List String
  | .mk _ aliases _ => aliases

/-- The field `Children`, the input types encompassed by the input type. -/
def InputType.Children : InputType → Types
  | .mk _ _ children => children

mutual
/-- The method `Type.Matches`. -/
def InputType.Matches : InputType → String → Bool
  | .mk name _ children, inputType =>
    if name = inputType then true
    else InputType.matchesChildren children inputType
/-- The loop `for _, c := range t.Children` of `Type.Matches`. -/
def InputType.matchesChildren : List InputType → String → Bool
  | [], _ => false
  | c :: rest, inputType =>
    if c.Matches inputType then true
    else InputType.matchesChildren rest inputType
end

/-- The loop `for idx, a := range t.Aliases` of `Type.Equals`: whether some alias
differs from the alias of the other list at the same index.  The loop runs only
on lists of the same length. -/
def aliasesDiffer : List String → List String → Bool
  | a :: rest, b :: others => if a ≠ b then true else aliasesDiffer rest others
  | _, _ => false

mutual
/-- The method `Type.Equals`, with the body of `Types.Equals` written out for the
children.  The shortcut `t == other` compares pointers; it returns only what the
comparison below returns for a type and itself (`Equals_refl`). -/
def InputType.Equals : InputType → InputType → Bool
  | .mk name aliases children, .mk otherName otherAliases otherChildren =>
    if ¬ (name = otherName) then false
    else if ¬ (aliases.length = otherAliases.length) then false
    else if aliasesDiffer aliases otherAliases then false
    else if children.length ≠ otherChildren.length then false
    else Types.equalsLoop children otherChildren
/-- The loop `for idx, a := range t` of `Types.Equals`; it runs only on lists of
the same length. -/
def Types.equalsLoop : List InputType → List InputType → Bool
  | [], _ => true
  | _ :: _, [] => false
  | a :: rest, b :: others => if !(a.Equals b) then false else Types.equalsLoop rest others
end

/-- The method `Types.Equals`. -/
def Types.Equals (t other : Types) : Bool :=
  if t.length ≠ other.length then false else Types.equalsLoop t other

/-- The loop `for _, a := range i.Aliases` of `Types.FromString`, for the
lower-cased `inputType`. -/
def aliasMatches (lower : String → String) (inputType : String) : List String → Bool
  | [] => false
  | a :: rest => if lower a = inputType then true else aliasMatches lower inputType rest

/-- The loop `for _, i := range t` of `Types.FromString`, for the lower-cased
`inputType`. -/
def Types.fromStringLoop (lower : String → String) (inputType : String) :
    Types → Except String InputType
  | [] => .error "Unrecognized input type"
  | i :: rest =>
    if lower i.Name = inputType then .ok i
    else if aliasMatches lower inputType i.Aliases then .ok i
    else Types.fromStringLoop lower inputType rest

/-- The method `Types.FromString`.  `lower` is the library function
`strings.ToLower`. -/
def Types.FromString (lower : String → String) (t : Types) (inputType : String) :
    Except String InputType :=
  Types.fromStringLoop lower (lower inputType) t

/-- The library function `strings.ToLower` on ASCII text: the letters `A` to `Z`
become `a` to `z` and every other character stays.  On text with other letters
the Go function lowers those as well. -/
def ToLower (s : String) : String := ⟨s.data.map Char.toLower⟩

/-- Arm represents Azure Resource Manager template inputs. -/
def Arm : InputType := .mk "arm" [] []

/-- CloudFormation represents CloudFormation template inputs. -/
def CloudFormation : InputType := .mk "cfn" ["cloudformation"] []

/-- TerraformState represents Terraform State JSON inputs. -/
def TerraformState : InputType := .mk "tf_state" ["tf-state"] []

/-- CloudScan represents inputs from a Snyk Cloud Scan. -/
def CloudScan : InputType := .mk "cloud_scan" ["cloud-scan"] [TerraformState]

/-- Kubernetes represents Kubernetes manifest inputs. -/
def Kubernetes : InputType := .mk "k8s" ["kubernetes"] []

/-- TerraformHCL represents Terraform HCL source code inputs. -/
def TerraformHCL : InputType := .mk "tf_hcl" ["tf-hcl"] []

/-- TerraformPlan represents Terraform Plan JSON inputs. -/
def TerraformPlan : InputType := .mk "tf_plan" ["tf-plan"] []

/-- StreamlinedState is a temporary addition until the old streamlined state
format is replaced. -/
def StreamlinedState : InputType := .mk "streamlined_state" ["streamlined-state"] []

/-- Terraform is an aggregate input type that encompasses all input types that
contain Terraform resource types. -/
def Terraform : InputType :=
  .mk "tf" ["terraform"] [TerraformHCL, TerraformPlan, CloudScan]

/-- Auto is an aggregate type that contains all of the IaC input types that this
package supports. -/
def Auto : InputType :=
  .mk "auto" [] [Arm, CloudFormation, Kubernetes, TerraformHCL, TerraformPlan, TerraformState]

/-- Any is an aggregate type that contains all known input types. -/
def Any : InputType := .mk "any" [] [Arm, CloudFormation, Kubernetes, Terraform]

/-- SupportedInputTypes contains all of the input types that this package has
detectors for. -/
def SupportedInputTypes : Types :=
  [Auto, Arm, CloudFormation, Kubernetes, TerraformHCL, TerraformPlan, TerraformState,
    StreamlinedState]

/-! ### Specification predicates -/

/-- The relation `Descendant d t`: the type `d` is a descendant of `t`, a child, a
child of a child, and so on. -/
inductive Descendant : InputType → InputType → Prop
  | child {t c : InputType} : c ∈ t.Children → Descendant c t
  | deeper {t c d : InputType} : c ∈ t.Children → Descendant d c → Descendant d t

/-- The name or an alias of `t` equals `s` when both are lower-cased. -/
def NameMatches (lower : String → String) (s : String) (t : InputType) : Prop :=
  lower t.Name = lower s ∨ ∃ a ∈ t.Aliases, lower a = lower s

end input

namespace input

/-! ## `pkg/input/cfn.go`: the reference resolver -/

/-- A decoded value, Go's `interface{}` as the YAML decoder produces it: `nil`,
a boolean, a number, a string, a `[]interface{}` or a `map[string]interface{}`
(an association list, read by `List.lookup`). -/
inductive Value where
  | null
  | bool (b : Bool)
  | num (n : Int)
  | str (s : String)
  | arr (items : List Value)
  | obj (fields : List (String × Value))

/-- The comparison `v != nil` of an `interface{}`. -/
def Value.isNil : Value → Bool
  | .null => true
  | _ => false

/-- The class `\w` of Go regular expressions: `[0-9A-Za-z_]`. -/
def isWordChar (c : Char) : Bool := c.isAlphanum || c == '_'

/-- The class `[:\w]`. -/
def isNameChar (c : Char) : Bool := c == ':' || isWordChar c

/-- The class `[.:\w]`. -/
def isTailChar (c : Char) : Bool := c == '.' || c == ':' || isWordChar c

/-- A match of the regular expression `\$\{([:\w]+)[.:\w]*\}` at the start of
the text: the text of group 1 and the length of the whole match.  Both
repetitions are greedy, and since the class of the first is part of the class of
the second and `}` is in neither, a match takes the longest run of each. -/
def matchReference : List Char → Option (List Char × Nat)
  | '$' :: '{' :: rest =>
    let name := rest.takeWhile isNameChar
    let tail := (rest.dropWhile isNameChar).takeWhile isTailChar
    match name, (rest.dropWhile isNameChar).dropWhile isTailChar with
    | _ :: _, '}' :: _ => some (name, 2 + name.length + tail.length + 1)
    | _, _ => none
  | _ => none

/-- The library call `re.FindAllStringSubmatch(tmpl, -1)` for the regular
expression of `resolveTemplateString`, reduced to group 1 of every match: the
leftmost match, then the leftmost match in the text after it, and so on.  `skip`
counts the characters of the last match still to be passed over. -/
def findAllReferences : Nat → List Char → List (List Char)
  | _, [] => []
  | skip + 1, _ :: rest => findAllReferences skip rest
  | 0, c :: rest =>
    match matchReference (c :: rest) with
    | some (name, len) => name :: findAllReferences (len - 1) rest
    | none => findAllReferences 0 rest

/-- The method `resolveTemplateString`. -/
def resolveTemplateString (tmpl : String) : List String :=
  (findAllReferences 0 tmpl.data).map String.mk

mutual
/-- The body of the method `resolveObject` for a value that is a mapping, and no
reference for any other value (the failed assertion
`arg.(map[string]interface{})` of the `Fn::Join` loop).  The Go code reads
`obj["Ref"]`, `obj["Fn::GetAtt"]`, `obj["Fn::Sub"]` (twice) and `obj["Fn::Join"]`
in turn, inside `len(obj) == 1`; in a mapping with one key at most one of these
reads finds it, so the reads are a case distinction on that key. -/
def resolveValue (parameters : List (String × Value)) : Value → List Value
  | .obj [(key, val)] =>
    if key = "Ref" then
      -- Replace references by the ID they reference, or a parameter value.
      match val with
      | .str str =>
        match parameters.lookup str with
        | some paramValue => [paramValue]
        | none => [.str str]
      | _ => []
    else if key = "Fn::GetAtt" then
      -- Replace {"Fn::GetAtt": [x, "Arn"]} calls by the ID of the resource.
      match val with
      | .arr [id, .str attr] => if attr = "Arn" then [id] else []
      | _ => []
    else if key = "Fn::Sub" then
      match val with
      -- Find references in template strings.
      | .str tmpl => (resolveTemplateString tmpl).map Value.str
      -- Find references in template strings where a variable map is provided.
      | .arr [.str tmpl, .obj mapping] =>
        (resolveTemplateString tmpl).filterMap (fun k => mapping.lookup k)
      | _ => []
    else if key = "Fn::Join" then
      -- Recursively collect references for joins as they are often nested.
      match val with
      | .arr [_, .arr parts] => resolveJoinParts parameters parts
      | _ => []
    else []
  | _ => []
/-- The loop `for _, arg := range parts` of the `Fn::Join` case. -/
def resolveJoinParts (parameters : List (String × Value)) : List Value → List Value
  | [] => []
  | arg :: rest => resolveValue parameters arg ++ resolveJoinParts parameters rest
end

/-- The method `resolveObject`: the references of a mapping, the empty list (Go's
`nil`) if not applicable. -/
def resolveObject (parameters : List (String × Value)) (obj : List (String × Value)) :
    List Value :=
  resolveValue parameters (.obj obj)

/-- The method `WalkObject` of `cfnReferenceResolver`: the replacement value and
the flag that tells the walker to go on into the children. -/
def WalkObject (parameters : List (String × Value)) (obj : List (String × Value)) :
    Value × Bool :=
  -- Return a single reference if possible, an array otherwise.
  let refs := resolveObject parameters obj
  if h : refs.length = 1 then (refs.get ⟨0, by omega⟩, false)
  else if refs.length > 1 then (.arr refs, false)
  else (.obj obj, true)

/-- The struct `cfnParameter`; a missing `Default` is `nil`. -/
structure cfnParameter where
  Default : Value
  AllowedValues : List Value

/-- The struct `cfnResource`, its field `Type` under the name `ResourceType` and
its `Properties` as the decoded contents of the `cfnMap`. -/
structure cfnResource where
  ResourceType : String
  Properties : List (String × Value)

/-- The struct `cfnTemplate`. -/
structure cfnTemplate where
  AWSTemplateFormatVersion : Value
  Parameters : List (String × cfnParameter)
  Resources : List (String × cfnResource)

/-- The loop `for k, param := range tmpl.Parameters` of the method `resources`:
the static value of every parameter that has one. -/
def collectParameters : List (String × cfnParameter) → List (String × Value)
  | [] => []
  | (k, param) :: rest =>
    if !param.Default.isNil then (k, param.Default) :: collectParameters rest
    else
      match param.AllowedValues with
      | first :: _ => (k, first) :: collectParameters rest
      | [] => collectParameters rest

/-- The field `parameters` of the resolver that the method `resources` builds
for a template. -/
def cfnTemplate.resolverParameters (tmpl : cfnTemplate) : List (String × Value) :=
  collectParameters tmpl.Parameters

/-! ### Specification predicates -/

/-- The content of the `${...}` token that starts the text, if one starts there:
what stands between the opening `${` and the next closing brace. -/
def tokenContent : List Char → Option (List Char)
  | '$' :: '{' :: rest =>
    match rest.dropWhile (fun c => c != '}') with
    | '}' :: _ => some (rest.takeWhile (fun c => c != '}'))
    | _ => none
  | _ => none

/-- The content of a token consists only of word characters, `:` and `.`, and
starts with a word character or `:`. -/
def isReferenceContent (content : List Char) : Bool :=
  content.all (fun c => isWordChar c || c == ':' || c == '.') &&
    match content with
    | c :: _ => isWordChar c || c == ':'
    | [] => false

/-- The name of a token: its content up to, and not including, its first `.`. -/
def referenceName (content : List Char) : List Char :=
  content.takeWhile (fun c => c != '.')

/-- The names of the tokens of a text whose content is that of a reference, one
for every place of the text where such a token starts, in the order of the
text. -/
def tokenNames : List Char → List (List Char)
  | [] => []
  | c :: rest =>
    match tokenContent (c :: rest) with
    | some content =>
      if isReferenceContent content then referenceName content :: tokenNames rest
      else tokenNames rest
    | none => tokenNames rest

end input

namespace input

/-! ## `pkg/input/cfn.go`: the structural decoder -/

/-- The type `yaml.Kind` of the YAML library: the five kinds of node, and any
other value of the underlying integer. -/
inductive Kind where
  | DocumentNode
  | SequenceNode
  | MappingNode
  | ScalarNode
  | AliasNode
  | otherKind
deriving DecidableEq, Repr

/-- The struct `yaml.Node` of the YAML library, with the fields that the
repository reads. -/
inductive Node where
  | mk (Kind : Kind) (Tag : String) (Value : String) (Line : Int) (Column : Int)
      (Content : List Node)

/-- The field `Kind`. -/
def Node.Kind : Node → Kind
  | .mk kind _ _ _ _ _ => kind

/-- The field `Tag`. -/
def Node.Tag : Node → String
  | .mk _ tag _ _ _ _ => tag

/-- The field `Value`, the text of a scalar. -/
def Node.Value : Node → String
  | .mk _ _ value _ _ _ => value

/-- The field `Line`. -/
def Node.Line : Node → Int
  | .mk _ _ _ line _ _ => line

/-- The field `Column`. -/
def Node.Column : Node → Int
  | .mk _ _ _ _ column _ => column

/-- The field `Content`, the children of the node. -/
def Node.Content : Node → List Node
  | .mk _ _ _ _ _ content => content

/-- The map write `m[key] = val`: the value of a key that is present is
replaced, a new key is added. -/
def setField (m : List (String × Value)) (key : String) (val : Value) :
    List (String × Value) :=
  if m.any (fun e => e.1 == key) then m.map (fun e => if e.1 = key then (key, val) else e)
  else m ++ [(key, val)]

/-- The table `intrinsicFns` from short-form tags to canonical names. -/
def intrinsicFns : List (String × String) :=
  [("!And", "Fn::And"),
   ("!Base64", "Fn::Base64"),
   ("!Cidr", "Fn::Cidr"),
   ("!Equals", "Fn::Equals"),
   ("!FindInMap", "Fn::FindInMap"),
   ("!GetAtt", "Fn::GetAtt"),
   ("!GetAZs", "Fn::GetAZs"),
   ("!If", "Fn::If"),
   ("!ImportValue", "Fn::ImportValue"),
   ("!Join", "Fn::Join"),
   ("!Not", "Fn::Not"),
   ("!Or", "Fn::Or"),
   ("!Ref", "Ref"),
   ("!Split", "Fn::Split"),
   ("!Sub", "Fn::Sub"),
   ("!Transform", "Fn::Transform")]

/-- The library call `strings.Replace(tag, "!", "Fn::", 1)` on the characters of
the tag: the first `!` becomes `Fn::`. -/
def replaceFirstBang : List Char → List Char
  | [] => []
  | c :: rest => if c = '!' then 'F' :: 'n' :: ':' :: ':' :: rest else c :: replaceFirstBang rest

/-- The library call `strings.Split(s, ".")` on the characters of `s`: the
pieces between the dots, one more than there are dots. -/
def splitOnDot : List Char → List (List Char)
  | [] => [[]]
  | c :: rest =>
    if c = '.' then [] :: splitOnDot rest
    else
      match splitOnDot rest with
      | first :: others => (c :: first) :: others
      | [] => [[c]]

/-- The text `line L, col C` that the errors of the decoder print for a node. -/
def position (node : Node) : String :=
  "line " ++ toString node.Line ++ ", col " ++ toString node.Column

/-- The function `decodeMap` around its loop: the check of the number of
children, then the result of the loop. -/
def decodeMapWith (node : Node) (loop : Except String (List (String × Value))) :
    Except String (List (String × Value)) :=
  if node.Content.length % 2 ≠ 0 then .error ("Malformed map at " ++ position node)
  else loop

/-- The function `decodeIntrinsic`, given what `decodeSeq` and `decodeMap` return
for the node.  `decode` is `node.Decode(&val)` of the YAML library into an
`interface{}`. -/
def decodeIntrinsicWith (decode : Node → Except String Value) (node : Node) (name : String)
    (seq : Except String (List Value)) (map : Except String (List (String × Value))) :
    Except String (List (String × Value)) :=
  let name := if name = "" then String.mk (replaceFirstBang node.Tag.data) else name
  match node.Kind with
  | .SequenceNode =>
    match seq with
    | .error err => .error ("Failed to decode intrinsic containing sequence: " ++ err)
    | .ok val => .ok [(name, .arr val)]
  | .MappingNode =>
    match map with
    | .error err => .error ("Failed to decode intrinsic containing map: " ++ err)
    | .ok val => .ok [(name, .obj val)]
  | _ =>
    match decode node with
    | .error err => .error ("Failed to decode intrinsic: " ++ err)
    | .ok val =>
      -- Special case for GetAtt
      if name = "Fn::GetAtt" then
        match val with
        | .str valString =>
          .ok [(name, .arr ((splitOnDot valString.data).map (fun part => .str (String.mk part))))]
        | other => .ok [(name, other)]
      else .ok [(name, val)]

mutual
/-- The function `decodeNode`, with the calls of `decodeSeq`, `decodeMap` and
`decodeIntrinsic` on the node itself written as their bodies around the loops
over the children. -/
def decodeNode (decode : Node → Except String Value) : Node → Except String Value
  | .mk kind tag value line column content =>
    if tag = "!!seq" then
      match decodeSeqLoop decode content with
      | .error err => .error ("Failed to decode map val: " ++ err)
      | .ok val => .ok (.arr val)
    else if tag = "!!map" then
      match decodeMapWith (.mk kind tag value line column content)
          (decodeMapLoop decode [] content) with
      | .error err => .error ("Failed to decode map val: " ++ err)
      | .ok val => .ok (.obj val)
    else
      match intrinsicFns.lookup tag with
      | some name =>
        match decodeIntrinsicWith decode (.mk kind tag value line column content) name
            (decodeSeqLoop decode content)
            (decodeMapWith (.mk kind tag value line column content)
              (decodeMapLoop decode [] content)) with
        | .error err => .error ("Failed to decode map val: " ++ err)
        | .ok val => .ok (.obj val)
      | none =>
        match decode (.mk kind tag value line column content) with
        | .error err => .error ("Failed to decode map val: " ++ err)
        | .ok val => .ok val
/-- The loop `for _, child := range node.Content` of `decodeSeq`. -/
def decodeSeqLoop (decode : Node → Except String Value) : List Node → Except String (List Value)
  | [] => .ok []
  | child :: rest =>
    match decodeNode decode child with
    | .error _ => .error ("Error decoding sequence item at " ++ position child)
    | .ok i =>
      match decodeSeqLoop decode rest with
      | .error err => .error err
      | .ok s => .ok (i :: s)
/-- The loop `for i := 0; i < len(node.Content); i += 2` of `decodeMap`, on the
children from index `i` on and with the map `m` built so far.  The key is a
string scalar when it is decoded, and `keyNode.Decode(&key)` gives its text. -/
def decodeMapLoop (decode : Node → Except String Value) (m : List (String × Value)) :
    List Node → Except String (List (String × Value))
  | keyNode :: valNode :: rest =>
    if keyNode.Kind ≠ .ScalarNode ∨ keyNode.Tag ≠ "!!str" then
      .error ("Malformed map key at " ++ position keyNode)
    else
      match decodeNode decode valNode with
      | .error err => .error ("Failed to decode map val: " ++ err)
      | .ok val => decodeMapLoop decode (setField m keyNode.Value val) rest
  | _ => .ok m
end

/-- The function `decodeSeq`. -/
def decodeSeq (decode : Node → Except String Value) (node : Node) : Except String (List Value) :=
  decodeSeqLoop decode node.Content

/-- The function `decodeMap`. -/
def decodeMap (decode : Node → Except String Value) (node : Node) :
    Except String (List (String × Value)) :=
  decodeMapWith node (decodeMapLoop decode [] node.Content)

/-- The function `decodeIntrinsic`. -/
def decodeIntrinsic (decode : Node → Except String Value) (node : Node) (name : String) :
    Except String (List (String × Value)) :=
  decodeIntrinsicWith decode node name (decodeSeq decode node) (decodeMap decode node)

/-! ### Specification predicates -/

/-- The canonical name of a short-form tag: `Ref` for `!Ref`, and `Fn::` followed
by the tag without its `!` for every other tag. -/
def canonicalName (tag : String) : String :=
  if tag = "!Ref" then "Ref" else "Fn::" ++ String.mk (tag.data.drop 1)

/-- The error message cites the line and column of the node: it contains the
text `line L, col C` of the node. -/
def Cites (message : String) (node : Node) : Prop :=
  (position node).data <:+: message.data

/-! ### A document with a key that is not a string

The nodes of the YAML document

    - a:
        2: y

in which the key `2` of the inner mapping is an integer. -/

/-- The key `2` at line 2, column 5. -/
def integerKey : Node := .mk .ScalarNode "!!int" "2" 2 5 []

/-- The inner mapping `2: y`, at line 2, column 5. -/
def innerMapping : Node :=
  .mk .MappingNode "!!map" "" 2 5 [integerKey, .mk .ScalarNode "!!str" "y" 2 8 []]

/-- The mapping `a: ...`, the item of the sequence, at line 1, column 3. -/
def sequenceItem : Node :=
  .mk .MappingNode "!!map" "" 1 3 [.mk .ScalarNode "!!str" "a" 1 3 [], innerMapping]

/-- The sequence, the root of the document. -/
def sequenceRoot : Node := .mk .SequenceNode "!!seq" "" 1 1 [sequenceItem]

/-! ### A document with a key that occurs twice

The nodes of the YAML document

    a: x
    a: y
-/

/-- The first key `a`, at line 1, column 1. -/
def firstKeyA : Node := .mk .ScalarNode "!!str" "a" 1 1 []

/-- The value `x` of the first key, at line 1, column 4. -/
def firstValueX : Node := .mk .ScalarNode "!!str" "x" 1 4 []

/-- The second key `a`, at line 2, column 1. -/
def secondKeyA : Node := .mk .ScalarNode "!!str" "a" 2 1 []

/-- The value `y` of the second key, at line 2, column 4. -/
def secondValueY : Node := .mk .ScalarNode "!!str" "y" 2 4 []

/-- The mapping with the key `a` twice, the root of the document. -/
def duplicateKeyNode : Node :=
  .mk .MappingNode "!!map" "" 1 1 [firstKeyA, firstValueX, secondKeyA, secondValueY]

/-- What `node.Decode` of the YAML library gives on a string scalar: its text. -/
def decodeText (node : Node) : Except String Value := .ok (.str node.Value)

end input

namespace input

/-! ## `pkg/input/source_info.go` -/

/-- The struct `SourceInfoNode`: a node of the document and, possibly, the node
of the key under which it stands. -/
structure SourceInfoNode where
  key : Option Node
  body : Node

/-- The function `prettyKind`. -/
def prettyKind : Kind → String
  | .MappingNode => "map"
  | .SequenceNode => "array"
  | .DocumentNode => "doc"
  | .AliasNode => "alias"
  | .ScalarNode => "scalar"
  | .otherKind => "unknown"

/-- The loop `for i := 0; i+1 < len(node.body.Content); i += 2` of `GetKey`, one
unfolding per iteration.  The index grows by 2 in every iteration, so
`len(node.body.Content)` iterations of fuel are enough. -/
def getKeyLoop (content : List Node) (key : String) : Nat → Nat → Option SourceInfoNode
  | 0, _ => none
  | fuel + 1, i =>
    if h : i + 1 < content.length then
      if content[i].Value = key then some ⟨some content[i], content[i + 1]⟩
      else getKeyLoop content key fuel (i + 2)
    else none

/-- The method `GetKey`. -/
def SourceInfoNode.GetKey (node : SourceInfoNode) (key : String) :
    Except String SourceInfoNode :=
  if node.body.Kind ≠ .MappingNode then
    .error ("Expected " ++ prettyKind .MappingNode ++ " but got " ++ prettyKind node.body.Kind)
  else
    match getKeyLoop node.body.Content key node.body.Content.length 0 with
    | some child => .ok child
    | none => .error ("Key " ++ key ++ " not found")

/-- The method `GetIndex`. -/
def SourceInfoNode.GetIndex (node : SourceInfoNode) (index : Int) :
    Except String SourceInfoNode :=
  if node.body.Kind ≠ .SequenceNode then
    .error ("Expected " ++ prettyKind .SequenceNode ++ " but got " ++ prettyKind node.body.Kind)
  else if h : index < 0 ∨ index ≥ node.body.Content.length then
    .error ("Index " ++ toString index ++ " out of bounds for length "
      ++ toString node.body.Content.length)
  else .ok ⟨none, node.body.Content.get ⟨index.toNat, by omega⟩⟩

/-- An element of a path, a Go `interface{}`: a string, an `int`, or a value of
another type, of which only the text that `%s` prints is kept. -/
inductive PathSegment where
  | key (name : String)
  | index (i : Int)
  | other (printed : String)

/-- What the verb `%s` prints for an element of a path. -/
def PathSegment.printed : PathSegment → String
  | .key name => name
  | .index i => "%!s(int=" ++ toString i ++ ")"
  | .other printed => printed

/-- The method `GetPath`: the node reached and the error, `none` for Go's `nil`. -/
def SourceInfoNode.GetPath (node : SourceInfoNode) :
    List PathSegment → SourceInfoNode × Option String
  | [] => (node, none)
  | segment :: rest =>
    match node.body.Kind with
    | .MappingNode =>
      match segment with
      | .key key =>
        match node.GetKey key with
        | .error err => (node, some err)
        | .ok child => child.GetPath rest
      | _ => (node, some "Expected string key")
    | .SequenceNode =>
      match segment with
      | .index index =>
        match node.GetIndex index with
        | .error err => (node, some err)
        | .ok child => child.GetPath rest
      | _ => (node, some "Expected int index")
    | kind =>
      (node, some ("Expected " ++ prettyKind .MappingNode ++ " or " ++ prettyKind .SequenceNode
        ++ " at key " ++ segment.printed ++ " but got " ++ prettyKind kind))

/-- The method `Location`: line and column. -/
def SourceInfoNode.Location (node : SourceInfoNode) : Int × Int :=
  match node.key with
  | some key => (key.Line, key.Column)
  | none => (node.body.Line, node.body.Column)

/-! ### Specification predicates -/

/-- The (key, value) pairs of the children of a mapping node, in the order of the
document. -/
def childPairs : List Node → List (Node × Node)
  | keyNode :: valNode :: rest => (keyNode, valNode) :: childPairs rest
  | _ => []

/-- One step of a path, in the words of the specification.  On a mapping, a
string leads to the value of the first pair of children, in the order of the
document, whose key node has exactly that text, with that key node attached.  On
a sequence, an integer `i` with `0 ≤ i < len` leads to the child at index `i`,
with no key attached. -/
inductive Step : SourceInfoNode → PathSegment → SourceInfoNode → Prop
  | byKey {n : SourceInfoNode} {before after : List (Node × Node)} {keyNode valNode : Node}
      {key : String} :
      n.body.Kind = .MappingNode →
      childPairs n.body.Content = before ++ (keyNode, valNode) :: after →
      keyNode.Value = key → (∀ pair ∈ before, pair.1.Value ≠ key) →
      Step n (.key key) ⟨some keyNode, valNode⟩
  | byIndex {n : SourceInfoNode} {index : Int} {child : Node} :
      n.body.Kind = .SequenceNode → 0 ≤ index →
      n.body.Content[index.toNat]? = some child →
      Step n (.index index) ⟨none, child⟩

/-- The relation `Reaches n p m`: applying the steps of the path `p` in order,
every step succeeds, and the steps lead from `n` to `m`. -/
inductive Reaches : SourceInfoNode → List PathSegment → SourceInfoNode → Prop
  | done (n : SourceInfoNode) : Reaches n [] n
  | step {n child m : SourceInfoNode} {segment : PathSegment} {rest : List PathSegment} :
      Step n segment child → Reaches child rest m → Reaches n (segment :: rest) m

/-- The step `segment` fails at the node `n`: a missing key, an index out of
range, a string on a sequence or an integer on a mapping (or a value that is
neither), or a node that is neither a mapping nor a sequence. -/
def StepFails (n : SourceInfoNode) (segment : PathSegment) : Prop :=
  (n.body.Kind = .MappingNode ∧
    ((∃ key, segment = .key key ∧ ∀ pair ∈ childPairs n.body.Content, pair.1.Value ≠ key) ∨
      ∀ key, segment ≠ .key key)) ∨
  (n.body.Kind = .SequenceNode ∧
    ((∃ index, segment = .index index ∧ (index < 0 ∨ index ≥ n.body.Content.length)) ∨
      ∀ index, segment ≠ .index index)) ∨
  (n.body.Kind ≠ .MappingNode ∧ n.body.Kind ≠ .SequenceNode)

/-! ### A fixture document

The nodes of the YAML document

    Resources:
      MyBucket:
        Type: AWS::S3::Bucket
        Properties:
          BucketName: demo
          Tags:
            - one
            - two
-/

/-- The key `BucketName`, at line 5, column 7. -/
def bucketNameKey : Node := .mk .ScalarNode "!!str" "BucketName" 5 7 []

/-- The value `demo` of the key `BucketName`, at line 5, column 19. -/
def bucketNameValue : Node := .mk .ScalarNode "!!str" "demo" 5 19 []

/-- The second item `two` of the sequence of tags, at line 8, column 11. -/
def secondTag : Node := .mk .ScalarNode "!!str" "two" 8 11 []

/-- The sequence under the key `Tags`. -/
def tagsNode : Node :=
  .mk .SequenceNode "!!seq" "" 7 9 [.mk .ScalarNode "!!str" "one" 7 11 [], secondTag]

/-- The mapping under the key `Properties`. -/
def propertiesNode : Node :=
  .mk .MappingNode "!!map" "" 5 7
    [bucketNameKey, bucketNameValue, .mk .ScalarNode "!!str" "Tags" 6 7 [], tagsNode]

/-- The mapping under the key `MyBucket`. -/
def bucketNode : Node :=
  .mk .MappingNode "!!map" "" 3 5
    [.mk .ScalarNode "!!str" "Type" 3 5 [], .mk .ScalarNode "!!str" "AWS::S3::Bucket" 3 11 [],
     .mk .ScalarNode "!!str" "Properties" 4 5 [], propertiesNode]

/-- The mapping under the key `Resources`. -/
def resourcesNode : Node :=
  .mk .MappingNode "!!map" "" 2 3 [.mk .ScalarNode "!!str" "MyBucket" 2 3 [], bucketNode]

/-- The root of the document, without a key. -/
def documentRoot : SourceInfoNode :=
  ⟨none, .mk .MappingNode "!!map" "" 1 1 [.mk .ScalarNode "!!str" "Resources" 1 1 [], resourcesNode]⟩

end input

namespace models

/-! ## `pkg/models`: the types of the report that the postprocessor reads and writes -/

/-- Modelled from the spec: the struct `models.SourceLocation` is not among the
sources; its fields are those that `toLocation` sets. -/
structure SourceLocation where
  Filepath : String
  Line : Int
  Column : Int
deriving DecidableEq, Repr

/-- Modelled from the spec: a value of a `Meta` map, a `map[string]interface{}`
of free-form annotations: a decoded value, or the list of source locations that
the postprocessor stores under `location`. -/
inductive MetaValue where
  | value (v : input.Value)
  | locations (locs : List SourceLocation)

/-- Modelled from the spec: the struct `models.ResourceState` is not among the
sources; it has the fields `Id`, `ResourceType`, `Namespace`, `Attributes` and
`Meta` of the data model, `Meta` being `none` for Go's nil map. -/
structure ResourceState where
  Id : String
  ResourceType : String
  Namespace : String
  Attributes : List (String × input.Value)
  Meta : Option (List (String × MetaValue))

/-- Modelled from the spec: the struct `models.State`, the normalized state of
one input; of it the postprocessor reads `Meta`, with the entry `filepath`, and
`Resources`, resources by type and then by ID.  A nil `Meta` reads as the empty
map. -/
structure State where
  Meta : List (String × MetaValue)
  Resources : List (String × List (String × ResourceState))

/-- Modelled from the spec: the struct `models.RuleResultResourceAttribute`, a
per-attribute detail of a finding: the path of the attribute and its location,
`none` for Go's nil pointer. -/
structure RuleResultResourceAttribute where
  Path : List input.PathSegment
  Location : Option SourceLocation

/-- Modelled from the spec: the struct `models.RuleResultResource`, a resource
that a finding refers to, held by pointer in the finding so that the
postprocessor updates it in place.  `Type_` is the field `Type`; `Location` is
`none` for Go's nil slice. -/
structure RuleResultResource where
  Id : String
  Type_ : String
  Namespace : String
  Location : Option (List SourceLocation)
  Attributes : List RuleResultResourceAttribute

/-- Modelled from the spec: the struct `models.RuleResult`, one finding; of it
the postprocessor reads the resources. -/
structure RuleResult where
  Resources : List RuleResultResource

/-- Modelled from the spec: the struct `models.RuleResults`, the findings of one
rule. -/
structure RuleResults where
  Results : List RuleResult

/-- Modelled from the spec: the struct `models.Result`, the result of one
evaluated input. -/
structure Result where
  Input : State
  RuleResults : List RuleResults

set_option linter.dupNamespace false in
/-- Modelled from the spec: the struct `models.Results`, the report. -/
structure Results where
  Results : List Result

end models

namespace input

/-! ## `pkg/input/cfn.go`: the location of a semantic path -/

/-- Modelled from the spec: the struct `Location` of the package is not among the
sources; it is a file path with a line and a column, the fields `Path`, `Line`
and `Col` that `cfnConfiguration.Location` sets. -/
structure Location where
  Path : String
  Line : Int
  Col : Int
deriving DecidableEq, Repr

/-- Modelled from the spec: the type `LocationStack`, an ordered list of
locations. -/
abbrev LocationStack := List Location

/-- Modelled from the spec: the sentinel `UnableToResolveLocation`, unable to
resolve location, is not among the sources.  The errors that a `Location` method
returns are that sentinel wrapped with `%w`, in a message that prints the path
with `%v`, and an error passed on, kept with its message. -/
inductive LocationError where
  | UnableToResolveLocation (path : List PathSegment)
  | message (text : String)

/-- The struct `cfnConfiguration`. -/
structure cfnConfiguration where
  path : String
  template : cfnTemplate
  source : Option SourceInfoNode
  resources : List (String × models.ResourceState)

/-- The method `cfnConfiguration.Location`: the location stack, `none` for Go's
nil slice, and the error, `none` for nil.  The format of the path is
resource namespace, resource type, resource ID, attribute path. -/
def cfnConfiguration.Location (l : cfnConfiguration) (path : List PathSegment) :
    Option LocationStack × Option LocationError :=
  match l.source with
  | none => (none, none)
  | some source =>
    if path.length < 3 then (none, none)
    else
      match (path[2]? : Option PathSegment) with
      | some (PathSegment.key resourceId) =>
        let fullPath : List PathSegment := [.key "Resources", .key resourceId]
        let fullPath :=
          if path.length > 3 then fullPath ++ [.key "Properties"] ++ path.drop 3 else fullPath
        let found := source.GetPath fullPath
        let position := found.1.Location
        (some [⟨l.path, position.1, position.2⟩], found.2.map LocationError.message)
      | _ => (none, some (.UnableToResolveLocation path))

/-- Modelled from the spec: the type `Loader` is not among the sources; the
postprocessor uses only its method `Location(filepath, path)`, which is the
value of this function: the location stack, `none` for nil, and the error. -/
abbrev Loader := String → List PathSegment → Option LocationStack × Option LocationError

/-- The configuration of the fixture document, read from the file
`bucket.yaml`. -/
def bucketConfiguration : cfnConfiguration :=
  ⟨"bucket.yaml", ⟨.str "2010-09-09", [], []⟩, some documentRoot, []⟩

/-- A loader that holds the configuration of the fixture document under its file
path and nothing else. -/
def bucketLoader : Loader := fun filepath path =>
  if filepath = "bucket.yaml" then bucketConfiguration.Location path else (none, none)

end input

namespace postprocess

open input models

/-! ## `pkg/postprocess/source_locs.go`

The functions of this file return nothing and update the report in place; here
each returns the updated value, together with the list of the calls of
`configurations.Location` that it made, in the order of the calls. -/

/-- One call `configurations.Location(filepath, path)`. -/
structure Query where
  filepath : String
  path : List PathSegment

/-- The function `toLocation`. -/
def toLocation (loc : Location) : SourceLocation :=
  { Filepath := loc.Path, Line := loc.Line, Column := loc.Col }

/-- The length `len(s)` of a slice, 0 for nil. -/
def len {α : Type} : Option (List α) → Nat
  | none => 0
  | some s => s.length

/-- The function `getResourceSourceLoc`; the error of the loader is dropped. -/
def getResourceSourceLoc (configurations : Loader) (filepath : String)
    (resourceNamespace resourceType resourceId : String) :
    Option (List SourceLocation) × List Query :=
  let resourcePath : List PathSegment :=
    [.key resourceNamespace, .key resourceType, .key resourceId]
  let resourceLocs := (configurations filepath resourcePath).1
  (match resourceLocs with
    | none => none
    | some locs => some (locs.map toLocation),
   [⟨filepath, resourcePath⟩])

/-- The map write `resource.Meta[key] = val`. -/
def setMeta (m : List (String × MetaValue)) (key : String) (val : MetaValue) :
    List (String × MetaValue) :=
  if m.any (fun e => e.1 == key) then m.map (fun e => if e.1 = key then (key, val) else e)
  else m ++ [(key, val)]

/-- The body of the loop `for rk, resource := range resources` of `AddSourceLocs`:
the resource that is written back to `resources[rk]`. -/
def annotateStateResource (configurations : Loader) (filepath : String)
    (resource : ResourceState) : ResourceState × List Query :=
  let location := getResourceSourceLoc configurations filepath resource.Namespace
    resource.ResourceType resource.Id
  let entries : List (String × MetaValue) :=
    match resource.Meta with
    | none => []
    | some m => m
  let entries :=
    if len location.1 > 0 then setMeta entries "location" (.locations (location.1.getD []))
    else entries
  ({ resource with Meta := some entries }, location.2)

/-- The body of the loop `for i := range resource.Attributes` of
`addSourceLocsToRuleResult`, for the attribute at index `i` of a resource with
the given namespace, type and ID; the error of the loader is dropped. -/
def annotateAttribute (configurations : Loader) (filepath : String)
    (resourceNamespace resourceType resourceId : String)
    (detail : RuleResultResourceAttribute) : RuleResultResourceAttribute × List Query :=
  let attributePath : List PathSegment :=
    [.key resourceNamespace, .key resourceType, .key resourceId] ++ detail.Path
  let location := (configurations filepath attributePath).1
  (match location with
    | some (first :: _) => { detail with Location := some (toLocation first) }
    | _ => detail,
   [⟨filepath, attributePath⟩])

/-- The body of the loop `for _, resource := range result.Resources` of
`addSourceLocsToRuleResult`. -/
def annotateResultResource (configurations : Loader) (filepath : String)
    (resource : RuleResultResource) : RuleResultResource × List Query :=
  let location := getResourceSourceLoc configurations filepath resource.Namespace
    resource.Type_ resource.Id
  let attributes := resource.Attributes.map
    (annotateAttribute configurations filepath resource.Namespace resource.Type_ resource.Id)
  ({ resource with Location := location.1, Attributes := attributes.map Prod.fst },
   location.2 ++ (attributes.map Prod.snd).flatten)

/-- The function `addSourceLocsToRuleResult`. -/
def addSourceLocsToRuleResult (configurations : Loader) (filepath : String)
    (result : RuleResult) : RuleResult × List Query :=
  let resources := result.Resources.map (annotateResultResource configurations filepath)
  ({ Resources := resources.map Prod.fst }, (resources.map Prod.snd).flatten)

/-- The loops of `AddSourceLocs` over the resources of the input state, by type
and then by ID.  The maps are visited in the order of the association lists;
each entry is updated on its own, so the order shows only in the order of the
calls. -/
def annotateState (configurations : Loader) (filepath : String)
    (resources : List (String × List (String × ResourceState))) :
    List (String × List (String × ResourceState)) × List Query :=
  let byType := resources.map (fun entry =>
    let byId := entry.2.map (fun rk =>
      let resource := annotateStateResource configurations filepath rk.2
      ((rk.1, resource.1), resource.2))
    ((entry.1, byId.map Prod.fst), (byId.map Prod.snd).flatten))
  (byType.map Prod.fst, (byType.map Prod.snd).flatten)

/-- The loops of `AddSourceLocs` over the rule results of one input. -/
def annotateRuleResults (configurations : Loader) (filepath : String)
    (ruleResults : List RuleResults) : List RuleResults × List Query :=
  let updated := ruleResults.map (fun ruleResult =>
    let results := ruleResult.Results.map (addSourceLocsToRuleResult configurations filepath)
    (({ Results := results.map Prod.fst } : RuleResults), (results.map Prod.snd).flatten))
  (updated.map Prod.fst, (updated.map Prod.snd).flatten)

/-- The body of the loop `for _, inputResult := range results.Results` of
`AddSourceLocs`.  The assertion `Meta["filepath"].(string)` holds when the entry
is present and is a string. -/
def annotateInputResult (configurations : Loader) (inputResult : Result) :
    Result × List Query :=
  match inputResult.Input.Meta.lookup "filepath" with
  | some (.value (.str filepath)) =>
    -- Annotate resources in input state
    let resources := annotateState configurations filepath inputResult.Input.Resources
    -- Annotate resources in rule results.
    let ruleResults := annotateRuleResults configurations filepath inputResult.RuleResults
    ({ Input := { inputResult.Input with Resources := resources.1 },
       RuleResults := ruleResults.1 },
     resources.2 ++ ruleResults.2)
  | _ => (inputResult, [])

/-- The function `AddSourceLocs`: the report as it is after the call, and the
calls of the loader made. -/
def AddSourceLocs (results : Results) (configurations : Loader) : Results × List Query :=
  let updated := results.Results.map (annotateInputResult configurations)
  ({ Results := updated.map Prod.fst }, (updated.map Prod.snd).flatten)

/-! ### A report on the fixture document -/

/-- The resource `MyBucket` of the fixture document as the evaluator sees it,
without metadata. -/
def bucketState : ResourceState :=
  { Id := "MyBucket", ResourceType := "AWS::S3::Bucket", Namespace := "bucket.yaml",
    Attributes := [("BucketName", .str "demo")], Meta := none }

/-- A resource `Gone` that the fixture document does not hold. -/
def goneState : ResourceState :=
  { Id := "Gone", ResourceType := "AWS::S3::Bucket", Namespace := "bucket.yaml",
    Attributes := [], Meta := none }

/-- A finding on `MyBucket` with a detail on the attribute `BucketName` and one
on the attribute `Encryption`, which the document does not set. -/
def bucketFinding : RuleResult :=
  { Resources := [
      { Id := "MyBucket", Type_ := "AWS::S3::Bucket", Namespace := "bucket.yaml",
        Location := none,
        Attributes := [⟨[.key "BucketName"], none⟩, ⟨[.key "Encryption"], none⟩] },
      { Id := "Gone", Type_ := "AWS::S3::Bucket", Namespace := "bucket.yaml",
        Location := none, Attributes := [] }] }

/-- The result of the input `bucket.yaml`. -/
def bucketResult : Result :=
  { Input := { Meta := [("filepath", .value (.str "bucket.yaml"))],
               Resources := [("AWS::S3::Bucket", [("MyBucket", bucketState),
                 ("Gone", goneState)])] },
    RuleResults := [{ Results := [bucketFinding] }] }

/-- The same result without the entry `filepath`. -/
def unnamedResult : Result :=
  { Input := { Meta := [], Resources := bucketResult.Input.Resources },
    RuleResults := bucketResult.RuleResults }

/-- The same result with an entry `filepath` that is not a string. -/
def numberedResult : Result :=
  { Input := { Meta := [("filepath", .value (.num 7))],
               Resources := bucketResult.Input.Resources },
    RuleResults := bucketResult.RuleResults }

end postprocess

namespace topsort

/-! ## Map operations -/

theorem keys_setNeighbors (g : Graph) (k : Key) (nbs : List Key) :
    keys (setNeighbors g k nbs) = keys g := by
  induction g with
  | nil => rfl
  | cons e g ih =>
    simp only [keys, setNeighbors, List.map_cons] at ih ⊢
    rw [ih]
    split <;> rfl

theorem mem_keys_delete (g : Graph) (k x : Key) :
    x ∈ keys (delete g k) ↔ x ∈ keys g ∧ x ≠ k := by
  simp only [keys, delete, List.mem_map, List.mem_filter]
  constructor
  · rintro ⟨e, ⟨he, hne⟩, rfl⟩
    exact ⟨⟨e, he, rfl⟩, by simpa using hne⟩
  · rintro ⟨⟨e, he, rfl⟩, hne⟩
    exact ⟨e, ⟨he, by simpa using hne⟩, rfl⟩

theorem length_keys_delete_lt (g : Graph) (k : Key) (h : k ∈ keys g) :
    (keys (delete g k)).length < (keys g).length := by
  induction g with
  | nil => simp [keys] at h
  | cons e g ih =>
    by_cases hek : e.1 = k
    · have hle : (List.filter (fun e => decide (e.1 ≠ k)) g).length ≤ g.length :=
        List.length_filter_le _ _
      simp only [keys, delete, List.length_map] at ih ⊢
      rw [List.filter_cons_of_neg (by simpa using hek)]
      simp only [List.length_cons]
      omega
    · have hk : k ∈ keys g := by
        simp only [keys, List.map_cons, List.mem_cons] at h
        rcases h with h | h
        · exact absurd h.symm hek
        · exact h
      have := ih hk
      simp only [keys, delete, List.length_map] at this ⊢
      rw [List.filter_cons_of_pos (by simpa using hek)]
      simp only [List.length_cons]
      omega

theorem neighborsOf_setNeighbors_self (g : Graph) (k : Key) (nbs : List Key)
    (h : k ∈ keys g) : neighborsOf (setNeighbors g k nbs) k = nbs := by
  induction g with
  | nil => simp [keys] at h
  | cons e g ih =>
    obtain ⟨a, b⟩ := e
    by_cases hak : a = k
    · subst hak
      simp [neighborsOf, setNeighbors, List.lookup_cons]
    · have hk : k ∈ keys g := by
        simp only [keys, List.map_cons, List.mem_cons] at h
        rcases h with h | h
        · exact absurd h.symm hak
        · exact h
      have hka : (k == a) = false := by simpa using fun h => hak h.symm
      have := ih hk
      simp only [neighborsOf, setNeighbors, List.map_cons, if_neg hak, List.lookup_cons,
        hka] at this ⊢
      exact this

theorem neighborsOf_setNeighbors_ne (g : Graph) (k x : Key) (nbs : List Key)
    (h : x ≠ k) : neighborsOf (setNeighbors g k nbs) x = neighborsOf g x := by
  induction g with
  | nil => rfl
  | cons e g ih =>
    obtain ⟨a, b⟩ := e
    by_cases hak : a = k
    · subst hak
      have hxa : (x == a) = false := by simpa using h
      simp only [neighborsOf, setNeighbors, List.map_cons, if_true, List.lookup_cons,
        hxa] at ih ⊢
      exact ih
    · simp only [neighborsOf, setNeighbors, List.map_cons, if_neg hak, List.lookup_cons] at ih ⊢
      cases hxa : (x == a)
      · simpa using ih
      · rfl

theorem neighborsOf_delete_ne (g : Graph) (k x : Key) (h : x ≠ k) :
    neighborsOf (delete g k) x = neighborsOf g x := by
  induction g with
  | nil => rfl
  | cons e g ih =>
    obtain ⟨a, b⟩ := e
    by_cases hak : a = k
    · subst hak
      have hxa : (x == a) = false := by simpa using h
      simp only [neighborsOf, delete] at ih ⊢
      rw [List.filter_cons_of_neg (by simp)]
      simp only [List.lookup_cons, hxa]
      exact ih
    · simp only [neighborsOf, delete] at ih ⊢
      rw [List.filter_cons_of_pos (by simpa using hak)]
      simp only [List.lookup_cons]
      cases hxa : (x == a)
      · simpa using ih
      · rfl

theorem pop_eq_none (choice : Nat) (g : Graph) (h : pop choice g = none) : keys g = [] := by
  unfold pop at h
  rw [List.getElem?_eq_none_iff] at h
  by_contra hne
  have hpos : 0 < (keys g).length := List.length_pos.mpr hne
  have := Nat.mod_lt choice hpos
  omega

theorem pop_mem (choice : Nat) (g : Graph) (k : Key) (h : pop choice g = some k) :
    k ∈ keys g := by
  unfold pop at h
  obtain ⟨hlt, hk⟩ := List.getElem?_eq_some.mp h
  exact hk ▸ List.getElem_mem hlt

/-- Every key of the graph is a possible result of `pop`. -/
theorem pop_complete (g : Graph) (k : Key) (h : k ∈ keys g) : ∃ choice, pop choice g = some k := by
  obtain ⟨n, hn, hk⟩ := List.mem_iff_getElem.mp h
  refine ⟨n, ?_⟩
  unfold pop
  rw [Nat.mod_eq_of_lt hn]
  exact List.getElem?_eq_some.mpr ⟨hn, hk⟩

/-! ## The neighbour scan -/

theorem scanSpec_exit (done : List Key) (curr : Key) (g : Graph) (nbs : List Key)
    (hnb : neighborsOf g curr = nbs) (hall : ∀ d ∈ nbs, d ∈ keys g ∧ d ∈ done) :
    ScanSpec done curr g nbs ⟨g, nbs, none⟩ :=
  ⟨rfl, fun _ _ => rfl, hnb, fun _ h => h, fun _ h _ => h, fun _ h => (nomatch h), fun _ => hall⟩

theorem scanSpec_found (done : List Key) (curr : Key) (g : Graph) (nbs : List Key) (k : Key)
    (hnb : neighborsOf g curr = nbs) (hk : k ∈ nbs) (hex : k ∈ keys g) (hdone : k ∉ done) :
    ScanSpec done curr g nbs ⟨g, nbs, some k⟩ :=
  ⟨rfl, fun _ _ => rfl, hnb, fun _ h => h, fun _ h _ => h,
    fun _ h => (Option.some.inj h) ▸ ⟨hk, hex, hdone⟩, fun h => (nomatch h)⟩

/-- The neighbour scan, entered at index `i` with `neighbors = g[curr]` whose
first `i` entries are present and done, meets its specification. -/
theorem scanNeighbors_spec (done : List Key) (curr : Key) :
    ∀ (fuel i : Nat) (g : Graph) (nbs : List Key),
      curr ∈ keys g → neighborsOf g curr = nbs → nbs.length ≤ fuel + i →
      (∀ d ∈ nbs.take i, d ∈ keys g ∧ d ∈ done) →
      ScanSpec done curr g nbs (scanNeighbors done curr fuel i g nbs) := by
  intro fuel
  induction fuel with
  | zero =>
    intro i g nbs _ hnb hlen htake
    have hall : nbs.take i = nbs := List.take_of_length_le (by omega)
    rw [hall] at htake
    exact scanSpec_exit done curr g nbs hnb htake
  | succ fuel ih =>
    intro i g nbs hcurr hnb hlen htake
    rw [scanNeighbors]
    cases hk : nbs[i]? with
    | none =>
      have hall : nbs.take i = nbs :=
        List.take_of_length_le (List.getElem?_eq_none_iff.mp hk)
      rw [hall] at htake
      exact scanSpec_exit done curr g nbs hnb htake
    | some k =>
      obtain ⟨hi, hki⟩ := List.getElem?_eq_some.mp hk
      have hkmem : k ∈ nbs := hki ▸ List.getElem_mem hi
      simp only []
      by_cases hex : k ∈ keys g
      · rw [if_neg (not_not.mpr hex)]
        by_cases hdone : k ∈ done
        · rw [if_neg (not_not.mpr hdone)]
          refine ih (i + 1) g nbs hcurr hnb (by omega) ?_
          intro d hd
          rw [List.take_succ, hk] at hd
          simp only [Option.toList, List.mem_append, List.mem_singleton] at hd
          rcases hd with hd | hd
          · exact htake d hd
          · exact hd ▸ ⟨hex, hdone⟩
        · rw [if_pos hdone]
          exact scanSpec_found done curr g nbs k hnb hkmem hex hdone
      · rw [if_pos hex]
        have hcurr2 : curr ∈ keys (setNeighbors g curr (nbs.eraseIdx i)) := by
          rw [keys_setNeighbors]; exact hcurr
        have hlen2 : (nbs.eraseIdx i).length ≤ fuel + i := by
          rw [List.length_eraseIdx, if_pos hi]; omega
        have htk : (nbs.eraseIdx i).take i = nbs.take i := by
          rw [List.eraseIdx_eq_take_drop_succ, List.take_append_of_le_length (by simp; omega)]
          simp
        have hsub : ∀ d ∈ nbs.eraseIdx i, d ∈ nbs := fun d hd =>
          (List.eraseIdx_sublist nbs i).subset hd
        have hkeep : ∀ d ∈ nbs, d ∈ keys g → d ∈ nbs.eraseIdx i := by
          intro d hd hdk
          obtain ⟨j, hj, hjd⟩ := List.mem_iff_getElem.mp hd
          refine List.mem_eraseIdx_iff_getElem.mpr ⟨j, hj, ?_, hjd⟩
          intro hji
          subst hji
          exact hex (by rw [← hki, hjd]; exact hdk)
        have := ih i (setNeighbors g curr (nbs.eraseIdx i)) (nbs.eraseIdx i) hcurr2
          (neighborsOf_setNeighbors_self g curr _ hcurr) hlen2
          (by
            intro d hd
            rw [htk] at hd
            rw [keys_setNeighbors]
            exact htake d hd)
        obtain ⟨h1, h2, h3, h4, h5, h6, h7⟩ := this
        rw [keys_setNeighbors] at h1 h5 h6 h7
        refine ⟨h1, ?_, h3, fun d hd => hsub d (h4 d hd), fun d hd hdk => h5 d (hkeep d hd hdk) hdk,
          ?_, h7⟩
        · intro x hx
          rw [h2 x hx, neighborsOf_setNeighbors_ne g curr x _ hx]
        · intro x hx
          obtain ⟨a, b, c⟩ := h6 x hx
          exact ⟨hsub x a, b, c⟩

/-! ## One walk -/

/-- A closed chain of dependencies is a cycle. -/
theorem isCycle_of_chain (g : Graph) (c : List Key) (hne : c ≠ [])
    (hkeys : ∀ k ∈ c, k ∈ keys g)
    (hchain : List.Chain' (fun a b => b ∈ neighborsOf g a) c)
    (hclose : c.head hne ∈ neighborsOf g (c.getLast hne)) : IsCycle g c := by
  refine ⟨List.length_pos.mpr hne, hkeys, fun i h => ?_⟩
  by_cases hlast : i + 1 < c.length
  · have hfin : (⟨(i + 1) % c.length, Nat.mod_lt _ (Nat.zero_lt_of_lt h)⟩ : Fin c.length)
        = ⟨i + 1, hlast⟩ := Fin.ext (Nat.mod_eq_of_lt hlast)
    rw [hfin]
    exact List.chain'_iff_get.mp hchain i (by omega)
  · have hi : i + 1 = c.length := by omega
    have hfin : (⟨(i + 1) % c.length, Nat.mod_lt _ (Nat.zero_lt_of_lt h)⟩ : Fin c.length)
        = ⟨0, Nat.zero_lt_of_lt h⟩ := Fin.ext (by simp [hi])
    rw [hfin]
    have h0 : c.get ⟨0, Nat.zero_lt_of_lt h⟩ = c.head hne := by
      rw [List.head_eq_getElem]; rfl
    have h1 : c.get ⟨i, h⟩ = c.getLast hne := by
      rw [List.getLast_eq_getElem]
      have : c.length - 1 = i := by omega
      simp [this]
    rw [h0, h1]
    exact hclose

theorem walk_spec (orig : Graph) (done : List Key) :
    ∀ (fuel : Nat) (g : Graph) (visited : List Key) (curr : Key),
      Refines orig g → (∀ k ∈ done, k ∉ keys g) →
      curr ∈ keys g → (∀ k ∈ visited, k ∈ keys g) → visited.Nodup →
      (keys g).length + 1 ≤ visited.length + fuel →
      List.Chain' (fun a b => b ∈ neighborsOf orig a) (visited ++ [curr]) →
      WalkSpec orig (keys g) (walk done fuel g visited curr) := by
  intro fuel
  induction fuel with
  | zero =>
    intro g visited curr _ _ _ hvis hnd hlen _
    have := (List.subperm_of_subset hnd hvis).length_le
    omega
  | succ fuel ih =>
    intro g visited curr href hdone hcurr hvis hnd hlen hchain
    rw [walk]
    by_cases hmem : curr ∈ visited
    · rw [if_pos hmem]
      refine ⟨fun k hk => href.1 k (hvis k hk), ?_⟩
      obtain ⟨l1, l2, hsplit⟩ := List.append_of_mem hmem
      have hc2 : List.Chain' (fun a b => b ∈ neighborsOf orig a) ((curr :: l2) ++ [curr]) := by
        have h := hchain
        rw [hsplit, List.append_assoc] at h
        exact (List.chain'_append.mp h).2.1
      obtain ⟨hc3, -, hc4⟩ := List.chain'_append.mp hc2
      refine ⟨curr :: l2, isCycle_of_chain orig (curr :: l2) (List.cons_ne_nil _ _) ?_ hc3 ?_, ?_⟩
      · intro k hk
        exact href.1 k (hvis k (by rw [hsplit]; exact List.mem_append_right _ hk))
      · exact hc4 _ (List.getLast?_eq_getLast _ (List.cons_ne_nil _ _) ▸ rfl) curr rfl
      · intro k hk
        rw [hsplit]; exact List.mem_append_right _ hk
    · rw [if_neg hmem]
      simp only []
      have hs := scanNeighbors_spec done curr (neighborsOf g curr).length 0 g (neighborsOf g curr)
        hcurr rfl (by omega) (by simp)
      obtain ⟨h1, h2, h3, h4, h5, h6, h7⟩ := hs
      have href2 : Refines orig (scanNeighbors done curr (neighborsOf g curr).length 0 g
          (neighborsOf g curr)).g := by
        refine ⟨fun k hk => href.1 k (h1 ▸ hk), ?_, ?_⟩
        · intro k d hd
          by_cases hkc : k = curr
          · subst hkc
            rw [h3] at hd
            exact href.2.1 k d (h4 d hd)
          · rw [h2 k hkc] at hd
            exact href.2.1 k d hd
        · intro k d hk hd hdk
          rw [h1] at hk hdk
          by_cases hkc : k = curr
          · subst hkc
            rw [h3]
            exact h5 d (href.2.2 k d hk hd hdk) hdk
          · rw [h2 k hkc]
            exact href.2.2 k d hk hd hdk
      cases hnext : (scanNeighbors done curr (neighborsOf g curr).length 0 g
          (neighborsOf g curr)).next with
      | none =>
        refine ⟨h1, href2, hcurr, ?_⟩
        intro d hd hdk
        have hd2 := h5 d (href.2.2 curr d hcurr hd hdk) hdk
        exact hdone d (h7 hnext d hd2).2 hdk
      | some k =>
        obtain ⟨hk1, hk2, -⟩ := h6 k hnext
        have := ih (scanNeighbors done curr (neighborsOf g curr).length 0 g
          (neighborsOf g curr)).g (visited ++ [curr]) k href2
          (by rw [h1]; exact hdone) (by rw [h1]; exact hk2)
          (by
            rw [h1]
            intro x hx
            rcases List.mem_append.mp hx with hx | hx
            · exact hvis x hx
            · exact (List.mem_singleton.mp hx) ▸ hcurr)
          (by
            rw [List.nodup_append]
            refine ⟨hnd, List.nodup_singleton _, ?_⟩
            intro x hx hx2
            exact hmem ((List.mem_singleton.mp hx2) ▸ hx))
          (by rw [h1, List.length_append, List.length_singleton]; omega)
          (by
            rw [List.chain'_append]
            refine ⟨hchain, List.chain'_singleton _, ?_⟩
            intro x hx y hy
            rw [List.getLast?_concat] at hx
            simp only [Option.mem_def, Option.some.injEq] at hx
            simp only [List.head?_cons, Option.mem_def, Option.some.injEq] at hy
            subst hx hy
            exact href.2.1 _ _ hk1)
        rw [h1] at this
        exact this

/-! ## The outer loop -/

theorem inv_init (orig : Graph) : Inv orig orig [] [] where
  refines := ⟨fun _ h => h, fun _ _ h => h, fun _ _ _ h _ => h⟩
  cover := fun _ h => Or.inl h
  sorted_keys := fun _ h => nomatch h
  nodup := List.nodup_nil
  done_iff := fun _ => Iff.rfl
  precede := fun _ h => nomatch h

theorem inv_step (orig g g2 : Graph) (done sorted : List Key) (c : Key)
    (hinv : Inv orig g done sorted) (hkeys : keys g2 = keys g) (href : Refines orig g2)
    (hc : c ∈ keys g) (hdeps : ∀ d ∈ neighborsOf orig c, d ∉ keys g) :
    Inv orig (delete g2 c) (c :: done) (sorted ++ [c]) := by
  have hcs : c ∉ sorted := fun h => (hinv.sorted_keys c h).2 hc
  refine ⟨⟨?_, ?_, ?_⟩, ?_, ?_, ?_, ?_, ?_⟩
  · intro k hk
    exact href.1 k ((mem_keys_delete g2 c k).mp hk).1
  · intro k d hd
    by_cases hkc : k = c
    · subst hkc
      have hnot : k ∉ keys (delete g2 k) := fun h => ((mem_keys_delete g2 k k).mp h).2 rfl
      have hnone : (delete g2 k).lookup k = none := by
        rw [List.lookup_eq_none_iff]
        intro e he
        have hne : e.1 ≠ k := fun hek => hnot (List.mem_map.mpr ⟨e, he, hek⟩)
        simpa using fun h => hne h.symm
      simp [neighborsOf, hnone] at hd
    · rw [neighborsOf_delete_ne g2 c k hkc] at hd
      exact href.2.1 k d hd
  · intro k d hk hd hdk
    obtain ⟨hk1, hk2⟩ := (mem_keys_delete g2 c k).mp hk
    rw [neighborsOf_delete_ne g2 c k hk2]
    exact href.2.2 k d hk1 hd ((mem_keys_delete g2 c d).mp hdk).1
  · intro k hk
    by_cases hkc : k = c
    · exact Or.inr (List.mem_append_right _ (List.mem_singleton.mpr hkc))
    · rcases hinv.cover k hk with h | h
      · exact Or.inl ((mem_keys_delete g2 c k).mpr ⟨hkeys ▸ h, hkc⟩)
      · exact Or.inr (List.mem_append_left _ h)
  · intro k hk
    rcases List.mem_append.mp hk with h | h
    · exact ⟨(hinv.sorted_keys k h).1, fun h2 =>
        (hinv.sorted_keys k h).2 (hkeys ▸ ((mem_keys_delete g2 c k).mp h2).1)⟩
    · have hkc : k = c := List.mem_singleton.mp h
      subst hkc
      exact ⟨hinv.refines.1 k hc, fun h2 => ((mem_keys_delete g2 k k).mp h2).2 rfl⟩
  · rw [List.nodup_append]
    refine ⟨hinv.nodup, List.nodup_singleton _, ?_⟩
    intro x hx hx2
    exact hcs ((List.mem_singleton.mp hx2) ▸ hx)
  · intro k
    rw [List.mem_cons, List.mem_append, List.mem_singleton, hinv.done_iff k]
    exact Or.comm
  · intro k hk d hd hdk
    rcases List.mem_append.mp hk with h | h
    · obtain ⟨hds, hlt⟩ := hinv.precede k h d hd hdk
      refine ⟨List.mem_append_left _ hds, ?_⟩
      rw [List.indexOf_append_of_mem hds, List.indexOf_append_of_mem h]
      exact hlt
    · have hkc : k = c := List.mem_singleton.mp h
      subst hkc
      have hds : d ∈ sorted := by
        rcases hinv.cover d hdk with h2 | h2
        · exact absurd h2 (hdeps d hd)
        · exact h2
      refine ⟨List.mem_append_left _ hds, ?_⟩
      rw [List.indexOf_append_of_mem hds, List.indexOf_append_of_not_mem hcs]
      have := List.indexOf_lt_length.mpr hds
      omega

theorem topsortLoop_spec (orig : Graph) (pick : Nat → Nat) :
    ∀ (fuel n : Nat) (g : Graph) (done sorted : List Key),
      Inv orig g done sorted → (keys g).length < fuel →
      TopsortSpec orig (topsortLoop pick fuel n g done sorted) := by
  intro fuel
  induction fuel with
  | zero => intro n g done sorted _ h; omega
  | succ fuel ih =>
    intro n g done sorted hinv hfuel
    rw [topsortLoop]
    cases hpop : pop (pick n) g with
    | none =>
      have hempty := pop_eq_none _ _ hpop
      refine ⟨hinv.nodup, fun k => ⟨fun h => (hinv.sorted_keys k h).1, fun h => ?_⟩, hinv.precede⟩
      rcases hinv.cover k h with h2 | h2
      · rw [hempty] at h2; exact absurd h2 (List.not_mem_nil _)
      · exact h2
    | some start =>
      have hstart := pop_mem _ _ _ hpop
      have hw := walk_spec orig done ((keys g).length + 1) g [] start hinv.refines
        (fun k hk => (hinv.sorted_keys k ((hinv.done_iff k).mp hk)).2) hstart
        (fun _ h => nomatch h) List.nodup_nil (by simp) (List.chain'_singleton _)
      simp only []
      cases hwalk : walk done ((keys g).length + 1) g [] start with
      | outOfFuel => rw [hwalk] at hw; exact hw
      | cycle visited => rw [hwalk] at hw; exact ⟨visited, rfl, hw⟩
      | finished g2 c =>
        rw [hwalk] at hw
        obtain ⟨hk, href, hc, hdeps⟩ := hw
        refine ih (n + 1) (delete g2 c) (c :: done) (sorted ++ [c])
          (inv_step orig g g2 done sorted c hinv hk href hc hdeps) ?_
        have := length_keys_delete_lt g2 c (hk ▸ hc)
        rw [hk] at this
        omega

/-- The result of `Topsort` always meets its specification; in particular the
model never runs out of fuel. -/
theorem Topsort_spec (pick : Nat → Nat) (g : Graph) : TopsortSpec g (Topsort pick g) :=
  topsortLoop_spec g pick _ 0 g [] [] (inv_init g) (Nat.lt_succ_self _)

/-- A list that holds every key after its dependencies leaves no room for a cycle. -/
theorem no_cycle_of_order (g : Graph) (l : List Key)
    (hprec : ∀ k ∈ keys g, ∀ d ∈ neighborsOf g k, d ∈ keys g → l.indexOf d < l.indexOf k)
    (c : List Key) (hc : IsCycle g c) : False := by
  obtain ⟨hpos, hkeys, hedge⟩ := hc
  have hstep : ∀ i : Nat,
      l.indexOf (c.get ⟨(i + 1) % c.length, Nat.mod_lt _ hpos⟩)
        < l.indexOf (c.get ⟨i % c.length, Nat.mod_lt _ hpos⟩) := by
    intro i
    have h := hedge (i % c.length) (Nat.mod_lt _ hpos)
    have hfin : (⟨(i % c.length + 1) % c.length, Nat.mod_lt _ hpos⟩ : Fin c.length)
        = ⟨(i + 1) % c.length, Nat.mod_lt _ hpos⟩ := Fin.ext (Nat.mod_add_mod _ _ _)
    rw [hfin] at h
    exact hprec _ (hkeys _ (List.get_mem _ _ _)) _ h (hkeys _ (List.get_mem _ _ _))
  have hbound : ∀ i : Nat,
      l.indexOf (c.get ⟨i % c.length, Nat.mod_lt _ hpos⟩) + i
        ≤ l.indexOf (c.get ⟨0 % c.length, Nat.mod_lt _ hpos⟩) := by
    intro i
    induction i with
    | zero => exact Nat.le_refl _
    | succ i ih => have := hstep i; omega
  have := hbound (l.indexOf (c.get ⟨0 % c.length, Nat.mod_lt _ hpos⟩) + 1)
  omega

/-! ## The contract of `Topsort` -/

/-- C1: for every graph `g` and every way `pop` may pick its key, if `Topsort g`
returns `(sorted, nil)` then for every key `k` of `g` and every dependency `d`
in `g[k]` that is itself a key of `g`, both occur in `sorted` and `d` occurs at
an index strictly smaller than the index of `k`. -/
theorem Topsort_dependencies_first (pick : Nat → Nat) (g : Graph) (sorted : List Key)
    (h : Topsort pick g = some (.ok sorted)) :
    ∀ k ∈ keys g, ∀ d ∈ neighborsOf g k, d ∈ keys g →
      d ∈ sorted ∧ k ∈ sorted ∧ sorted.indexOf d < sorted.indexOf k := by
  have hspec := Topsort_spec pick g
  rw [h] at hspec
  obtain ⟨-, hmem, hprec⟩ := hspec
  intro k hk d hd hdk
  have hks : k ∈ sorted := (hmem k).mpr hk
  obtain ⟨hds, hlt⟩ := hprec k hks d hd hdk
  exact ⟨hds, hks, hlt⟩

/-- Witness of C1: the graph `a → b, x`, `b → c`, `c` with `x` absent is sorted
as `c, b, a`, and `b` stands before `a`. -/
theorem Topsort_dependencies_first_witness :
    Topsort (fun _ => 0) [("a", ["b", "x"]), ("b", ["c"]), ("c", [])]
        = some (.ok ["c", "b", "a"]) ∧
      ("b" ∈ ["c", "b", "a"] ∧ "a" ∈ ["c", "b", "a"] ∧
        List.indexOf "b" ["c", "b", "a"] < List.indexOf "a" ["c", "b", "a"]) :=
  ⟨rfl, Topsort_dependencies_first (fun _ => 0) [("a", ["b", "x"]), ("b", ["c"]), ("c", [])]
    ["c", "b", "a"] rfl "a" (by decide) "b" (by decide) (by decide)⟩

/-- C2: for every graph `g` without a cycle among its present keys, and for every
way `pop` may pick its key, `Topsort g` ends with a nil error and a list in which
every key of `g` occurs exactly once and nothing else occurs: a permutation of
the keys of the map.  The empty graph gives the empty list. -/
theorem Topsort_acyclic (pick : Nat → Nat) (g : Graph) (h : Acyclic g) :
    ∃ sorted, Topsort pick g = some (.ok sorted) ∧
      (∀ k ∈ keys g, sorted.count k = 1) ∧ (∀ k ∈ sorted, k ∈ keys g) ∧
      ((keys g).Nodup → sorted.Perm (keys g)) ∧ (g = [] → sorted = []) := by
  have hspec := Topsort_spec pick g
  cases hres : Topsort pick g with
  | none => rw [hres] at hspec; exact absurd hspec id
  | some r =>
    cases r with
    | error e =>
      rw [hres] at hspec
      obtain ⟨-, -, -, c, hc, -⟩ := hspec
      exact absurd hc (h c)
    | ok sorted =>
      rw [hres] at hspec
      obtain ⟨hnd, hmem, -⟩ := hspec
      refine ⟨sorted, rfl, fun k hk => List.count_eq_one_of_mem hnd ((hmem k).mpr hk),
        fun k hk => (hmem k).mp hk, fun hg => (List.perm_ext_iff_of_nodup hnd hg).mpr hmem, ?_⟩
      intro hg
      subst hg
      exact List.eq_nil_iff_forall_not_mem.mpr fun k hk => List.not_mem_nil k ((hmem k).mp hk)

/-- Witness of C2: the graph `a → b, x`, `b → c`, `c`, in which `x` is absent,
has no cycle, whichever list shows it to be ordered. -/
theorem Topsort_acyclic_witness :
    Acyclic [("a", ["b", "x"]), ("b", ["c"]), ("c", [])] ∧
      ∃ sorted, Topsort (fun n => n) [("a", ["b", "x"]), ("b", ["c"]), ("c", [])]
          = some (.ok sorted) ∧
        (∀ k ∈ keys [("a", ["b", "x"]), ("b", ["c"]), ("c", [])], sorted.count k = 1) ∧
        (∀ k ∈ sorted, k ∈ keys [("a", ["b", "x"]), ("b", ["c"]), ("c", [])]) ∧
        ((keys [("a", ["b", "x"]), ("b", ["c"]), ("c", [])]).Nodup →
          sorted.Perm (keys [("a", ["b", "x"]), ("b", ["c"]), ("c", [])])) ∧
        (([("a", ["b", "x"]), ("b", ["c"]), ("c", [])] : Graph) = [] → sorted = []) :=
  have hacyclic : Acyclic [("a", ["b", "x"]), ("b", ["c"]), ("c", [])] :=
    no_cycle_of_order _ ["c", "b", "a"] (by decide)
  ⟨hacyclic, Topsort_acyclic (fun n => n) _ hacyclic⟩

/-- C3: for every graph `g` that contains a cycle (keys `k0 .. k(n-1)` of `g`,
`n ≥ 1`, each `k((i+1) mod n)` in `g[ki]`; a key that lists itself is the case
`n = 1`), and for every way `pop` may pick its key, `Topsort g` returns an error
and no list: it never returns an order. -/
theorem Topsort_cycle_error (pick : Nat → Nat) (g : Graph) (c : List Key) (h : IsCycle g c) :
    (∃ e, Topsort pick g = some (.error e)) ∧ ∀ sorted, Topsort pick g ≠ some (.ok sorted) := by
  have hspec := Topsort_spec pick g
  have hno : ∀ sorted, Topsort pick g ≠ some (.ok sorted) := by
    intro sorted hres
    rw [hres] at hspec
    obtain ⟨-, hmem, hprec⟩ := hspec
    exact no_cycle_of_order g sorted
      (fun k hk d hd hdk => (hprec k ((hmem k).mpr hk) d hd hdk).2) c h
  refine ⟨?_, hno⟩
  cases hres : Topsort pick g with
  | none => rw [hres] at hspec; exact absurd hspec id
  | some r =>
    cases r with
    | error e => exact ⟨e, rfl⟩
    | ok sorted => exact absurd hres (hno sorted)

/-- Witness of C3: a key that lists itself. -/
theorem Topsort_cycle_error_witness :
    IsCycle [("x", []), ("a", ["x", "a"])] ["a"] ∧
      ((∃ e, Topsort (fun _ => 0) [("x", []), ("a", ["x", "a"])] = some (.error e)) ∧
        ∀ sorted, Topsort (fun _ => 0) [("x", []), ("a", ["x", "a"])] ≠ some (.ok sorted)) :=
  have hcycle : IsCycle [("x", []), ("a", ["x", "a"])] ["a"] := by
    unfold IsCycle; decide
  ⟨hcycle, Topsort_cycle_error (fun _ => 0) _ ["a"] hcycle⟩

end topsort

namespace topsort

/-! ## The states of a run -/

theorem keys_scanNeighbors (done : List Key) (curr : Key) :
    ∀ (fuel i : Nat) (g : Graph) (nbs : List Key),
      keys (scanNeighbors done curr fuel i g nbs).g = keys g := by
  intro fuel
  induction fuel with
  | zero => intro i g nbs; rfl
  | succ fuel ih =>
    intro i g nbs
    rw [scanNeighbors]
    cases hk : nbs[i]? with
    | none => rfl
    | some k =>
      simp only []
      by_cases h1 : k ∉ keys g
      · rw [if_pos h1, ih, keys_setNeighbors]
      · rw [if_neg h1]
        by_cases h2 : k ∉ done
        · rw [if_pos h2]
        · rw [if_neg h2, ih]

theorem keys_walk_finished (done : List Key) :
    ∀ (fuel : Nat) (g : Graph) (visited : List Key) (curr : Key) (g2 : Graph) (c : Key),
      walk done fuel g visited curr = .finished g2 c → keys g2 = keys g := by
  intro fuel
  induction fuel with
  | zero => intro g visited curr g2 c h; rw [walk] at h; exact nomatch h
  | succ fuel ih =>
    intro g visited curr g2 c h
    rw [walk] at h
    by_cases hmem : curr ∈ visited
    · rw [if_pos hmem] at h; exact nomatch h
    · rw [if_neg hmem] at h
      simp only [] at h
      cases hnext : (scanNeighbors done curr (neighborsOf g curr).length 0 g
          (neighborsOf g curr)).next with
      | none =>
        rw [hnext] at h
        simp only [WalkResult.finished.injEq] at h
        rw [← h.1, keys_scanNeighbors]
      | some k =>
        rw [hnext] at h
        rw [ih _ _ _ _ _ h, keys_scanNeighbors]

/-- The scan keeps the working graph a refinement of the original graph. -/
theorem refines_scan (orig : Graph) (done : List Key) (curr : Key) (g : Graph)
    (href : Refines orig g) (hcurr : curr ∈ keys g) :
    Refines orig (scanNeighbors done curr (neighborsOf g curr).length 0 g
      (neighborsOf g curr)).g := by
  have hs := scanNeighbors_spec done curr (neighborsOf g curr).length 0 g (neighborsOf g curr)
    hcurr rfl (by omega) (by simp)
  obtain ⟨h1, h2, h3, h4, h5, -, -⟩ := hs
  refine ⟨fun k hk => href.1 k (h1 ▸ hk), ?_, ?_⟩
  · intro k d hd
    by_cases hkc : k = curr
    · subst hkc
      rw [h3] at hd
      exact href.2.1 k d (h4 d hd)
    · rw [h2 k hkc] at hd
      exact href.2.1 k d hd
  · intro k d hk hd hdk
    rw [h1] at hk hdk
    by_cases hkc : k = curr
    · subst hkc
      rw [h3]
      exact h5 d (href.2.2 k d hk hd hdk) hdk
    · rw [h2 k hkc]
      exact href.2.2 k d hk hd hdk

/-- Every state at the head of the outer loop meets the invariant of the loop. -/
theorem reached_inv (pick : Nat → Nat) (orig : Graph) (n : Nat) (g : Graph)
    (done sorted : List Key) (h : Reached pick orig n g done sorted) :
    Inv orig g done sorted := by
  induction h with
  | start => exact inv_init orig
  | step n g g2 done sorted first curr _ hpop hwalk ih =>
    have hw := walk_spec orig done ((keys g).length + 1) g [] first ih.refines
      (fun k hk => (ih.sorted_keys k ((ih.done_iff k).mp hk)).2) (pop_mem _ _ _ hpop)
      (fun _ h => nomatch h) List.nodup_nil (by simp) (List.chain'_singleton _)
    rw [hwalk] at hw
    obtain ⟨hk, href, hc, hdeps⟩ := hw
    exact inv_step orig g g2 done sorted curr ih hk href hc hdeps

/-- The run of `Topsort` passes through every reached state: from there on it is
the outer loop entered in that state, with fuel left. -/
theorem reached_run (pick : Nat → Nat) (orig : Graph) (n : Nat) (g : Graph)
    (done sorted : List Key) (h : Reached pick orig n g done sorted) :
    ∃ fuel, (keys g).length < fuel ∧
      Topsort pick orig = topsortLoop pick fuel n g done sorted := by
  induction h with
  | start => exact ⟨(keys orig).length + 1, Nat.lt_succ_self _, rfl⟩
  | step n g g2 done sorted first curr hr hpop hwalk ih =>
    obtain ⟨fuel, hfuel, hrun⟩ := ih
    obtain ⟨fuel, rfl⟩ : ∃ f, fuel = f + 1 := ⟨fuel - 1, by omega⟩
    refine ⟨fuel, ?_, ?_⟩
    · have hk := keys_walk_finished done _ g [] first g2 curr hwalk
      have hw := walk_spec orig done ((keys g).length + 1) g [] first
        (reached_inv pick orig n g done sorted hr).refines
        (fun k hk => ((reached_inv pick orig n g done sorted hr).sorted_keys k
          (((reached_inv pick orig n g done sorted hr).done_iff k).mp hk)).2)
        (pop_mem _ _ _ hpop)
        (fun _ h => nomatch h) List.nodup_nil (by simp) (List.chain'_singleton _)
      rw [hwalk] at hw
      have := length_keys_delete_lt g2 curr (hk ▸ hw.2.2.1)
      rw [hk] at this
      omega
    · rw [hrun, topsortLoop, hpop]
      simp only [hwalk]

/-- A run that ends in a cycle error ends in a walk, begun in a reached state,
that met a node again; the error is built from the nodes of that walk. -/
theorem topsortLoop_cycle_walk (pick : Nat → Nat) (orig : Graph) (e : CycleError) :
    ∀ (fuel n : Nat) (g : Graph) (done sorted : List Key),
      Reached pick orig n g done sorted →
      topsortLoop pick fuel n g done sorted = some (.error e) →
      ∃ n2 g2 done2 sorted2 first visited, Reached pick orig n2 g2 done2 sorted2 ∧
        pop (pick n2) g2 = some first ∧
        walk done2 ((keys g2).length + 1) g2 [] first = .cycle visited ∧
        e = cycleError visited := by
  intro fuel
  induction fuel with
  | zero => intro n g done sorted _ h; rw [topsortLoop] at h; exact nomatch h
  | succ fuel ih =>
    intro n g done sorted hr h
    rw [topsortLoop] at h
    cases hpop : pop (pick n) g with
    | none => rw [hpop] at h; exact nomatch h
    | some first =>
      rw [hpop] at h
      simp only [] at h
      cases hwalk : walk done ((keys g).length + 1) g [] first with
      | outOfFuel => rw [hwalk] at h; exact nomatch h
      | cycle visited =>
        rw [hwalk] at h
        simp only [Option.some.injEq, Except.error.injEq] at h
        exact ⟨n, g, done, sorted, first, visited, hr, hpop, hwalk, h.symm⟩
      | finished g2 c =>
        rw [hwalk] at h
        exact ih (n + 1) (delete g2 c) (c :: done) (sorted ++ [c])
          (Reached.step n g g2 done sorted first c hr hpop hwalk) h

/-- The shape of the nodes of a walk that met a node again: they are distinct
keys, each a dependency of the one before, they begin as the walk began, and
from the first visit of the node met again they go round a cycle. -/
theorem walk_cycle_shape (orig : Graph) (done : List Key) :
    ∀ (fuel : Nat) (g : Graph) (visited : List Key) (curr : Key),
      Refines orig g → curr ∈ keys g → (∀ k ∈ visited, k ∈ keys g) → visited.Nodup →
      List.Chain' (fun a b => b ∈ neighborsOf orig a) (visited ++ [curr]) →
      ∀ vs, walk done fuel g visited curr = .cycle vs →
        vs.Nodup ∧ (∀ k ∈ vs, k ∈ keys orig) ∧
        List.Chain' (fun a b => b ∈ neighborsOf orig a) vs ∧
        vs.head? = (visited ++ [curr]).head? ∧
        ∃ lead r rest, vs = lead ++ r :: rest ∧ IsCycle orig (r :: rest) := by
  intro fuel
  induction fuel with
  | zero => intro g visited curr _ _ _ _ _ vs h; rw [walk] at h; exact nomatch h
  | succ fuel ih =>
    intro g visited curr href hcurr hvis hnd hchain vs h
    rw [walk] at h
    by_cases hmem : curr ∈ visited
    · rw [if_pos hmem] at h
      simp only [WalkResult.cycle.injEq] at h
      subst h
      obtain ⟨l1, l2, hsplit⟩ := List.append_of_mem hmem
      have hc2 : List.Chain' (fun a b => b ∈ neighborsOf orig a) ((curr :: l2) ++ [curr]) := by
        have h := hchain
        rw [hsplit, List.append_assoc] at h
        exact (List.chain'_append.mp h).2.1
      obtain ⟨hc3, -, hc4⟩ := List.chain'_append.mp hc2
      refine ⟨hnd, fun k hk => href.1 k (hvis k hk), (List.chain'_append.mp hchain).1, ?_,
        l1, curr, l2, hsplit, ?_⟩
      · cases visited with
        | nil => exact absurd hmem (List.not_mem_nil _)
        | cons a rest => rfl
      · refine isCycle_of_chain orig (curr :: l2) (List.cons_ne_nil _ _) ?_ hc3 ?_
        · intro k hk
          exact href.1 k (hvis k (by rw [hsplit]; exact List.mem_append_right _ hk))
        · exact hc4 _ (List.getLast?_eq_getLast _ (List.cons_ne_nil _ _) ▸ rfl) curr rfl
    · rw [if_neg hmem] at h
      simp only [] at h
      have hs := scanNeighbors_spec done curr (neighborsOf g curr).length 0 g (neighborsOf g curr)
        hcurr rfl (by omega) (by simp)
      obtain ⟨h1, -, -, -, -, h6, -⟩ := hs
      have href2 := refines_scan orig done curr g href hcurr
      cases hnext : (scanNeighbors done curr (neighborsOf g curr).length 0 g
          (neighborsOf g curr)).next with
      | none => rw [hnext] at h; exact nomatch h
      | some k =>
        rw [hnext] at h
        obtain ⟨hk1, hk2, -⟩ := h6 k hnext
        have := ih (scanNeighbors done curr (neighborsOf g curr).length 0 g
          (neighborsOf g curr)).g (visited ++ [curr]) k href2
          (by rw [h1]; exact hk2)
          (by
            rw [h1]
            intro x hx
            rcases List.mem_append.mp hx with hx | hx
            · exact hvis x hx
            · exact (List.mem_singleton.mp hx) ▸ hcurr)
          (by
            rw [List.nodup_append]
            refine ⟨hnd, List.nodup_singleton _, ?_⟩
            intro x hx hx2
            exact hmem ((List.mem_singleton.mp hx2) ▸ hx))
          (by
            rw [List.chain'_append]
            refine ⟨hchain, List.chain'_singleton _, ?_⟩
            intro x hx y hy
            rw [List.getLast?_concat] at hx
            simp only [Option.mem_def, Option.some.injEq] at hx
            simp only [List.head?_cons, Option.mem_def, Option.some.injEq] at hy
            subst hx hy
            exact href.2.1 _ _ hk1)
          vs h
        obtain ⟨a1, a2, a3, a4, a5⟩ := this
        refine ⟨a1, a2, a3, ?_, a5⟩
        rw [a4]
        cases visited with
        | nil => rfl
        | cons a rest => rfl

/-- A key that is no dependency of any key lies on no cycle. -/
theorem not_mem_cycle_of_source (g : Graph) (a : Key)
    (h : ∀ k ∈ keys g, a ∉ neighborsOf g k) (c : List Key) (hc : IsCycle g c) : a ∉ c := by
  intro ha
  obtain ⟨hpos, hkeys, hedge⟩ := hc
  obtain ⟨⟨i, hi⟩, hget⟩ := List.mem_iff_get.mp ha
  by_cases h0 : i = 0
  · subst h0
    have hj : c.length - 1 < c.length := by omega
    have he := hedge (c.length - 1) hj
    have hfin : (⟨(c.length - 1 + 1) % c.length, Nat.mod_lt _ (Nat.zero_lt_of_lt hj)⟩ :
        Fin c.length) = ⟨0, hi⟩ := Fin.ext (by
      have : c.length - 1 + 1 = c.length := by omega
      simp [this])
    rw [hfin, hget] at he
    exact h _ (hkeys _ (List.get_mem _ _ _)) he
  · have hj : i - 1 < c.length := by omega
    have he := hedge (i - 1) hj
    have hfin : (⟨(i - 1 + 1) % c.length, Nat.mod_lt _ (Nat.zero_lt_of_lt hj)⟩ :
        Fin c.length) = ⟨i, hi⟩ := Fin.ext (by
      have : i - 1 + 1 = i := by omega
      simp only [this]
      exact Nat.mod_eq_of_lt hi)
    rw [hfin, hget] at he
    exact h _ (hkeys _ (List.get_mem _ _ _)) he

/-! ## The text of a cycle error -/

theorem pop_single (choice : Nat) (k : Key) (nbs : List Key) :
    pop choice [(k, nbs)] = some k := by
  simp [pop, keys, Nat.mod_one]

/-- A graph with one key that depends on itself gives the error built from that
key, whatever `pop` picks. -/
theorem Topsort_self_loop (pick : Nat → Nat) (k : Key) :
    Topsort pick [(k, [k])] = some (.error (cycleError [k])) := by
  have hkeys : keys [(k, [k])] = [k] := rfl
  have hnb : neighborsOf [(k, [k])] k = [k] := by simp [neighborsOf, List.lookup]
  have hscan : scanNeighbors [] k 1 0 [(k, [k])] [k] = ⟨[(k, [k])], [k], some k⟩ := by
    rw [scanNeighbors]
    simp [hkeys]
  have hwalk : walk [] 2 [(k, [k])] [] k = .cycle [k] := by
    rw [walk, if_neg (List.not_mem_nil k)]
    simp only [hnb, List.length_singleton, hscan, List.nil_append]
    rw [walk, if_pos (List.mem_singleton.mpr rfl)]
  unfold Topsort
  rw [hkeys, List.length_singleton, topsortLoop, pop_single]
  simp only [hkeys, List.length_singleton, hwalk]

/-- C25: when `Topsort` returns a cycle error, the error is
`fmt.Errorf(format)` with the format string `Variables form a cycle: ` followed
by the nodes visited in the walk that met a node again, joined with `, `.
Those nodes are distinct keys of the input graph, each after the first a
dependency of the one before, the first being the node at which the walk began,
and from the first visit of the node met again onwards they form a cycle of the
graph; the nodes before it need not lie on any cycle, as `a` in the graph where
`a` depends on `b` and `b` on itself.  But the keys are handed to the library
inside the format string, and joined without quoting.  For the graph with the
one key `%d` that depends on itself the format is `Variables form a cycle: %d`,
a verb with no operand, for which the library prints `%!d(MISSING)`: the text
names no key of the graph.  For the graph with the one key `a, b` the error is
the very error of the graph in which `a` and `b` depend on each other, and
neither `a` nor `b` is a key of the first graph. -/
theorem Topsort_cycle_error_text (pick : Nat → Nat) (g : Graph) :
    (∀ e, Topsort pick g = some (.error e) →
      ∃ visited, e.format = "Variables form a cycle: " ++ ", ".intercalate visited ∧
        (∃ n g2 done sorted first, Reached pick g n g2 done sorted ∧
          pop (pick n) g2 = some first ∧
          walk done ((keys g2).length + 1) g2 [] first = .cycle visited ∧
          visited.head? = some first) ∧
        (∀ k ∈ visited, k ∈ keys g) ∧ visited.Nodup ∧
        List.Chain' (fun a b => b ∈ neighborsOf g a) visited ∧
        ∃ lead r rest, visited = lead ++ r :: rest ∧ IsCycle g (r :: rest)) ∧
    Topsort pick percentGraph = some (.error ⟨"Variables form a cycle: %d"⟩) ∧
    (Topsort pick commaGraph = some (.error ⟨"Variables form a cycle: a, b"⟩) ∧
      Topsort (fun _ => 0) pairGraph = some (.error ⟨"Variables form a cycle: a, b"⟩) ∧
      "a" ∉ keys commaGraph ∧ "b" ∉ keys commaGraph) ∧
    (Topsort (fun _ => 0) leadInGraph = some (.error ⟨"Variables form a cycle: a, b"⟩) ∧
      ∀ c, IsCycle leadInGraph c → "a" ∉ c) := by
  refine ⟨?_, Topsort_self_loop pick "%d", ⟨Topsort_self_loop pick "a, b", rfl, by decide,
    by decide⟩, rfl, not_mem_cycle_of_source leadInGraph "a" (by decide)⟩
  intro e h
  obtain ⟨n, g2, done, sorted, first, visited, hr, hpop, hwalk, he⟩ :=
    topsortLoop_cycle_walk pick g e _ 0 g [] [] Reached.start h
  have hinv := reached_inv pick g n g2 done sorted hr
  obtain ⟨h1, h2, h3, h4, lead, r, rest, h5, h6⟩ :=
    walk_cycle_shape g done _ g2 [] first hinv.refines (pop_mem _ _ _ hpop)
      (fun _ h => nomatch h) List.nodup_nil (List.chain'_singleton _) visited hwalk
  exact ⟨visited, by rw [he]; rfl, ⟨n, g2, done, sorted, first, hr, hpop, hwalk, h4⟩, h2, h1, h3,
    lead, r, rest, h5, h6⟩

/-! ## The set of finished nodes -/

theorem scanNeighbors_eq_simple (done : List Key) (curr : Key) :
    ∀ (fuel i : Nat) (g : Graph) (nbs : List Key), (∀ k ∈ keys g, k ∉ done) →
      scanNeighbors done curr fuel i g nbs = scanNeighborsSimple curr fuel i g nbs := by
  intro fuel
  induction fuel with
  | zero => intro i g nbs _; rfl
  | succ fuel ih =>
    intro i g nbs hdone
    rw [scanNeighbors, scanNeighborsSimple]
    cases hk : nbs[i]? with
    | none => rfl
    | some k =>
      simp only []
      by_cases h1 : k ∉ keys g
      · rw [if_pos h1, if_pos h1]
        exact ih _ _ _ (by rw [keys_setNeighbors]; exact hdone)
      · rw [if_neg h1, if_neg h1, if_pos (hdone k (not_not.mp h1))]

theorem walk_eq_simple (done : List Key) :
    ∀ (fuel : Nat) (g : Graph) (visited : List Key) (curr : Key), (∀ k ∈ keys g, k ∉ done) →
      walk done fuel g visited curr = walkSimple fuel g visited curr := by
  intro fuel
  induction fuel with
  | zero => intro g visited curr _; rfl
  | succ fuel ih =>
    intro g visited curr hdone
    rw [walk, walkSimple]
    by_cases hmem : curr ∈ visited
    · rw [if_pos hmem, if_pos hmem]
    · rw [if_neg hmem, if_neg hmem]
      simp only []
      rw [← scanNeighbors_eq_simple done curr _ 0 g _ hdone]
      cases hnext : (scanNeighbors done curr (neighborsOf g curr).length 0 g
          (neighborsOf g curr)).next with
      | none => rfl
      | some k =>
        simp only []
        exact ih _ _ _ (by rw [keys_scanNeighbors]; exact hdone)

theorem topsortLoop_eq_simple (pick : Nat → Nat) :
    ∀ (fuel n : Nat) (g : Graph) (done sorted : List Key), (∀ k ∈ keys g, k ∉ done) →
      topsortLoop pick fuel n g done sorted = topsortLoopSimple pick fuel n g sorted := by
  intro fuel
  induction fuel with
  | zero => intro n g done sorted _; rfl
  | succ fuel ih =>
    intro n g done sorted hdone
    rw [topsortLoop, topsortLoopSimple]
    cases hpop : pop (pick n) g with
    | none => rfl
    | some first =>
      simp only []
      rw [← walk_eq_simple done _ g [] first hdone]
      cases hwalk : walk done ((keys g).length + 1) g [] first with
      | outOfFuel => rfl
      | cycle visited => rfl
      | finished g2 c =>
        simp only []
        refine ih _ _ _ _ ?_
        intro k hk hkd
        obtain ⟨hk1, hk2⟩ := (mem_keys_delete g2 c k).mp hk
        rw [keys_walk_finished done _ g [] first g2 c hwalk] at hk1
        rcases List.mem_cons.mp hkd with hkc | hkd
        · exact hk2 hkc
        · exact hdone k hk1 hkd

/-- C26: in every state that the run of `Topsort` reaches at the head of its
outer loop, and the run passes through each of them, no finished node is a key
of the working graph, and the keys of the input graph are the finished nodes
together with the keys of the working graph.  The walks and scans begun there
change neither the keys of the working graph nor the set of finished nodes, so
the same holds inside them: a neighbour that is a key of the working graph is
not done, every scan does what the scan without the check of `done` and without
the branch `Try next neighbor` does, and so does every walk.  Hence `Topsort`
returns what the algorithm without that branch and that check returns. -/
theorem Topsort_done_invariant (pick : Nat → Nat) (g : Graph) :
    (∀ n g2 done sorted, Reached pick g n g2 done sorted →
      (∃ fuel, (keys g2).length < fuel ∧
        Topsort pick g = topsortLoop pick fuel n g2 done sorted) ∧
      (∀ k, ¬ (k ∈ done ∧ k ∈ keys g2)) ∧
      (∀ k, k ∈ keys g ↔ k ∈ done ∨ k ∈ keys g2) ∧
      (∀ curr fuel i g3 nbs, keys g3 = keys g2 →
        keys (scanNeighbors done curr fuel i g3 nbs).g = keys g2 ∧
        (∀ k, nbs[i]? = some k → k ∈ keys g3 → k ∉ done) ∧
        scanNeighbors done curr fuel i g3 nbs = scanNeighborsSimple curr fuel i g3 nbs) ∧
      (∀ fuel g3 visited curr, keys g3 = keys g2 →
        (∀ g4 c, walk done fuel g3 visited curr = .finished g4 c → keys g4 = keys g2) ∧
        walk done fuel g3 visited curr = walkSimple fuel g3 visited curr)) ∧
    Topsort pick g = TopsortSimple pick g := by
  refine ⟨?_, topsortLoop_eq_simple pick _ 0 g [] [] (fun _ _ h => nomatch h)⟩
  intro n g2 done sorted hr
  have hinv := reached_inv pick g n g2 done sorted hr
  have hdis : ∀ k ∈ keys g2, k ∉ done := fun k hk hd =>
    (hinv.sorted_keys k ((hinv.done_iff k).mp hd)).2 hk
  refine ⟨reached_run pick g n g2 done sorted hr, fun k hk => hdis k hk.2 hk.1, ?_, ?_, ?_⟩
  · intro k
    constructor
    · intro hk
      rcases hinv.cover k hk with h | h
      · exact Or.inr h
      · exact Or.inl ((hinv.done_iff k).mpr h)
    · intro hk
      rcases hk with h | h
      · exact (hinv.sorted_keys k ((hinv.done_iff k).mp h)).1
      · exact hinv.refines.1 k h
  · intro curr fuel i g3 nbs hkeys
    refine ⟨by rw [keys_scanNeighbors, hkeys], fun k _ hk => hdis k (hkeys ▸ hk), ?_⟩
    exact scanNeighbors_eq_simple done curr fuel i g3 nbs (by rw [hkeys]; exact hdis)
  · intro fuel g3 visited curr hkeys
    refine ⟨fun g4 c h => by rw [keys_walk_finished done fuel g3 visited curr g4 c h, hkeys], ?_⟩
    exact walk_eq_simple done fuel g3 visited curr (by rw [hkeys]; exact hdis)

end topsort

namespace input

/-! ## `Type.Matches` -/

theorem matches_mk (name : String) (aliases : List String) (children : List InputType)
    (s : String) :
    (InputType.mk name aliases children).Matches s = true ↔
      name = s ∨ InputType.matchesChildren children s = true := by
  rw [InputType.Matches]
  by_cases h : name = s <;> simp [h]

theorem matchesChildren_iff (children : List InputType) (s : String) :
    InputType.matchesChildren children s = true ↔ ∃ c ∈ children, c.Matches s = true := by
  induction children with
  | nil => simp [InputType.matchesChildren]
  | cons c rest ih =>
    rw [InputType.matchesChildren]
    by_cases h : c.Matches s = true
    · simp [h]
    · simp [h, ih]

theorem matches_iff_children (t : InputType) (s : String) :
    t.Matches s = true ↔ t.Name = s ∨ ∃ c ∈ t.Children, c.Matches s = true := by
  obtain ⟨name, aliases, children⟩ := t
  rw [matches_mk, matchesChildren_iff]
  rfl

theorem matches_name (t : InputType) : t.Matches t.Name = true :=
  (matches_iff_children t t.Name).mpr (Or.inl rfl)

theorem matches_of_descendant {d t : InputType} (h : Descendant d t) :
    t.Matches d.Name = true := by
  induction h with
  | child hc => exact (matches_iff_children _ _).mpr (Or.inr ⟨_, hc, matches_name _⟩)
  | deeper hc _ ih => exact (matches_iff_children _ _).mpr (Or.inr ⟨_, hc, ih⟩)

theorem descendant_of_matches : ∀ (t : InputType) (s : String), t.Matches s = true →
    s = t.Name ∨ ∃ d, Descendant d t ∧ s = d.Name
  | .mk name aliases children, s, h => by
    rcases (matches_iff_children _ s).mp h with h | ⟨c, hc, hcs⟩
    · exact Or.inl h.symm
    · have hlt : sizeOf c < sizeOf (InputType.mk name aliases children) := by
        have hc2 : c ∈ children := hc
        have := List.sizeOf_lt_of_mem hc2
        simp only [InputType.mk.sizeOf_spec]
        omega
      rcases descendant_of_matches c s hcs with h2 | ⟨d, hd, hds⟩
      · exact Or.inr ⟨c, Descendant.child hc, h2⟩
      · exact Or.inr ⟨d, Descendant.deeper hc hd, hds⟩
termination_by t => sizeOf t
decreasing_by exact hlt

/-- C4: for every type `t` and string `s`, `t.Matches(s)` is true if and only if
`s` is the name of `t` or of a descendant of `t`; `Matches` is reflexive and
passes from a child to its parent; and `Any` matches `"tf_state"` through
`Terraform` and `CloudScan`. -/
theorem Matches_iff_name_of_descendant (t : InputType) (s : String) :
    (t.Matches s = true ↔ s = t.Name ∨ ∃ d, Descendant d t ∧ s = d.Name) ∧
      t.Matches t.Name = true ∧
      (∀ c ∈ t.Children, c.Matches s = true → t.Matches s = true) ∧
      (Any.Matches "tf_state" = true ∧ Terraform ∈ Any.Children ∧
        CloudScan ∈ Terraform.Children ∧ TerraformState ∈ CloudScan.Children ∧
        TerraformState.Name = "tf_state") := by
  refine ⟨⟨descendant_of_matches t s, ?_⟩, matches_name t, ?_, ?_⟩
  · rintro (h | ⟨d, hd, hds⟩)
    · exact h ▸ matches_name t
    · exact hds ▸ matches_of_descendant hd
  · intro c hc hcs
    exact (matches_iff_children t s).mpr (Or.inr ⟨c, hc, hcs⟩)
  · refine ⟨by decide, ?_, ?_, ?_, rfl⟩
    · simp [Any, InputType.Children]
    · simp [Terraform, InputType.Children]
    · simp [CloudScan, InputType.Children]

/-- C5, evaluated: `Any` matches the names of eight of the nine input types
declared in the package and does not match `"streamlined_state"`, the name of
`StreamlinedState`. -/
theorem Any_matches_declared_types :
    Any.Matches Arm.Name = true ∧ Any.Matches CloudFormation.Name = true ∧
      Any.Matches CloudScan.Name = true ∧ Any.Matches Kubernetes.Name = true ∧
      Any.Matches Terraform.Name = true ∧ Any.Matches TerraformHCL.Name = true ∧
      Any.Matches TerraformPlan.Name = true ∧ Any.Matches TerraformState.Name = true ∧
      StreamlinedState.Name = "streamlined_state" ∧
      Any.Matches "streamlined_state" = false := by
  decide

/-! ## `Types.FromString` -/

theorem aliasMatches_iff (lower : String → String) (x : String) (aliases : List String) :
    aliasMatches lower x aliases = true ↔ ∃ a ∈ aliases, lower a = x := by
  induction aliases with
  | nil => simp [aliasMatches]
  | cons a rest ih =>
    rw [aliasMatches]
    by_cases h : lower a = x
    · simp [h]
    · simp [h, ih]

theorem fromStringLoop_ok_iff (lower : String → String) (x : String) (ts : Types)
    (t : InputType) :
    Types.fromStringLoop lower x ts = .ok t ↔
      ∃ pre post, ts = pre ++ t :: post ∧
        (lower t.Name = x ∨ ∃ a ∈ t.Aliases, lower a = x) ∧
        ∀ u ∈ pre, ¬ (lower u.Name = x ∨ ∃ a ∈ u.Aliases, lower a = x) := by
  induction ts with
  | nil => simp [Types.fromStringLoop]
  | cons i rest ih =>
    rw [Types.fromStringLoop]
    by_cases hi : lower i.Name = x ∨ ∃ a ∈ i.Aliases, lower a = x
    · have hret : (if lower i.Name = x then (Except.ok i : Except String InputType)
          else if aliasMatches lower x i.Aliases = true then Except.ok i
          else Types.fromStringLoop lower x rest) = Except.ok i := by
        rcases hi with h | h
        · rw [if_pos h]
        · by_cases hn : lower i.Name = x
          · rw [if_pos hn]
          · rw [if_neg hn, if_pos ((aliasMatches_iff lower x _).mpr h)]
      rw [hret]
      constructor
      · intro h
        cases h
        exact ⟨[], rest, rfl, hi, fun _ h => nomatch h⟩
      · rintro ⟨pre, post, hsplit, -, hpre⟩
        cases pre with
        | nil =>
          simp only [List.nil_append, List.cons.injEq] at hsplit
          rw [hsplit.1]
        | cons u pre =>
          simp only [List.cons_append, List.cons.injEq] at hsplit
          exact absurd (hsplit.1 ▸ hi) (hpre u (List.mem_cons_self _ _))
    · have hn : ¬ lower i.Name = x := fun h => hi (Or.inl h)
      have ha : ¬ aliasMatches lower x i.Aliases = true :=
        fun h => hi (Or.inr ((aliasMatches_iff lower x _).mp h))
      rw [if_neg hn, if_neg ha, ih]
      constructor
      · rintro ⟨pre, post, hsplit, hm, hpre⟩
        refine ⟨i :: pre, post, by rw [hsplit]; rfl, hm, ?_⟩
        intro u hu
        rcases List.mem_cons.mp hu with h | h
        · exact h ▸ hi
        · exact hpre u h
      · rintro ⟨pre, post, hsplit, hm, hpre⟩
        cases pre with
        | nil =>
          simp only [List.nil_append, List.cons.injEq] at hsplit
          exact absurd (hsplit.1 ▸ hm) hi
        | cons u pre =>
          simp only [List.cons_append, List.cons.injEq] at hsplit
          exact ⟨pre, post, hsplit.2, hm, fun v hv => hpre v (List.mem_cons_of_mem _ hv)⟩

theorem fromStringLoop_error_iff (lower : String → String) (x : String) (ts : Types)
    (e : String) :
    Types.fromStringLoop lower x ts = .error e ↔
      e = "Unrecognized input type" ∧
        ∀ u ∈ ts, ¬ (lower u.Name = x ∨ ∃ a ∈ u.Aliases, lower a = x) := by
  induction ts with
  | nil =>
    rw [Types.fromStringLoop]
    constructor
    · intro h
      cases h
      exact ⟨rfl, fun _ h => nomatch h⟩
    · rintro ⟨rfl, -⟩
      rfl
  | cons i rest ih =>
    rw [Types.fromStringLoop]
    by_cases hn : lower i.Name = x
    · rw [if_pos hn]
      constructor
      · intro h; cases h
      · rintro ⟨-, h⟩
        exact absurd (Or.inl hn) (h i (List.mem_cons_self _ _))
    · rw [if_neg hn]
      by_cases ha : aliasMatches lower x i.Aliases = true
      · rw [if_pos ha]
        constructor
        · intro h; cases h
        · rintro ⟨-, h⟩
          exact absurd (Or.inr ((aliasMatches_iff lower x _).mp ha)) (h i (List.mem_cons_self _ _))
      · rw [if_neg ha, ih]
        constructor
        · rintro ⟨he, h⟩
          refine ⟨he, fun u hu => ?_⟩
          rcases List.mem_cons.mp hu with h2 | h2
          · subst h2
            rintro (h3 | h3)
            · exact hn h3
            · exact ha ((aliasMatches_iff lower x _).mpr h3)
          · exact h u h2
        · rintro ⟨he, h⟩
          exact ⟨he, fun u hu => h u (List.mem_cons_of_mem _ hu)⟩

/-- C6: for every list of types `ts` and string `s`, `ts.FromString(s)` returns
the first type of the list whose name or one of whose aliases equals `s` when
both are lower-cased; two inputs with the same lower-cased form give the same
result; and the result is the error `"Unrecognized input type"`, the only error
there is, if and only if no type of the list has such a name or alias.  This
holds whatever function lowers the case. -/
theorem FromString_first_match (lower : String → String) (ts : Types) (s : String) :
    (∀ t, Types.FromString lower ts s = .ok t ↔
      ∃ pre post, ts = pre ++ t :: post ∧ NameMatches lower s t ∧
        ∀ u ∈ pre, ¬ NameMatches lower s u) ∧
    (∀ s2, lower s2 = lower s → Types.FromString lower ts s2 = Types.FromString lower ts s) ∧
    (Types.FromString lower ts s = .error "Unrecognized input type" ↔
      ∀ u ∈ ts, ¬ NameMatches lower s u) ∧
    (∀ e, Types.FromString lower ts s = .error e → e = "Unrecognized input type") := by
  refine ⟨fun t => fromStringLoop_ok_iff lower (lower s) ts t, ?_, ?_, ?_⟩
  · intro s2 h
    simp only [Types.FromString, h]
  · rw [Types.FromString, fromStringLoop_error_iff]
    exact ⟨fun h => h.2, fun h => ⟨rfl, h⟩⟩
  · intro e h
    exact ((fromStringLoop_error_iff lower (lower s) ts e).mp h).1

/-- C7: for every type `t` of `SupportedInputTypes`, looking up its name returns
`t` itself without error, and so does looking up each of its aliases; no name or
alias of a supported type equals, when lower-cased, a name or alias of another
one. -/
theorem FromString_supported_names (t : InputType) (h : t ∈ SupportedInputTypes) :
    Types.FromString ToLower SupportedInputTypes t.Name = .ok t ∧
      (∀ a ∈ t.Aliases, Types.FromString ToLower SupportedInputTypes a = .ok t) ∧
      List.Pairwise
        (fun u v => ∀ x ∈ u.Name :: u.Aliases, ∀ y ∈ v.Name :: v.Aliases, ToLower x ≠ ToLower y)
        SupportedInputTypes := by
  refine ⟨?_, ?_, by decide⟩
  · simp only [SupportedInputTypes, List.mem_cons, List.mem_singleton, List.not_mem_nil,
      or_false] at h
    rcases h with rfl | rfl | rfl | rfl | rfl | rfl | rfl | rfl <;> rfl
  · simp only [SupportedInputTypes, List.mem_cons, List.mem_singleton, List.not_mem_nil,
      or_false] at h
    intro a ha
    rcases h with rfl | rfl | rfl | rfl | rfl | rfl | rfl | rfl <;>
      simp only [Auto, Arm, CloudFormation, Kubernetes, TerraformHCL, TerraformPlan,
        TerraformState, StreamlinedState, InputType.Aliases, List.mem_cons, List.mem_singleton,
        List.not_mem_nil, or_false] at ha <;>
      first
        | exact absurd ha id
        | (subst ha; rfl)

/-- Witness of C7: the supported type `TerraformPlan`, found by its name
`"tf_plan"` and by its alias `"tf-plan"`. -/
theorem FromString_supported_names_witness :
    Types.FromString ToLower SupportedInputTypes "tf_plan" = .ok TerraformPlan ∧
      Types.FromString ToLower SupportedInputTypes "tf-plan" = .ok TerraformPlan :=
  have h := FromString_supported_names TerraformPlan
    (by simp [SupportedInputTypes])
  ⟨h.1, h.2.1 "tf-plan" (by simp [TerraformPlan, InputType.Aliases])⟩

/-! ## `Type.Equals` and `Types.Equals` -/

theorem aliasesDiffer_eq_false_iff (aliases others : List String)
    (h : aliases.length = others.length) :
    aliasesDiffer aliases others = false ↔ aliases = others := by
  induction aliases generalizing others with
  | nil =>
    cases others with
    | nil => simp [aliasesDiffer]
    | cons b others => simp at h
  | cons a rest ih =>
    cases others with
    | nil => simp at h
    | cons b others =>
      rw [aliasesDiffer]
      simp only [List.length_cons, Nat.add_right_cancel_iff] at h
      by_cases hab : a = b
      · simp [hab, ih others h]
      · simp [hab]

theorem equalsLoop_iff (ts us : List InputType) (h : ts.length = us.length) :
    Types.equalsLoop ts us = true ↔ List.Forall₂ (fun c d => c.Equals d = true) ts us := by
  induction ts generalizing us with
  | nil =>
    cases us with
    | nil => simp [Types.equalsLoop]
    | cons b us => simp at h
  | cons a rest ih =>
    cases us with
    | nil => simp at h
    | cons b us =>
      rw [Types.equalsLoop, List.forall₂_cons]
      simp only [List.length_cons, Nat.add_right_cancel_iff] at h
      by_cases hab : a.Equals b = true
      · simp [hab, ih us h]
      · simp [hab]

theorem Types_Equals_iff (ts us : Types) :
    Types.Equals ts us = true ↔ List.Forall₂ (fun c d => c.Equals d = true) ts us := by
  unfold Types.Equals
  by_cases h : ts.length = us.length
  · rw [if_neg (not_not.mpr h), equalsLoop_iff ts us h]
  · rw [if_pos h]
    constructor
    · intro h2; cases h2
    · intro h2; exact absurd h2.length_eq h

theorem Equals_iff (a b : InputType) :
    a.Equals b = true ↔
      a.Name = b.Name ∧ a.Aliases = b.Aliases ∧ Types.Equals a.Children b.Children = true := by
  obtain ⟨name, aliases, children⟩ := a
  obtain ⟨otherName, otherAliases, otherChildren⟩ := b
  rw [InputType.Equals]
  simp only [InputType.Name, InputType.Aliases, InputType.Children, Types.Equals]
  by_cases hn : name = otherName
  · rw [if_neg (not_not.mpr hn)]
    by_cases hl : aliases.length = otherAliases.length
    · rw [if_neg (not_not.mpr hl)]
      cases hd : aliasesDiffer aliases otherAliases with
      | true =>
        have hne : aliases ≠ otherAliases := fun h =>
          Bool.noConfusion (hd.symm.trans ((aliasesDiffer_eq_false_iff _ _ hl).mpr h))
        simp [hn, hne]
      | false =>
        have he := (aliasesDiffer_eq_false_iff _ _ hl).mp hd
        simp [hn, he]
    · rw [if_pos hl]
      have hne : aliases ≠ otherAliases := fun h => hl (h ▸ rfl)
      simp [hne]
  · rw [if_pos hn]
    simp [hn]

/-- The comparison of a type with itself is true: the pointer shortcut of
`Type.Equals` returns what the comparison returns. -/
theorem Equals_refl : ∀ t : InputType, t.Equals t = true
  | .mk name aliases children => by
    rw [Equals_iff, Types_Equals_iff]
    refine ⟨rfl, rfl, ?_⟩
    rw [List.forall₂_iff_get]
    refine ⟨rfl, fun i h1 _ => ?_⟩
    have hlt : sizeOf ((InputType.mk name aliases children).Children.get ⟨i, h1⟩)
        < sizeOf (InputType.mk name aliases children) := by
      have hc : (InputType.mk name aliases children).Children.get ⟨i, h1⟩ ∈ children :=
        List.get_mem _ _ _
      have := List.sizeOf_lt_of_mem hc
      simp only [InputType.mk.sizeOf_spec]
      omega
    exact Equals_refl _
termination_by t => sizeOf t
decreasing_by exact hlt

/-- C8: `Type.Equals` is a deep structural comparison: `a.Equals(b)` is true if
and only if the names are equal, the alias lists have the same length and are
equal element by element in order, and the lists of children have the same
length and are pairwise `Equals` in order.  It is false whenever the alias lists
differ, and `Types.Equals` is false for lists that hold types with different
alias lists at the same index. -/
theorem Equals_deep (a b : InputType) :
    (a.Equals b = true ↔
      a.Name = b.Name ∧
      (a.Aliases.length = b.Aliases.length ∧
        ∀ i (h1 : i < a.Aliases.length) (h2 : i < b.Aliases.length),
          a.Aliases.get ⟨i, h1⟩ = b.Aliases.get ⟨i, h2⟩) ∧
      (a.Children.length = b.Children.length ∧
        ∀ i (h1 : i < a.Children.length) (h2 : i < b.Children.length),
          (a.Children.get ⟨i, h1⟩).Equals (b.Children.get ⟨i, h2⟩) = true)) ∧
    (a.Aliases ≠ b.Aliases → a.Equals b = false) ∧
    (∀ (ts us : Types) (i : Nat) (h1 : i < ts.length) (h2 : i < us.length),
      (ts.get ⟨i, h1⟩).Aliases ≠ (us.get ⟨i, h2⟩).Aliases → Types.Equals ts us = false) := by
  have hfalse : ∀ x y : InputType, x.Aliases ≠ y.Aliases → x.Equals y = false := by
    intro x y hne
    cases hxy : x.Equals y with
    | false => rfl
    | true => exact absurd ((Equals_iff x y).mp hxy).2.1 hne
  refine ⟨?_, hfalse a b, ?_⟩
  · rw [Equals_iff, Types_Equals_iff, List.forall₂_iff_get]
    constructor
    · rintro ⟨hn, ha, hc⟩
      exact ⟨hn, ⟨by rw [ha], fun i h1 _ => List.get_of_eq ha ⟨i, h1⟩⟩, hc⟩
    · rintro ⟨hn, ⟨hl, ha⟩, hc⟩
      exact ⟨hn, List.ext_get hl ha, hc⟩
  · intro ts us i h1 h2 hne
    cases hxy : Types.Equals ts us with
    | false => rfl
    | true =>
      have h := ((List.forall₂_iff_get.mp ((Types_Equals_iff ts us).mp hxy)).2 i h1 h2)
      rw [hfalse _ _ hne] at h
      cases h

/-! ## Names and aliases -/

theorem FromString_singleton_alias (lower : String → String) (t : InputType) (a : String)
    (h : a ∈ t.Aliases) : Types.FromString lower [t] a = .ok t := by
  unfold Types.FromString
  rw [Types.fromStringLoop]
  by_cases hn : lower t.Name = lower a
  · rw [if_pos hn]
  · rw [if_neg hn, if_pos ((aliasMatches_iff lower (lower a) t.Aliases).mpr ⟨a, h, rfl⟩)]

/-- C27: `Type.Matches` compares primary names only and exactly; it never
consults the aliases.  For a type `t` with an alias `a` that is not the name of
`t` or of a descendant of `t`, `t.Matches(a)` is false while `FromString` on the
list that holds `t` returns `t` for `a`.  So `CloudFormation` matches neither
`"cloudformation"` nor `"CFN"`, and `FromString` accepts both for it. -/
theorem Matches_ignores_aliases (lower : String → String) (t : InputType) (a : String)
    (halias : a ∈ t.Aliases) (hname : a ≠ t.Name)
    (hdesc : ∀ d, Descendant d t → a ≠ d.Name) :
    t.Matches a = false ∧ Types.FromString lower [t] a = .ok t ∧
    (∀ (aliases : List String) (s : String),
      (InputType.mk t.Name aliases t.Children).Matches s = t.Matches s) ∧
    (CloudFormation.Matches "cloudformation" = false ∧ CloudFormation.Matches "CFN" = false ∧
      CloudFormation.Matches "cfn" = true ∧
      Types.FromString ToLower [CloudFormation] "cloudformation" = .ok CloudFormation ∧
      Types.FromString ToLower [CloudFormation] "CFN" = .ok CloudFormation) := by
  refine ⟨?_, FromString_singleton_alias lower t a halias, ?_, by decide, by decide, by decide,
    rfl, rfl⟩
  · cases hm : t.Matches a with
    | false => rfl
    | true =>
      rcases descendant_of_matches t a hm with h | ⟨d, hd, hds⟩
      · exact absurd h hname
      · exact absurd hds (hdesc d hd)
  · intro aliases s
    obtain ⟨name, aliases0, children⟩ := t
    have h1 := matches_mk name aliases children s
    have h2 := matches_mk name aliases0 children s
    cases hA : (InputType.mk name aliases children).Matches s <;>
      cases hB : (InputType.mk name aliases0 children).Matches s <;>
      simp_all [InputType.Name, InputType.Children]

/-- Witness of C27: the alias `cloudformation` of `CloudFormation`. -/
theorem Matches_ignores_aliases_witness :
    CloudFormation.Matches "cloudformation" = false ∧
      Types.FromString ToLower [CloudFormation] "cloudformation" = .ok CloudFormation :=
  have h := Matches_ignores_aliases ToLower CloudFormation "cloudformation"
    (by simp [CloudFormation, InputType.Aliases]) (by decide)
    (fun d hd => by
      cases hd with
      | child hc => simp [CloudFormation, InputType.Children] at hc
      | deeper hc _ => simp [CloudFormation, InputType.Children] at hc)
  ⟨h.1, h.2.1⟩

end input

namespace input

/-! ## The reference resolver -/

/-- C9: the output arity of the resolver.  With `refs = resolveObject(obj)`,
`WalkObject(obj)` returns `(refs[0], false)` when `refs` has exactly one element,
`(refs, false)` when it has more than one, and `(obj, true)` when it has none; so
the walker is told to go on into the children exactly when nothing was
resolved. -/
theorem WalkObject_arity (parameters obj : List (String × Value)) :
    (∀ r, resolveObject parameters obj = [r] → WalkObject parameters obj = (r, false)) ∧
    (1 < (resolveObject parameters obj).length →
      WalkObject parameters obj = (.arr (resolveObject parameters obj), false)) ∧
    (resolveObject parameters obj = [] → WalkObject parameters obj = (.obj obj, true)) ∧
    ((WalkObject parameters obj).2 = true ↔ resolveObject parameters obj = []) := by
  have h3 : resolveObject parameters obj = [] → WalkObject parameters obj = (.obj obj, true) := by
    intro h
    unfold WalkObject
    simp [h]
  refine ⟨?_, ?_, h3, ?_, fun h => by rw [h3 h]⟩
  · intro r h
    unfold WalkObject
    simp [h]
  · intro h
    unfold WalkObject
    simp only []
    rw [dif_neg (by omega), if_pos h]
  · intro hflag
    by_cases h1 : (resolveObject parameters obj).length = 1
    · unfold WalkObject at hflag
      simp [h1] at hflag
    · by_cases h2 : (resolveObject parameters obj).length > 1
      · unfold WalkObject at hflag
        simp [h1, h2] at hflag
      · exact List.length_eq_zero.mp (by omega)

/-! ## References to parameters -/

theorem collectParameters_absent (params : List (String × cfnParameter)) (s : String)
    (h : s ∉ params.map Prod.fst) : (collectParameters params).lookup s = none := by
  induction params with
  | nil => rfl
  | cons e rest ih =>
    obtain ⟨k, param⟩ := e
    simp only [List.map_cons, List.mem_cons, not_or] at h
    have hsk : (s == k) = false := by simpa using h.1
    rw [collectParameters]
    cases hnil : param.Default.isNil with
    | false => simp [List.lookup_cons, hsk, ih h.2]
    | true =>
      cases hav : param.AllowedValues with
      | nil => simpa using ih h.2
      | cons first others => simp [List.lookup_cons, hsk, ih h.2]

theorem collectParameters_lookup (params : List (String × cfnParameter)) (s : String)
    (hmap : (params.map Prod.fst).Nodup) :
    (collectParameters params).lookup s =
      match params.lookup s with
      | some param => if param.Default.isNil then param.AllowedValues.head? else some param.Default
      | none => none := by
  induction params with
  | nil => rfl
  | cons e rest ih =>
    obtain ⟨k, param⟩ := e
    simp only [List.map_cons, List.nodup_cons] at hmap
    rw [collectParameters]
    by_cases hsk : s = k
    · subst hsk
      cases hnil : param.Default.isNil with
      | false => simp [List.lookup_cons, hnil]
      | true =>
        cases hav : param.AllowedValues with
        | nil => simpa [List.lookup_cons, hnil, hav] using collectParameters_absent rest s hmap.1
        | cons first others => simp [List.lookup_cons, hnil, hav]
    · have hb : (s == k) = false := by simpa using hsk
      cases hnil : param.Default.isNil with
      | false => simp [List.lookup_cons, hb, ih hmap.2]
      | true =>
        cases hav : param.AllowedValues with
        | nil => simpa [List.lookup_cons, hb] using ih hmap.2
        | cons first others => simp [List.lookup_cons, hb, ih hmap.2]

theorem resolveObject_Ref (parameters : List (String × Value)) (s : String) :
    resolveObject parameters [("Ref", .str s)] =
      match parameters.lookup s with
      | some paramValue => [paramValue]
      | none => [.str s] := by
  simp [resolveObject, resolveValue]

theorem WalkObject_of_single (parameters obj : List (String × Value)) (r : Value)
    (h : resolveObject parameters obj = [r]) : WalkObject parameters obj = (r, false) := by
  unfold WalkObject
  simp [h]

/-- C10: for every template, a map of parameters, and every name `s`, resolving
the mapping `{"Ref": s}` yields the default of the parameter `s` when the
template declares it with a default that is not nil; otherwise the first of its
allowed values when there is one; otherwise, the parameter not declared or
declared with neither, the string `s` itself. -/
theorem resolve_Ref (tmpl : cfnTemplate) (s : String)
    (hmap : (tmpl.Parameters.map Prod.fst).Nodup) :
    (∀ param, tmpl.Parameters.lookup s = some param → param.Default.isNil = false →
      resolveObject tmpl.resolverParameters [("Ref", .str s)] = [param.Default] ∧
      WalkObject tmpl.resolverParameters [("Ref", .str s)] = (param.Default, false)) ∧
    (∀ param first others, tmpl.Parameters.lookup s = some param →
      param.Default.isNil = true → param.AllowedValues = first :: others →
      resolveObject tmpl.resolverParameters [("Ref", .str s)] = [first] ∧
      WalkObject tmpl.resolverParameters [("Ref", .str s)] = (first, false)) ∧
    ((tmpl.Parameters.lookup s = none ∨
        ∃ param, tmpl.Parameters.lookup s = some param ∧ param.Default.isNil = true ∧
          param.AllowedValues = []) →
      resolveObject tmpl.resolverParameters [("Ref", .str s)] = [.str s] ∧
      WalkObject tmpl.resolverParameters [("Ref", .str s)] = (.str s, false)) := by
  have hlook := collectParameters_lookup tmpl.Parameters s hmap
  have hboth : ∀ r, resolveObject tmpl.resolverParameters [("Ref", .str s)] = [r] →
      resolveObject tmpl.resolverParameters [("Ref", .str s)] = [r] ∧
      WalkObject tmpl.resolverParameters [("Ref", .str s)] = (r, false) :=
    fun r h => ⟨h, WalkObject_of_single _ _ r h⟩
  refine ⟨?_, ?_, ?_⟩
  · intro param hp hnil
    apply hboth
    rw [resolveObject_Ref, cfnTemplate.resolverParameters, hlook, hp]
    simp [hnil]
  · intro param first others hp hnil hav
    apply hboth
    rw [resolveObject_Ref, cfnTemplate.resolverParameters, hlook, hp]
    simp [hnil, hav]
  · intro h
    apply hboth
    rw [resolveObject_Ref, cfnTemplate.resolverParameters, hlook]
    rcases h with h | ⟨param, hp, hnil, hav⟩
    · rw [h]
    · rw [hp]
      simp [hnil, hav]

/-- Witness of C10: in a template whose only parameter is `Env` with the default
`"prod"`, `{"Ref": "Env"}` yields `"prod"` and `{"Ref": "MyBucket"}` yields
`"MyBucket"`. -/
theorem resolve_Ref_witness :
    WalkObject (cfnTemplate.resolverParameters ⟨.null, [("Env", ⟨.str "prod", []⟩)], []⟩)
        [("Ref", .str "Env")] = (.str "prod", false) ∧
      WalkObject (cfnTemplate.resolverParameters ⟨.null, [("Env", ⟨.str "prod", []⟩)], []⟩)
        [("Ref", .str "MyBucket")] = (.str "MyBucket", false) :=
  ⟨((resolve_Ref ⟨.null, [("Env", ⟨.str "prod", []⟩)], []⟩ "Env" (by decide)).1
      ⟨.str "prod", []⟩ rfl rfl).2,
    ((resolve_Ref ⟨.null, [("Env", ⟨.str "prod", []⟩)], []⟩ "MyBucket" (by decide)).2.2
      (Or.inl rfl)).2⟩

/-! ## References to attributes -/

theorem WalkObject_of_none (parameters obj : List (String × Value))
    (h : resolveObject parameters obj = []) : WalkObject parameters obj = (.obj obj, true) := by
  unfold WalkObject
  simp [h]

theorem resolveObject_GetAtt_pair (parameters : List (String × Value)) (a b : Value) :
    resolveObject parameters [("Fn::GetAtt", .arr [a, b])] =
      match b with
      | .str attr => if attr = "Arn" then [a] else []
      | _ => [] := by
  cases b <;> rfl

theorem resolveObject_GetAtt_other (parameters : List (String × Value)) (args : List Value)
    (h : args.length ≠ 2) : resolveObject parameters [("Fn::GetAtt", .arr args)] = [] := by
  match args, h with
  | [], _ => rfl
  | [_], _ => rfl
  | [_, _], h => exact absurd rfl h
  | _ :: b :: _ :: _, _ => cases b <;> rfl

/-- C11: for every value `id`, resolving `{"Fn::GetAtt": [id, "Arn"]}` yields `id`
alone; a two-element argument whose second element is not the string `"Arn"`,
and an argument list whose length is not 2, leave the mapping unresolved:
`resolveObject` returns no reference and `WalkObject` returns the mapping itself
with the flag to go on. -/
theorem resolve_GetAtt (parameters : List (String × Value)) :
    (∀ id : Value,
      resolveObject parameters [("Fn::GetAtt", .arr [id, .str "Arn"])] = [id] ∧
      WalkObject parameters [("Fn::GetAtt", .arr [id, .str "Arn"])] = (id, false)) ∧
    (∀ a b : Value, b ≠ .str "Arn" →
      resolveObject parameters [("Fn::GetAtt", .arr [a, b])] = [] ∧
      WalkObject parameters [("Fn::GetAtt", .arr [a, b])]
        = (.obj [("Fn::GetAtt", .arr [a, b])], true)) ∧
    (∀ args : List Value, args.length ≠ 2 →
      resolveObject parameters [("Fn::GetAtt", .arr args)] = [] ∧
      WalkObject parameters [("Fn::GetAtt", .arr args)]
        = (.obj [("Fn::GetAtt", .arr args)], true)) := by
  refine ⟨fun id => ?_, fun a b hb => ?_, fun args hargs => ?_⟩
  · have h : resolveObject parameters [("Fn::GetAtt", .arr [id, .str "Arn"])] = [id] := rfl
    exact ⟨h, WalkObject_of_single _ _ id h⟩
  · have h : resolveObject parameters [("Fn::GetAtt", .arr [a, b])] = [] := by
      rw [resolveObject_GetAtt_pair]
      cases b with
      | str attr =>
        have hne : attr ≠ "Arn" := fun h => hb (h ▸ rfl)
        simp [hne]
      | _ => rfl
    exact ⟨h, WalkObject_of_none _ _ h⟩
  · have h := resolveObject_GetAtt_other parameters args hargs
    exact ⟨h, WalkObject_of_none _ _ h⟩

/-! ## References in joins -/

theorem resolveJoinParts_eq (parameters : List (String × Value)) (parts : List Value) :
    resolveJoinParts parameters parts = (parts.map (resolveValue parameters)).flatten := by
  induction parts with
  | nil => rfl
  | cons arg rest ih =>
    rw [resolveJoinParts, ih]
    rfl

theorem resolveValue_eq (parameters : List (String × Value)) (arg : Value) :
    resolveValue parameters arg =
      match arg with
      | .obj argObj => resolveObject parameters argObj
      | _ => [] := by
  cases arg <;> rfl

/-- C14: for every delimiter `d` and every sequence `parts`, resolving
`{"Fn::Join": [d, parts]}` gives the concatenation, in the order of `parts`, of
`resolveObject(p)` for the elements `p` that are mappings; an element that is
not a mapping contributes nothing, and the delimiter does not affect the
result. -/
theorem resolve_Join (parameters : List (String × Value)) (d : Value) (parts : List Value) :
    resolveObject parameters [("Fn::Join", .arr [d, .arr parts])] =
      (parts.map (fun p =>
        match p with
        | .obj argObj => resolveObject parameters argObj
        | _ => [])).flatten ∧
    (∀ (p : Value) (before after : List Value), (∀ argObj, p ≠ .obj argObj) →
      resolveObject parameters [("Fn::Join", .arr [d, .arr (before ++ p :: after)])] =
        resolveObject parameters [("Fn::Join", .arr [d, .arr (before ++ after)])]) ∧
    (∀ d2 : Value,
      resolveObject parameters [("Fn::Join", .arr [d2, .arr parts])] =
        resolveObject parameters [("Fn::Join", .arr [d, .arr parts])]) := by
  have hjoin : ∀ (x : Value) (ps : List Value),
      resolveObject parameters [("Fn::Join", .arr [x, .arr ps])] =
        (ps.map (resolveValue parameters)).flatten :=
    fun x ps => (resolveJoinParts_eq parameters ps ▸ rfl :
      resolveObject parameters [("Fn::Join", .arr [x, .arr ps])] = _)
  refine ⟨?_, ?_, ?_⟩
  · rw [hjoin]
    congr 1
    apply List.map_congr_left
    intro p _
    exact resolveValue_eq parameters p
  · intro p before after hp
    rw [hjoin, hjoin]
    have hnil : resolveValue parameters p = [] := by
      rw [resolveValue_eq]
      cases p with
      | obj argObj => exact absurd rfl (hp argObj)
      | _ => rfl
    simp [hnil]
  · intro d2
    rw [hjoin, hjoin]

/-! ## References in template strings -/

theorem takeWhile_append_stop {p : Char → Bool} (xs : List Char) (y : Char) (ys : List Char)
    (hxs : ∀ x ∈ xs, p x = true) (hy : p y = false) : (xs ++ y :: ys).takeWhile p = xs := by
  induction xs with
  | nil => simp [List.takeWhile_cons, hy]
  | cons x xs ih =>
    have hx := hxs x (List.mem_cons_self _ _)
    simp only [List.cons_append, List.takeWhile_cons, hx, if_true]
    rw [ih (fun z hz => hxs z (List.mem_cons_of_mem _ hz))]

theorem dropWhile_append_stop {p : Char → Bool} (xs : List Char) (y : Char) (ys : List Char)
    (hxs : ∀ x ∈ xs, p x = true) (hy : p y = false) : (xs ++ y :: ys).dropWhile p = y :: ys := by
  induction xs with
  | nil => simp [List.dropWhile_cons, hy]
  | cons x xs ih =>
    have hx := hxs x (List.mem_cons_self _ _)
    simp only [List.cons_append, List.dropWhile_cons, hx, if_true]
    exact ih (fun z hz => hxs z (List.mem_cons_of_mem _ hz))

theorem takeWhile_append_of_stop {p : Char → Bool} (xs : List Char) (y : Char) (ys : List Char)
    (hy : p y = false) : (xs ++ y :: ys).takeWhile p = xs.takeWhile p := by
  induction xs with
  | nil => simp [List.takeWhile_cons, hy]
  | cons x xs ih =>
    simp only [List.cons_append, List.takeWhile_cons]
    by_cases hx : p x = true
    · rw [if_pos hx, if_pos hx, ih]
    · rw [if_neg hx, if_neg hx]

theorem dropWhile_append_of_stop {p : Char → Bool} (xs : List Char) (y : Char) (ys : List Char)
    (hy : p y = false) : (xs ++ y :: ys).dropWhile p = xs.dropWhile p ++ y :: ys := by
  induction xs with
  | nil => simp [List.dropWhile_cons, hy]
  | cons x xs ih =>
    simp only [List.cons_append, List.dropWhile_cons]
    by_cases hx : p x = true
    · rw [if_pos hx, if_pos hx, ih]
    · rw [if_neg hx, if_neg hx]
      rfl

theorem isTailChar_of_isNameChar (c : Char) (h : isNameChar c = true) : isTailChar c = true := by
  unfold isNameChar at h
  unfold isTailChar
  rw [Bool.or_assoc, h, Bool.or_true]

theorem isTailChar_iff (c : Char) :
    (isWordChar c || c == ':' || c == '.') = isTailChar c := by
  unfold isTailChar
  cases isWordChar c <;> cases (c == ':') <;> cases (c == '.') <;> rfl

theorem isNameChar_iff (c : Char) : (isWordChar c || c == ':') = isNameChar c := by
  unfold isNameChar
  cases isWordChar c <;> cases (c == ':') <;> rfl

theorem ne_close_of_isTailChar (c : Char) (h : isTailChar c = true) : (c != '}') = true := by
  by_cases hc : c = '}'
  · subst hc
    exact absurd h (by decide)
  · simpa using hc

theorem ne_dollar_of_isTailChar (c : Char) (h : isTailChar c = true) : c ≠ '$' := by
  intro hc
  subst hc
  exact absurd h (by decide)

theorem ne_dot_of_isNameChar (c : Char) (h : isNameChar c = true) : (c != '.') = true := by
  by_cases hc : c = '.'
  · subst hc
    exact absurd h (by decide)
  · simpa using hc

theorem eq_dot_of_tail_not_name (c : Char) (ht : isTailChar c = true)
    (hn : isNameChar c = false) : c = '.' := by
  unfold isTailChar at ht
  unfold isNameChar at hn
  rw [Bool.or_assoc, hn, Bool.or_false] at ht
  simpa using ht

theorem matchReference_eq (c1 c2 : Char) (rest : List Char) :
    matchReference (c1 :: c2 :: rest) =
      if c1 = '$' ∧ c2 = '{' then
        match rest.takeWhile isNameChar, (rest.dropWhile isNameChar).dropWhile isTailChar with
        | _ :: _, '}' :: _ =>
          some (rest.takeWhile isNameChar,
            2 + (rest.takeWhile isNameChar).length
              + ((rest.dropWhile isNameChar).takeWhile isTailChar).length + 1)
        | _, _ => none
      else none := by
  unfold matchReference
  split
  · rename_i heq
    simp only [List.cons.injEq] at heq
    obtain ⟨h1, h2, h3⟩ := heq
    subst h1 h2 h3
    simp
  · rename_i h
    split
    · rename_i h2
      exact absurd rfl (h2.1 ▸ h2.2 ▸ h rest)
    · rfl

theorem tokenContent_eq (c1 c2 : Char) (rest : List Char) :
    tokenContent (c1 :: c2 :: rest) =
      if c1 = '$' ∧ c2 = '{' then
        match rest.dropWhile (fun c => c != '}') with
        | '}' :: _ => some (rest.takeWhile (fun c => c != '}'))
        | _ => none
      else none := by
  unfold tokenContent
  split
  · rename_i heq
    simp only [List.cons.injEq] at heq
    obtain ⟨h1, h2, h3⟩ := heq
    subst h1 h2 h3
    simp
  · rename_i h
    split
    · rename_i h2
      exact absurd rfl (h2.1 ▸ h2.2 ▸ h rest)
    · rfl

/-- Where the regular expression matches, a token with the content of a
reference starts, and group 1 is its name. -/
theorem reference_found (rest : List Char) (n : Char) (ns r : List Char)
    (hN : rest.takeWhile isNameChar = n :: ns)
    (hR : (rest.dropWhile isNameChar).dropWhile isTailChar = '}' :: r) :
    rest.dropWhile (fun c => c != '}') = '}' :: r ∧
    rest.takeWhile (fun c => c != '}') =
      rest.takeWhile isNameChar ++ (rest.dropWhile isNameChar).takeWhile isTailChar ∧
    isReferenceContent
      (rest.takeWhile isNameChar ++ (rest.dropWhile isNameChar).takeWhile isTailChar) = true ∧
    referenceName
      (rest.takeWhile isNameChar ++ (rest.dropWhile isNameChar).takeWhile isTailChar)
      = rest.takeWhile isNameChar := by
  have hsplit : rest = (rest.takeWhile isNameChar
      ++ (rest.dropWhile isNameChar).takeWhile isTailChar) ++ '}' :: r := by
    conv_lhs => rw [← List.takeWhile_append_dropWhile isNameChar rest,
      ← List.takeWhile_append_dropWhile isTailChar (rest.dropWhile isNameChar), hR]
    rw [List.append_assoc]
  have hname : ∀ x ∈ rest.takeWhile isNameChar, isNameChar x = true :=
    fun x hx => List.mem_takeWhile_imp hx
  have htail : ∀ x ∈ (rest.dropWhile isNameChar).takeWhile isTailChar, isTailChar x = true :=
    fun x hx => List.mem_takeWhile_imp hx
  have hall : ∀ x ∈ rest.takeWhile isNameChar
      ++ (rest.dropWhile isNameChar).takeWhile isTailChar, isTailChar x = true := by
    intro x hx
    rcases List.mem_append.mp hx with h | h
    · exact isTailChar_of_isNameChar x (hname x h)
    · exact htail x h
  refine ⟨?_, ?_, ?_, ?_⟩
  · conv_lhs => rw [hsplit]
    exact dropWhile_append_stop _ _ _ (fun x hx => ne_close_of_isTailChar x (hall x hx))
      (by decide)
  · conv_lhs => rw [hsplit]
    exact takeWhile_append_stop _ _ _ (fun x hx => ne_close_of_isTailChar x (hall x hx))
      (by decide)
  · unfold isReferenceContent
    rw [Bool.and_eq_true]
    constructor
    · rw [List.all_eq_true]
      intro x hx
      rw [isTailChar_iff]
      exact hall x hx
    · rw [hN]
      simp only [List.cons_append]
      rw [isNameChar_iff]
      exact hname n (hN ▸ List.mem_cons_self _ _)
  · unfold referenceName
    cases hT : (rest.dropWhile isNameChar).takeWhile isTailChar with
    | nil =>
      rw [List.append_nil, List.takeWhile_eq_self_iff]
      exact fun x hx => ne_dot_of_isNameChar x (hname x hx)
    | cons t ts =>
      have ht : isTailChar t = true := htail t (hT ▸ List.mem_cons_self _ _)
      have hnot : isNameChar t = false := by
        cases hD : rest.dropWhile isNameChar with
        | nil => rw [hD] at hT; simp at hT
        | cons d ds =>
          have h1 := List.head?_dropWhile_not isNameChar rest
          rw [hD] at h1 hT
          simp only [List.head?_cons] at h1
          rw [List.takeWhile_cons] at hT
          by_cases hd : isTailChar d = true
          · rw [if_pos hd] at hT
            simp only [List.cons.injEq] at hT
            exact hT.1 ▸ h1
          · rw [if_neg hd] at hT
            cases hT
      have hdot : t = '.' := eq_dot_of_tail_not_name t ht hnot
      subst hdot
      exact takeWhile_append_stop _ _ _ (fun x hx => ne_dot_of_isNameChar x (hname x hx))
        (by decide)

/-- Where a token with the content of a reference starts, the regular expression
matches. -/
theorem reference_closed (rest r : List Char)
    (hclose : rest.dropWhile (fun c => c != '}') = '}' :: r)
    (hvalid : isReferenceContent (rest.takeWhile (fun c => c != '}')) = true) :
    ∃ n ns, rest.takeWhile isNameChar = n :: ns ∧
      (rest.dropWhile isNameChar).dropWhile isTailChar = '}' :: r := by
  have hsplit : rest = rest.takeWhile (fun c => c != '}') ++ '}' :: r := by
    conv_lhs => rw [← List.takeWhile_append_dropWhile (fun c => c != '}') rest, hclose]
  generalize rest.takeWhile (fun c => c != '}') = content at hsplit hvalid
  unfold isReferenceContent at hvalid
  rw [Bool.and_eq_true, List.all_eq_true] at hvalid
  obtain ⟨hall, hhead⟩ := hvalid
  have hall2 : ∀ x ∈ content, isTailChar x = true := by
    intro x hx
    rw [← isTailChar_iff]
    exact hall x hx
  cases content with
  | nil => simp at hhead
  | cons c cs =>
    simp only [] at hhead
    rw [isNameChar_iff] at hhead
    subst hsplit
    refine ⟨c, (cs.takeWhile isNameChar), ?_, ?_⟩
    · rw [takeWhile_append_of_stop _ _ _ (by decide), List.takeWhile_cons, if_pos hhead]
    · rw [dropWhile_append_of_stop _ _ _ (by decide)]
      apply dropWhile_append_stop _ _ _ _ (by decide)
      intro x hx
      exact hall2 x ((List.dropWhile_sublist _).subset hx)

/-- The regular expression matches at the start of a text exactly where a token
with the content of a reference starts; group 1 is the name of the token and the
match is the token. -/
theorem matchReference_spec (cs : List Char) :
    matchReference cs =
      match tokenContent cs with
      | some content =>
        if isReferenceContent content then some (referenceName content, content.length + 3)
        else none
      | none => none := by
  match cs with
  | [] => rfl
  | [c] => simp [matchReference, tokenContent]
  | c1 :: c2 :: rest =>
    rw [matchReference_eq, tokenContent_eq]
    by_cases h : c1 = '$' ∧ c2 = '{'
    · rw [if_pos h, if_pos h]
      split
      · rename_i n ns r hN hR
        obtain ⟨h1, h2, h3, h4⟩ := reference_found rest n ns r hN hR
        rw [h1]
        simp only []
        rw [h2, if_pos h3, h4, List.length_append]
        congr 2
        omega
      · rename_i hno
        generalize hD : rest.dropWhile (fun c => c != '}') = D
        match D, hD with
        | [], _ => rfl
        | d :: r, hD =>
          by_cases hd : d = '}'
          · subst hd
            simp only []
            by_cases hvalid : isReferenceContent (rest.takeWhile (fun c => c != '}')) = true
            · obtain ⟨n, ns, hN, hR⟩ := reference_closed rest r hD hvalid
              exact absurd hR (hno n ns r hN)
            · rw [if_neg hvalid]
          · split
            · rename_i heq
              split at heq
              · rename_i heq2
                simp only [List.cons.injEq] at heq2
                exact absurd heq2.1 hd
              · cases heq
            · rfl
    · rw [if_neg h, if_neg h]

theorem tokenContent_single (c : Char) : tokenContent [c] = none := by
  simp [tokenContent]

theorem tokenContent_some (cs content : List Char) (h : tokenContent cs = some content) :
    ∃ r, cs = '$' :: '{' :: (content ++ '}' :: r) := by
  match cs, h with
  | [], h => cases h
  | [c], h => rw [tokenContent_single] at h; cases h
  | c1 :: c2 :: rest, h =>
    rw [tokenContent_eq] at h
    by_cases hc : c1 = '$' ∧ c2 = '{'
    · rw [if_pos hc] at h
      obtain ⟨h1, h2⟩ := hc
      subst h1 h2
      split at h
      · rename_i r hclose
        refine ⟨r, ?_⟩
        cases h
        rw [← hclose, List.takeWhile_append_dropWhile]
      · cases h
    · rw [if_neg hc] at h
      cases h

theorem tokenContent_of_ne (c : Char) (rest : List Char) (h : c ≠ '$') :
    tokenContent (c :: rest) = none := by
  cases rest with
  | nil => exact tokenContent_single c
  | cons c2 rest => rw [tokenContent_eq, if_neg (fun hc => h hc.1)]

theorem tokenNames_cons_of_ne (c : Char) (rest : List Char) (h : c ≠ '$') :
    tokenNames (c :: rest) = tokenNames rest := by
  rw [tokenNames, tokenContent_of_ne c rest h]

/-- The successive matches of the regular expression are the tokens with the
content of a reference: no such token starts inside a match. -/
theorem findAllReferences_eq : ∀ (cs : List Char) (skip : Nat),
    (∀ x ∈ cs.take skip, x ≠ '$') → findAllReferences skip cs = tokenNames cs := by
  intro cs
  induction cs with
  | nil => intro skip _; cases skip <;> rfl
  | cons c rest ih =>
    intro skip hskip
    cases skip with
    | succ skip =>
      rw [findAllReferences, tokenNames_cons_of_ne c rest (hskip c (by simp))]
      exact ih skip (fun x hx => hskip x (by simp [hx]))
    | zero =>
      rw [findAllReferences, matchReference_spec, tokenNames]
      cases hcontent : tokenContent (c :: rest) with
      | none => exact ih 0 (fun x hx => by simp at hx)
      | some content =>
        simp only []
        by_cases hvalid : isReferenceContent content = true
        · rw [if_pos hvalid, if_pos hvalid]
          simp only []
          congr 1
          apply ih
          obtain ⟨r, hcs⟩ := tokenContent_some _ _ hcontent
          simp only [List.cons.injEq] at hcs
          obtain ⟨-, hrest⟩ := hcs
          have hall : ∀ x ∈ content, isTailChar x = true := by
            unfold isReferenceContent at hvalid
            rw [Bool.and_eq_true, List.all_eq_true] at hvalid
            intro x hx
            rw [← isTailChar_iff]
            exact hvalid.1 x hx
          intro x hx
          have hmem : x ∈ '{' :: (content ++ ['}']) := by
            have hsub : (rest.take (content.length + 3 - 1)) = '{' :: (content ++ ['}']) := by
              rw [hrest]
              have h3 : content.length + 3 - 1 = (content.length + 1) + 1 := by omega
              rw [h3, List.take_succ_cons]
              congr 1
              have h4 : content ++ '}' :: r = (content ++ ['}']) ++ r := by simp
              rw [h4, List.take_left']
              simp
            rw [hsub] at hx
            exact hx
          rcases List.mem_cons.mp hmem with h1 | h1
          · rw [h1]; decide
          · rcases List.mem_append.mp h1 with h2 | h2
            · exact ne_dollar_of_isTailChar x (hall x h2)
            · rw [List.mem_singleton.mp h2]; decide
        · rw [if_neg hvalid, if_neg hvalid]
          exact ih 0 (fun x hx => by simp at hx)

theorem resolveTemplateString_eq (tmpl : String) :
    resolveTemplateString tmpl = (tokenNames tmpl.data).map String.mk := by
  unfold resolveTemplateString
  rw [findAllReferences_eq tmpl.data 0 (fun x hx => by simp at hx)]

theorem resolveObject_Sub_string (parameters : List (String × Value)) (tmpl : String) :
    resolveObject parameters [("Fn::Sub", .str tmpl)] =
      (resolveTemplateString tmpl).map Value.str := rfl

theorem resolveObject_Sub_pair (parameters : List (String × Value)) (tmpl : String)
    (vars : List (String × Value)) :
    resolveObject parameters [("Fn::Sub", .arr [.str tmpl, .obj vars])] =
      (resolveTemplateString tmpl).filterMap (fun k => vars.lookup k) := rfl

/-- C12: for every string `tmpl`, resolving `{"Fn::Sub": tmpl}` returns, in the
order of the text and keeping duplicates, one name for every token of `tmpl`
whose content consists only of word characters, `:` and `.` and starts with a
word character or `:`; the name is the content up to its first `.`.  So
`arn:${Account}:${Bucket.Arn}` yields `Account` and `Bucket`, and `${AWS::Region}`
yields `AWS::Region`. -/
theorem resolve_Sub_names (parameters : List (String × Value)) (tmpl : String) :
    resolveObject parameters [("Fn::Sub", .str tmpl)] =
      (tokenNames tmpl.data).map (fun name => Value.str (String.mk name)) ∧
    resolveObject parameters [("Fn::Sub", .str "arn:$\x7bAccount\x7d:$\x7bBucket.Arn\x7d")] =
      [.str "Account", .str "Bucket"] ∧
    resolveObject parameters [("Fn::Sub", .str "$\x7bAWS::Region\x7d")] =
      [.str "AWS::Region"] := by
  refine ⟨?_, rfl, rfl⟩
  rw [resolveObject_Sub_string, resolveTemplateString_eq, List.map_map]
  rfl

/-- C13: for every string `tmpl` and mapping `vars`, resolving
`{"Fn::Sub": [tmpl, vars]}` returns the values `vars[n]` for the names `n`
extracted from `tmpl` that are keys of `vars`, in the order of the text; a name
that is not a key of `vars` contributes nothing; the values are returned as they
stand in `vars`, whatever the parameters of the template are.  So with the
parameter `Env` set to `prod` and `vars` mapping `Env` to `{"Ref": "Env"}`, the
text `${Env}-${Stage}-${Env}` yields that mapping twice, unresolved. -/
theorem resolve_Sub_variables (parameters : List (String × Value)) (tmpl : String)
    (vars : List (String × Value)) :
    resolveObject parameters [("Fn::Sub", .arr [.str tmpl, .obj vars])] =
      (resolveTemplateString tmpl).filterMap (fun n => vars.lookup n) ∧
    resolveTemplateString tmpl = (tokenNames tmpl.data).map String.mk ∧
    (∀ v, v ∈ resolveObject parameters [("Fn::Sub", .arr [.str tmpl, .obj vars])] ↔
      ∃ n ∈ resolveTemplateString tmpl, vars.lookup n = some v) ∧
    (∀ parameters2 : List (String × Value),
      resolveObject parameters2 [("Fn::Sub", .arr [.str tmpl, .obj vars])] =
        resolveObject parameters [("Fn::Sub", .arr [.str tmpl, .obj vars])]) ∧
    resolveObject [("Env", .str "prod")]
        [("Fn::Sub", .arr [.str "$\x7bEnv\x7d-$\x7bStage\x7d-$\x7bEnv\x7d",
          .obj [("Env", .obj [("Ref", .str "Env")])]])]
      = [.obj [("Ref", .str "Env")], .obj [("Ref", .str "Env")]] := by
  refine ⟨rfl, resolveTemplateString_eq tmpl, ?_, fun _ => rfl, rfl⟩
  intro v
  rw [resolveObject_Sub_pair, List.mem_filterMap]

end input

namespace input

/-! ## The structural decoder -/

theorem decodeNode_eq (decode : Node → Except String Value) (node : Node) :
    decodeNode decode node =
      if node.Tag = "!!seq" then
        match decodeSeq decode node with
        | .error err => .error ("Failed to decode map val: " ++ err)
        | .ok val => .ok (.arr val)
      else if node.Tag = "!!map" then
        match decodeMap decode node with
        | .error err => .error ("Failed to decode map val: " ++ err)
        | .ok val => .ok (.obj val)
      else
        match intrinsicFns.lookup node.Tag with
        | some name =>
          match decodeIntrinsic decode node name with
          | .error err => .error ("Failed to decode map val: " ++ err)
          | .ok val => .ok (.obj val)
        | none =>
          match decode node with
          | .error err => .error ("Failed to decode map val: " ++ err)
          | .ok val => .ok val := by
  obtain ⟨kind, tag, value, line, column, content⟩ := node
  rw [decodeNode]
  rfl

theorem splitOnDot_ne_nil (cs : List Char) : splitOnDot cs ≠ [] := by
  induction cs with
  | nil => simp [splitOnDot]
  | cons c rest ih =>
    rw [splitOnDot]
    by_cases hc : c = '.'
    · simp [hc]
    · rw [if_neg hc]
      cases h : splitOnDot rest with
      | nil => exact absurd h ih
      | cons first others => simp

theorem splitOnDot_no_dot (cs : List Char) : ∀ part ∈ splitOnDot cs, '.' ∉ part := by
  induction cs with
  | nil => simp [splitOnDot]
  | cons c rest ih =>
    rw [splitOnDot]
    by_cases hc : c = '.'
    · rw [if_pos hc]
      intro part hpart
      rcases List.mem_cons.mp hpart with h | h
      · rw [h]; exact List.not_mem_nil _
      · exact ih part h
    · rw [if_neg hc]
      cases h : splitOnDot rest with
      | nil => exact absurd h (splitOnDot_ne_nil rest)
      | cons first others =>
        rw [h] at ih
        intro part hpart
        rcases List.mem_cons.mp hpart with h2 | h2
        · rw [h2]
          intro hmem
          rcases List.mem_cons.mp hmem with h3 | h3
          · exact hc h3.symm
          · exact ih first (List.mem_cons_self _ _) h3
        · exact ih part (List.mem_cons_of_mem _ h2)

theorem splitOnDot_join (cs : List Char) :
    ∃ first others, splitOnDot cs = first :: others ∧
      first ++ (others.map (fun part => '.' :: part)).flatten = cs := by
  induction cs with
  | nil => exact ⟨[], [], rfl, rfl⟩
  | cons c rest ih =>
    obtain ⟨first, others, hsplit, hjoin⟩ := ih
    rw [splitOnDot]
    by_cases hc : c = '.'
    · rw [if_pos hc, hsplit]
      refine ⟨[], first :: others, rfl, ?_⟩
      simp only [List.map_cons, List.flatten_cons, List.nil_append, List.cons_append, hc]
      rw [hjoin]
    · rw [if_neg hc, hsplit]
      refine ⟨c :: first, others, rfl, ?_⟩
      simp only [List.cons_append]
      rw [hjoin]

theorem intercalate_go_data (sep : String) (l : List String) :
    ∀ acc : String, (String.intercalate.go acc sep l).data =
      acc.data ++ (l.map (fun a => sep.data ++ a.data)).flatten := by
  induction l with
  | nil => intro acc; simp [String.intercalate.go]
  | cons a rest ih =>
    intro acc
    rw [String.intercalate.go, ih]
    simp [String.data_append, List.append_assoc]

/-- Joining the pieces of `strings.Split(s, ".")` with `.` gives `s` back. -/
theorem intercalate_splitOnDot (s : String) :
    ".".intercalate ((splitOnDot s.data).map String.mk) = s := by
  obtain ⟨first, others, hsplit, hjoin⟩ := splitOnDot_join s.data
  rw [hsplit]
  apply String.ext
  rw [List.map_cons, String.intercalate, intercalate_go_data]
  conv_rhs => rw [← hjoin]
  simp only [List.map_map]
  rfl

theorem decodeNode_of_intrinsic (decode : Node → Except String Value) (node : Node)
    (name : String) (hseq : node.Tag ≠ "!!seq") (hmap : node.Tag ≠ "!!map")
    (hname : intrinsicFns.lookup node.Tag = some name) :
    decodeNode decode node =
      match decodeIntrinsic decode node name with
      | .error err => .error ("Failed to decode map val: " ++ err)
      | .ok val => .ok (.obj val) := by
  rw [decodeNode_eq, if_neg hseq, if_neg hmap, hname]

/-- C15: for every scalar node tagged `!GetAtt` whose value decodes to a string
`s`, `decodeNode` returns the mapping with the single key `Fn::GetAtt` and, as
its value, the sequence of the strings obtained by splitting `s` on `.`: no
piece contains a `.`, and joining the pieces with `.` gives `s` back. -/
theorem decodeNode_GetAtt_scalar (decode : Node → Except String Value) (node : Node)
    (s : String) (hkind : node.Kind = .ScalarNode) (htag : node.Tag = "!GetAtt")
    (hdec : decode node = .ok (.str s)) :
    decodeNode decode node =
      .ok (.obj [("Fn::GetAtt",
        .arr ((splitOnDot s.data).map (fun part => .str (String.mk part))))]) ∧
    (∀ part ∈ splitOnDot s.data, '.' ∉ part) ∧
    ".".intercalate ((splitOnDot s.data).map String.mk) = s := by
  refine ⟨?_, splitOnDot_no_dot s.data, intercalate_splitOnDot s⟩
  rw [decodeNode_of_intrinsic decode node "Fn::GetAtt" (by rw [htag]; decide)
    (by rw [htag]; decide) (by rw [htag]; rfl)]
  simp only [decodeIntrinsic, decodeIntrinsicWith, hkind, hdec]
  rfl

/-- Witness of C15: the shorthand `Resource.Arn` under the tag `!GetAtt`. -/
theorem decodeNode_GetAtt_scalar_witness :
    decodeNode (fun n => .ok (.str n.Value)) (.mk .ScalarNode "!GetAtt" "Resource.Arn" 3 9 [])
      = .ok (.obj [("Fn::GetAtt", .arr [.str "Resource", .str "Arn"])]) :=
  (decodeNode_GetAtt_scalar (fun n => .ok (.str n.Value))
    (.mk .ScalarNode "!GetAtt" "Resource.Arn" 3 9 []) "Resource.Arn" rfl rfl rfl).1

theorem decodeIntrinsicWith_ok (decode : Node → Except String Value) (node : Node)
    (name : String) (seq : Except String (List Value))
    (map : Except String (List (String × Value))) (val : List (String × Value))
    (hname : name ≠ "") (hok : decodeIntrinsicWith decode node name seq map = .ok val) :
    ∃ x, val = [(name, x)] := by
  unfold decodeIntrinsicWith at hok
  simp only [if_neg hname] at hok
  split at hok
  · split at hok
    · cases hok
    · cases hok; exact ⟨_, rfl⟩
  · split at hok
    · cases hok
    · cases hok; exact ⟨_, rfl⟩
  · split at hok
    · cases hok
    · split at hok
      · split at hok
        · cases hok; exact ⟨_, rfl⟩
        · cases hok; exact ⟨_, rfl⟩
      · cases hok; exact ⟨_, rfl⟩

theorem lookup_of_mem_keys (table : List (String × String)) (tag : String)
    (h : tag ∈ table.map Prod.fst) : ∃ name, table.lookup tag = some name ∧ (tag, name) ∈ table := by
  induction table with
  | nil => simp at h
  | cons e rest ih =>
    obtain ⟨k, v⟩ := e
    by_cases hk : tag = k
    · subst hk
      exact ⟨v, by simp [List.lookup_cons], List.mem_cons_self _ _⟩
    · have hrest : tag ∈ rest.map Prod.fst := by
        simp only [List.map_cons, List.mem_cons] at h
        rcases h with h | h
        · exact absurd h hk
        · exact h
      obtain ⟨name, h1, h2⟩ := ih hrest
      have hb : (tag == k) = false := by simpa using hk
      exact ⟨name, by simp [List.lookup_cons, hb, h1], List.mem_cons_of_mem _ h2⟩

/-- C16: for every node whose tag is one of the 16 short-form intrinsic tags and
whose decoding succeeds, `decodeNode` returns a mapping with exactly one key, the
canonical name of the tag: `Ref` for `!Ref`, and `Fn::` followed by the tag
without its `!` for every other tag.  The names so produced are the 16 canonical
names. -/
theorem decodeNode_intrinsic_key (decode : Node → Except String Value) (node : Node)
    (v : Value) (htag : node.Tag ∈ intrinsicFns.map Prod.fst)
    (hok : decodeNode decode node = .ok v) :
    (∃ val, v = .obj [(canonicalName node.Tag, val)]) ∧
    intrinsicFns.map Prod.fst =
      ["!And", "!Base64", "!Cidr", "!Equals", "!FindInMap", "!GetAtt", "!GetAZs", "!If",
        "!ImportValue", "!Join", "!Not", "!Or", "!Ref", "!Split", "!Sub", "!Transform"] ∧
    (intrinsicFns.map Prod.fst).map canonicalName =
      ["Fn::And", "Fn::Base64", "Fn::Cidr", "Fn::Equals", "Fn::FindInMap", "Fn::GetAtt",
        "Fn::GetAZs", "Fn::If", "Fn::ImportValue", "Fn::Join", "Fn::Not", "Fn::Or", "Ref",
        "Fn::Split", "Fn::Sub", "Fn::Transform"] := by
  refine ⟨?_, rfl, by decide⟩
  obtain ⟨name, hlookup, hmem⟩ := lookup_of_mem_keys intrinsicFns node.Tag htag
  have htable : ∀ e ∈ intrinsicFns,
      e.2 = canonicalName e.1 ∧ e.2 ≠ "" ∧ e.1 ≠ "!!seq" ∧ e.1 ≠ "!!map" := by decide
  obtain ⟨hcanon, hne, hseq, hmap⟩ := htable _ hmem
  rw [decodeNode_of_intrinsic decode node name hseq hmap hlookup] at hok
  split at hok
  · cases hok
  · rename_i val hval
    cases hok
    obtain ⟨x, hx⟩ := decodeIntrinsicWith_ok decode node name _ _ val hne hval
    exact ⟨x, by rw [hx, ← hcanon]⟩

/-- Witness of C16: a sequence node tagged `!Join` decodes to a mapping whose
single key is the canonical name of `!Join`. -/
theorem decodeNode_intrinsic_key_witness :
    decodeNode (fun n => .ok (.str n.Value))
        (.mk .SequenceNode "!Join" "" 1 1
          [.mk .ScalarNode "!!str" "," 1 8 [],
           .mk .SequenceNode "!!seq" "" 1 13
            [.mk .ScalarNode "!!str" "a" 1 14 [], .mk .ScalarNode "!!str" "b" 1 17 []]])
        = .ok (.obj [("Fn::Join", .arr [.str ",", .arr [.str "a", .str "b"]])]) ∧
      ∃ val, Value.obj [("Fn::Join", .arr [.str ",", .arr [.str "a", .str "b"]])]
        = .obj [(canonicalName "!Join", val)] :=
  ⟨rfl, (decodeNode_intrinsic_key (fun n => .ok (.str n.Value))
    (.mk .SequenceNode "!Join" "" 1 1
      [.mk .ScalarNode "!!str" "," 1 8 [],
       .mk .SequenceNode "!!seq" "" 1 13
        [.mk .ScalarNode "!!str" "a" 1 14 [], .mk .ScalarNode "!!str" "b" 1 17 []]])
    (.obj [("Fn::Join", .arr [.str ",", .arr [.str "a", .str "b"]])])
    (by decide) rfl).1⟩

/-! ## Malformed mappings -/

theorem cites_of_suffix (before : String) (node : Node) :
    Cites (before ++ position node) node := by
  unfold Cites
  rw [String.data_append]
  exact (List.suffix_append _ _).isInfix

theorem cites_wrap (before message : String) (node : Node) (h : Cites message node) :
    Cites (before ++ message) node := by
  unfold Cites at h ⊢
  rw [String.data_append]
  exact h.trans (List.suffix_append _ _).isInfix

/-- A mapping node with an odd number of children fails to decode, with an error
that cites the line and column of the node. -/
theorem decodeNode_odd_map (decode : Node → Except String Value) (node : Node)
    (htag : node.Tag = "!!map") (hodd : node.Content.length % 2 ≠ 0) :
    ∃ message, decodeNode decode node = .error message ∧ Cites message node := by
  refine ⟨"Failed to decode map val: " ++ ("Malformed map at " ++ position node), ?_,
    cites_wrap _ _ _ (cites_of_suffix _ _)⟩
  rw [decodeNode_eq, if_neg (by rw [htag]; decide), if_pos htag]
  simp only [decodeMap, decodeMapWith, if_pos hodd]

/-- A mapping node with an even number of children whose first key is not a
string scalar fails to decode, with an error that cites the line and column of
the key. -/
theorem decodeNode_bad_first_key (decode : Node → Except String Value) (node : Node)
    (keyNode valNode : Node) (rest : List Node) (htag : node.Tag = "!!map")
    (hcontent : node.Content = keyNode :: valNode :: rest)
    (heven : node.Content.length % 2 = 0)
    (hkey : keyNode.Kind ≠ .ScalarNode ∨ keyNode.Tag ≠ "!!str") :
    ∃ message, decodeNode decode node = .error message ∧ Cites message keyNode := by
  refine ⟨"Failed to decode map val: " ++ ("Malformed map key at " ++ position keyNode), ?_,
    cites_wrap _ _ _ (cites_of_suffix _ _)⟩
  rw [decodeNode_eq, if_neg (by rw [htag]; decide), if_pos htag]
  simp only [decodeMap, decodeMapWith, if_neg (not_not.mpr heven)]
  rw [hcontent, decodeMapLoop, if_pos hkey]

set_option maxRecDepth 20000 in
/-- C17, evaluated on the document of `sequenceRoot`, a sequence whose item maps
`a` to a mapping with the integer key `2`: decoded on its own, the item fails
with an error that cites line 2, column 5 of the key that is not a string;
decoded as the item of the sequence, it fails with an error that cites only
line 1, column 3 of the item, since `decodeSeq` does not put the error of the
item into its own. -/
theorem decodeNode_sequence_hides_position (decode : Node → Except String Value) :
    decodeNode decode sequenceItem =
      .error ("Failed to decode map val: Failed to decode map val: "
        ++ "Failed to decode map val: Malformed map key at line 2, col 5") ∧
    Cites ("Failed to decode map val: Failed to decode map val: "
        ++ "Failed to decode map val: Malformed map key at line 2, col 5") integerKey ∧
    decodeNode decode sequenceRoot =
      .error "Failed to decode map val: Error decoding sequence item at line 1, col 3" ∧
    ¬ Cites "Failed to decode map val: Error decoding sequence item at line 1, col 3"
      integerKey := by
  refine ⟨rfl, ?_, rfl, ?_⟩
  · unfold Cites; decide
  · unfold Cites; decide

end input

namespace input

/-! ## `SourceInfoNode.GetKey` -/

theorem childPairs_short (content : List Node) (h : content.length ≤ 1) :
    childPairs content = [] := by
  match content, h with
  | [], _ => rfl
  | [_], _ => rfl
  | _ :: _ :: _, h => simp at h

/-- The loop of `GetKey` finds the first pair of children whose key has the text
`key`. -/
theorem getKeyLoop_eq (content : List Node) (key : String) :
    ∀ (fuel i : Nat), content.length ≤ 2 * fuel + i →
      getKeyLoop content key fuel i =
        ((childPairs (content.drop i)).find? (fun pair => pair.1.Value = key)).map
          (fun pair => ⟨some pair.1, pair.2⟩) := by
  intro fuel
  induction fuel with
  | zero =>
    intro i h
    rw [getKeyLoop, List.drop_eq_nil_of_le (by omega)]
    rfl
  | succ fuel ih =>
    intro i h
    rw [getKeyLoop]
    by_cases hi : i + 1 < content.length
    · rw [dif_pos hi]
      have h1 : content.drop i = content[i] :: content[i + 1] :: content.drop (i + 2) := by
        rw [List.drop_eq_getElem_cons (by omega), List.drop_eq_getElem_cons hi]
      rw [h1, childPairs, List.find?_cons]
      by_cases hk : content[i].Value = key
      · rw [if_pos hk]
        simp [hk]
      · rw [if_neg hk, ih (i + 2) (by omega)]
        simp [hk]
    · rw [dif_neg hi, childPairs_short _ (by rw [List.length_drop]; omega)]
      rfl

theorem GetKey_of_mapping (n : SourceInfoNode) (key : String)
    (hkind : n.body.Kind = .MappingNode) :
    n.GetKey key =
      match (childPairs n.body.Content).find? (fun pair => pair.1.Value = key) with
      | some pair => .ok ⟨some pair.1, pair.2⟩
      | none => .error ("Key " ++ key ++ " not found") := by
  unfold SourceInfoNode.GetKey
  rw [if_neg (not_not.mpr hkind), getKeyLoop_eq _ _ _ 0 (by omega), List.drop_zero]
  cases (childPairs n.body.Content).find? (fun pair => pair.1.Value = key) <;> rfl

/-- C18: for every node `n` and key `k`: if the body of `n` is not a mapping,
`GetKey` fails with the error of a wrong kind; otherwise it returns the first
pair of children, in the order of the document, whose key node has exactly the
text `k`, as the node with that key node as key and the paired value as body,
and it fails, with `Key k not found`, if and only if no pair has that key. -/
theorem GetKey_first_pair (n : SourceInfoNode) (k : String) :
    (n.body.Kind ≠ .MappingNode →
      n.GetKey k = .error ("Expected map but got " ++ prettyKind n.body.Kind)) ∧
    (n.body.Kind = .MappingNode →
      (∀ child, n.GetKey k = .ok child ↔
        ∃ before keyNode valNode after,
          childPairs n.body.Content = before ++ (keyNode, valNode) :: after ∧
          keyNode.Value = k ∧ (∀ pair ∈ before, pair.1.Value ≠ k) ∧
          child = ⟨some keyNode, valNode⟩) ∧
      (n.GetKey k = .error ("Key " ++ k ++ " not found") ↔
        ∀ pair ∈ childPairs n.body.Content, pair.1.Value ≠ k) ∧
      (∀ e, n.GetKey k = .error e → e = "Key " ++ k ++ " not found")) := by
  constructor
  · intro hkind
    unfold SourceInfoNode.GetKey
    rw [if_pos hkind]
    rfl
  · intro hkind
    rw [GetKey_of_mapping n k hkind]
    cases hfind : (childPairs n.body.Content).find? (fun pair => pair.1.Value = k) with
    | none =>
      have hnone := List.find?_eq_none.mp hfind
      have hno : ∀ pair ∈ childPairs n.body.Content, pair.1.Value ≠ k :=
        fun pair hp => by simpa using hnone pair hp
      refine ⟨fun child => ⟨fun h => (nomatch h), ?_⟩, ⟨fun _ => hno, fun _ => rfl⟩, ?_⟩
      · rintro ⟨before, keyNode, valNode, after, hsplit, hkey, -, -⟩
        exact absurd hkey (hno (keyNode, valNode) (by rw [hsplit]; simp))
      · intro e h
        cases h
        rfl
    | some pair =>
      obtain ⟨hp, before, after, hsplit, hbefore⟩ := List.find?_eq_some.mp hfind
      have hpk : pair.1.Value = k := by simpa using hp
      refine ⟨fun child => ⟨fun h => ?_, ?_⟩, ⟨fun h => (nomatch h), fun h => ?_⟩,
        fun e h => (nomatch h)⟩
      · cases h
        exact ⟨before, pair.1, pair.2, after, hsplit, hpk,
          fun q hq => by simpa using hbefore q hq, rfl⟩
      · rintro ⟨before2, keyNode, valNode, after2, hsplit2, hkey, hbefore2, rfl⟩
        have hfind2 : (childPairs n.body.Content).find? (fun pair => pair.1.Value = k)
            = some (keyNode, valNode) := by
          rw [List.find?_eq_some]
          exact ⟨by simpa using hkey, before2, after2, hsplit2,
            fun q hq => by simpa using hbefore2 q hq⟩
        rw [hfind] at hfind2
        cases hfind2
        rfl
      · exact absurd hpk (h pair (List.mem_of_find?_eq_some hfind))

/-! ## `SourceInfoNode.GetPath` -/

theorem GetPath_cons (node : SourceInfoNode) (segment : PathSegment)
    (rest : List PathSegment) :
    node.GetPath (segment :: rest) =
      match node.body.Kind with
      | .MappingNode =>
        match segment with
        | .key key =>
          match node.GetKey key with
          | .error err => (node, some err)
          | .ok child => child.GetPath rest
        | _ => (node, some "Expected string key")
      | .SequenceNode =>
        match segment with
        | .index index =>
          match node.GetIndex index with
          | .error err => (node, some err)
          | .ok child => child.GetPath rest
        | _ => (node, some "Expected int index")
      | kind =>
        (node, some ("Expected " ++ prettyKind .MappingNode ++ " or "
          ++ prettyKind .SequenceNode ++ " at key " ++ segment.printed ++ " but got "
          ++ prettyKind kind)) := rfl

theorem GetPath_key (n : SourceInfoNode) (key : String) (rest : List PathSegment)
    (hkind : n.body.Kind = .MappingNode) :
    n.GetPath (.key key :: rest) =
      match n.GetKey key with
      | .error err => (n, some err)
      | .ok child => child.GetPath rest := by
  rw [GetPath_cons]
  simp only [hkind]

theorem GetPath_index (n : SourceInfoNode) (index : Int) (rest : List PathSegment)
    (hkind : n.body.Kind = .SequenceNode) :
    n.GetPath (.index index :: rest) =
      match n.GetIndex index with
      | .error err => (n, some err)
      | .ok child => child.GetPath rest := by
  rw [GetPath_cons]
  simp only [hkind]

/-! ### One step, in the code and in the specification -/

theorem find?_of_first (pairs before after : List (Node × Node)) (keyNode valNode : Node)
    (key : String) (hsplit : pairs = before ++ (keyNode, valNode) :: after)
    (hval : keyNode.Value = key) (hbefore : ∀ pair ∈ before, pair.1.Value ≠ key) :
    pairs.find? (fun pair => pair.1.Value = key) = some (keyNode, valNode) := by
  rw [hsplit, List.find?_append, List.find?_eq_none.mpr (by simpa using hbefore)]
  simp [hval]

theorem GetKey_of_step {n child : SourceInfoNode} {key : String}
    (h : Step n (.key key) child) : n.GetKey key = .ok child := by
  cases h with
  | byKey hkind hsplit hval hbefore =>
    rw [GetKey_of_mapping n key hkind]
    simp only [find?_of_first _ _ _ _ _ _ hsplit hval hbefore]

theorem GetKey_missing (n : SourceInfoNode) (key : String)
    (hkind : n.body.Kind = .MappingNode)
    (hmissing : ∀ pair ∈ childPairs n.body.Content, pair.1.Value ≠ key) :
    n.GetKey key = .error ("Key " ++ key ++ " not found") := by
  have hfind : (childPairs n.body.Content).find? (fun pair => pair.1.Value = key) = none := by
    rw [List.find?_eq_none]
    intro pair hp
    simpa using hmissing pair hp
  rw [GetKey_of_mapping n key hkind]
  simp only [hfind]

theorem step_or_missing_of_mapping (n : SourceInfoNode) (key : String)
    (hkind : n.body.Kind = .MappingNode) :
    (∃ child, Step n (.key key) child) ∨
      ∀ pair ∈ childPairs n.body.Content, pair.1.Value ≠ key := by
  cases hfind : (childPairs n.body.Content).find? (fun pair => pair.1.Value = key) with
  | none =>
    refine Or.inr ?_
    simpa using List.find?_eq_none.mp hfind
  | some pair =>
    obtain ⟨hp, before, after, hsplit, hbefore⟩ := List.find?_eq_some.mp hfind
    exact Or.inl ⟨⟨some pair.1, pair.2⟩,
      Step.byKey hkind hsplit (by simpa using hp) (fun q hq => by simpa using hbefore q hq)⟩

theorem GetIndex_out_of_range (n : SourceInfoNode) (index : Int)
    (hkind : n.body.Kind = .SequenceNode)
    (h : index < 0 ∨ index ≥ n.body.Content.length) : ∃ e, n.GetIndex index = .error e := by
  unfold SourceInfoNode.GetIndex
  rw [if_neg (not_not.mpr hkind), dif_pos h]
  exact ⟨_, rfl⟩

theorem GetIndex_in_range (n : SourceInfoNode) (index : Int)
    (hkind : n.body.Kind = .SequenceNode)
    (h : ¬ (index < 0 ∨ index ≥ n.body.Content.length)) :
    n.GetIndex index = .ok ⟨none, n.body.Content.get ⟨index.toNat, by omega⟩⟩ := by
  unfold SourceInfoNode.GetIndex
  rw [if_neg (not_not.mpr hkind), dif_neg h]

theorem GetIndex_of_step {n child : SourceInfoNode} {index : Int}
    (h : Step n (.index index) child) : n.GetIndex index = .ok child := by
  cases h with
  | byIndex hkind h0 hget =>
    obtain ⟨hlt, hchild⟩ := List.getElem?_eq_some.mp hget
    have hrange : ¬ (index < 0 ∨ index ≥ n.body.Content.length) := by omega
    rw [GetIndex_in_range n index hkind hrange]
    have : n.body.Content.get ⟨index.toNat, hlt⟩ = _ := hchild
    rw [← this]

theorem step_of_index_in_range (n : SourceInfoNode) (index : Int)
    (hkind : n.body.Kind = .SequenceNode)
    (h : ¬ (index < 0 ∨ index ≥ n.body.Content.length)) :
    ∃ child, Step n (.index index) child := by
  have hlt : index.toNat < n.body.Content.length := by omega
  exact ⟨⟨none, n.body.Content.get ⟨index.toNat, hlt⟩⟩,
    Step.byIndex hkind (by omega) (List.getElem?_eq_getElem hlt)⟩

theorem GetPath_of_step {n child : SourceInfoNode} {segment : PathSegment}
    (h : Step n segment child) (rest : List PathSegment) :
    n.GetPath (segment :: rest) = child.GetPath rest := by
  cases h with
  | byKey hkind hsplit hval hbefore =>
    rw [GetPath_key _ _ _ hkind, GetKey_of_step (Step.byKey hkind hsplit hval hbefore)]
  | byIndex hkind h0 hget =>
    rw [GetPath_index _ _ _ hkind, GetIndex_of_step (Step.byIndex hkind h0 hget)]

theorem GetPath_of_reaches {n m : SourceInfoNode} {p : List PathSegment} (h : Reaches n p m)
    (q : List PathSegment) : n.GetPath (p ++ q) = m.GetPath q := by
  induction h with
  | done n => rfl
  | step hstep _ ih => rw [List.cons_append, GetPath_of_step hstep]; exact ih

theorem GetPath_of_stepFails (m : SourceInfoNode) (segment : PathSegment)
    (rest : List PathSegment) (h : StepFails m segment) :
    ∃ e, m.GetPath (segment :: rest) = (m, some e) := by
  rcases h with ⟨hkind, h⟩ | ⟨hkind, h⟩ | ⟨h1, h2⟩
  · rcases h with ⟨key, rfl, hmissing⟩ | hnokey
    · rw [GetPath_key _ _ _ hkind, GetKey_missing m key hkind hmissing]
      exact ⟨_, rfl⟩
    · cases segment with
      | key key => exact absurd rfl (hnokey key)
      | index i => rw [GetPath_cons]; simp only [hkind]; exact ⟨_, rfl⟩
      | other printed => rw [GetPath_cons]; simp only [hkind]; exact ⟨_, rfl⟩
  · rcases h with ⟨index, rfl, hrange⟩ | hnoindex
    · obtain ⟨e, he⟩ := GetIndex_out_of_range m index hkind hrange
      rw [GetPath_index _ _ _ hkind, he]
      exact ⟨_, rfl⟩
    · cases segment with
      | key key => rw [GetPath_cons]; simp only [hkind]; exact ⟨_, rfl⟩
      | index i => exact absurd rfl (hnoindex i)
      | other printed => rw [GetPath_cons]; simp only [hkind]; exact ⟨_, rfl⟩
  · cases hkind : m.body.Kind with
    | MappingNode => exact absurd hkind h1
    | SequenceNode => exact absurd hkind h2
    | DocumentNode => cases segment <;> (rw [GetPath_cons]; simp only [hkind]; exact ⟨_, rfl⟩)
    | ScalarNode => cases segment <;> (rw [GetPath_cons]; simp only [hkind]; exact ⟨_, rfl⟩)
    | AliasNode => cases segment <;> (rw [GetPath_cons]; simp only [hkind]; exact ⟨_, rfl⟩)
    | otherKind => cases segment <;> (rw [GetPath_cons]; simp only [hkind]; exact ⟨_, rfl⟩)

/-- Every path either leads somewhere or has a first step that fails. -/
theorem reaches_or_fails : ∀ (p : List PathSegment) (n : SourceInfoNode),
    (∃ m, Reaches n p m) ∨
      ∃ p1 segment p2 m, p = p1 ++ segment :: p2 ∧ Reaches n p1 m ∧ StepFails m segment := by
  intro p
  induction p with
  | nil => intro n; exact Or.inl ⟨n, Reaches.done n⟩
  | cons segment rest ih =>
    intro n
    have hfail : StepFails n segment →
        (∃ m, Reaches n (segment :: rest) m) ∨
          ∃ p1 seg p2 m, segment :: rest = p1 ++ seg :: p2 ∧ Reaches n p1 m ∧ StepFails m seg :=
      fun h => Or.inr ⟨[], segment, rest, n, rfl, Reaches.done n, h⟩
    have hlift : ∀ child, Step n segment child →
        (∃ m, Reaches n (segment :: rest) m) ∨
          ∃ p1 seg p2 m, segment :: rest = p1 ++ seg :: p2 ∧ Reaches n p1 m ∧
            StepFails m seg := by
      intro child hchild
      rcases ih child with ⟨m, hm⟩ | ⟨p1, seg, p2, m, hsplit, hreach, hstep⟩
      · exact Or.inl ⟨m, Reaches.step hchild hm⟩
      · exact Or.inr ⟨segment :: p1, seg, p2, m, by rw [hsplit]; rfl,
          Reaches.step hchild hreach, hstep⟩
    by_cases hmap : n.body.Kind = .MappingNode
    · cases segment with
      | key key =>
        rcases step_or_missing_of_mapping n key hmap with ⟨child, hchild⟩ | hmissing
        · exact hlift child hchild
        · exact hfail (Or.inl ⟨hmap, Or.inl ⟨key, rfl, hmissing⟩⟩)
      | index i => exact hfail (Or.inl ⟨hmap, Or.inr (fun key h => nomatch h)⟩)
      | other printed => exact hfail (Or.inl ⟨hmap, Or.inr (fun key h => nomatch h)⟩)
    · by_cases hseq : n.body.Kind = .SequenceNode
      · cases segment with
        | index i =>
          by_cases hrange : i < 0 ∨ i ≥ n.body.Content.length
          · exact hfail (Or.inr (Or.inl ⟨hseq, Or.inl ⟨i, rfl, hrange⟩⟩))
          · obtain ⟨child, hchild⟩ := step_of_index_in_range n i hseq hrange
            exact hlift child hchild
        | key key => exact hfail (Or.inr (Or.inl ⟨hseq, Or.inr (fun i h => nomatch h)⟩))
        | other printed =>
          exact hfail (Or.inr (Or.inl ⟨hseq, Or.inr (fun i h => nomatch h)⟩))
      · exact hfail (Or.inr (Or.inr ⟨hmap, hseq⟩))

theorem GetPath_eq_of_reaches {n m : SourceInfoNode} {p : List PathSegment}
    (h : Reaches n p m) : n.GetPath p = (m, none) := by
  have := GetPath_of_reaches h []
  rw [List.append_nil] at this
  rw [this]
  rfl

theorem reaches_of_GetPath (n m : SourceInfoNode) (p : List PathSegment)
    (h : n.GetPath p = (m, none)) : Reaches n p m := by
  rcases reaches_or_fails p n with ⟨m2, hm2⟩ | ⟨p1, segment, p2, x, hsplit, hreach, hstep⟩
  · have h2 := GetPath_eq_of_reaches hm2
    rw [h] at h2
    have h3 : m = m2 := congrArg Prod.fst h2
    rw [h3]
    exact hm2
  · obtain ⟨e, he⟩ := GetPath_of_stepFails x segment p2 hstep
    rw [hsplit, GetPath_of_reaches hreach, he] at h
    cases h

theorem reaches_append : ∀ (p q : List PathSegment) (n m : SourceInfoNode),
    Reaches n (p ++ q) m → ∃ parent, Reaches n p parent ∧ Reaches parent q m := by
  intro p
  induction p with
  | nil => intro q n m h; exact ⟨n, Reaches.done n, h⟩
  | cons segment rest ih =>
    intro q n m h
    cases h with
    | step hstep hrest =>
      obtain ⟨parent, h1, h2⟩ := ih q _ m hrest
      exact ⟨parent, Reaches.step hstep h1, h2⟩

/-- C19: `GetPath` consumes the path one element at a time.  A step on a mapping
with a string leads to the value of the first pair of children whose key has
that text, a step on a sequence with an integer `i`, `0 ≤ i < len`, leads to the
child at index `i`.  `GetPath` returns a node and no error exactly when every
step succeeds, and the node is then the one that the steps reach in order, the
node itself for the empty path; at the first step that fails (a missing key, an
index out of range, a string on a sequence, an integer on a mapping, or a node
that is neither with path left) it returns an error together with the node
reached before that step.  One of the two is always the case.  In the fixture
document the steps `Resources`, `MyBucket`, `Properties`, `Tags`, `0` lead to
the first tag and the index `2` fails at the sequence of tags. -/
theorem GetPath_steps (n : SourceInfoNode) (p : List PathSegment) :
    n.GetPath [] = (n, none) ∧
    (∀ m, n.GetPath p = (m, none) ↔ Reaches n p m) ∧
    (∀ p1 segment p2 m, p = p1 ++ segment :: p2 → Reaches n p1 m → StepFails m segment →
      ∃ e, n.GetPath p = (m, some e)) ∧
    ((∃ m, Reaches n p m) ∨
      ∃ p1 segment p2 m, p = p1 ++ segment :: p2 ∧ Reaches n p1 m ∧ StepFails m segment) ∧
    (documentRoot.GetPath
        [.key "Resources", .key "MyBucket", .key "Properties", .key "Tags", .index 0]
        = (⟨none, .mk .ScalarNode "!!str" "one" 7 11 []⟩, none) ∧
      documentRoot.GetPath
        [.key "Resources", .key "MyBucket", .key "Properties", .key "Tags", .index 2]
        = (⟨some (.mk .ScalarNode "!!str" "Tags" 6 7 []), tagsNode⟩,
            some "Index 2 out of bounds for length 2")) := by
  refine ⟨rfl, fun m => ⟨reaches_of_GetPath n m p, GetPath_eq_of_reaches⟩, ?_,
    reaches_or_fails p n, rfl, rfl⟩
  intro p1 segment p2 m hsplit hreach hstep
  rw [hsplit, GetPath_of_reaches hreach]
  exact GetPath_of_stepFails m segment p2 hstep

/-! ## `SourceInfoNode.Location` -/

/-- C20: `Location` returns the line and column of the key node when a key node
is attached, and those of the body otherwise.  So for every node and every path
on which `GetPath` succeeds and whose last segment is a string key, the node
found is the value of the first pair with that key in the mapping before it,
and its location is the position of the key node of that pair; when the last
segment is an integer index `i`, the node found is the child at index `i` of the
sequence before it, and its location is the position of that child itself.  In
the fixture document the path `Resources`, `MyBucket`, `Properties`,
`BucketName` gives line 5, column 7, the position of the key, and not column 19,
the position of the value; the indices 0 and 1 under `Tags` give the positions
of the first and of the second tag. -/
theorem Location_of_GetPath (n m : SourceInfoNode) (p : List PathSegment) :
    (∀ keyNode, m.key = some keyNode → m.Location = (keyNode.Line, keyNode.Column)) ∧
    (m.key = none → m.Location = (m.body.Line, m.body.Column)) ∧
    (∀ k, n.GetPath (p ++ [.key k]) = (m, none) →
      ∃ parent before keyNode after, n.GetPath p = (parent, none) ∧
        parent.body.Kind = .MappingNode ∧
        childPairs parent.body.Content = before ++ (keyNode, m.body) :: after ∧
        keyNode.Value = k ∧ (∀ pair ∈ before, pair.1.Value ≠ k) ∧
        m.key = some keyNode ∧ m.Location = (keyNode.Line, keyNode.Column)) ∧
    (∀ i, n.GetPath (p ++ [.index i]) = (m, none) →
      ∃ parent child, n.GetPath p = (parent, none) ∧
        parent.body.Kind = .SequenceNode ∧ 0 ≤ i ∧
        parent.body.Content[i.toNat]? = some child ∧
        m = ⟨none, child⟩ ∧ m.Location = (child.Line, child.Column)) ∧
    (documentRoot.GetPath
        [.key "Resources", .key "MyBucket", .key "Properties", .key "BucketName"]
        = (⟨some bucketNameKey, bucketNameValue⟩, none) ∧
      SourceInfoNode.Location ⟨some bucketNameKey, bucketNameValue⟩ = (5, 7) ∧
      (bucketNameValue.Line, bucketNameValue.Column) = (5, 19) ∧
      documentRoot.GetPath
        [.key "Resources", .key "MyBucket", .key "Properties", .key "Tags", .index 1]
        = (⟨none, secondTag⟩, none) ∧
      SourceInfoNode.Location ⟨none, secondTag⟩ = (8, 11) ∧
      (documentRoot.GetPath
        [.key "Resources", .key "MyBucket", .key "Properties", .key "Tags", .index 0]).1.Location
        = (7, 11)) := by
  refine ⟨?_, ?_, ?_, ?_, rfl, rfl, rfl, rfl, rfl, rfl⟩
  · intro keyNode h
    unfold SourceInfoNode.Location
    rw [h]
  · intro h
    unfold SourceInfoNode.Location
    rw [h]
  · intro k h
    obtain ⟨parent, h1, h2⟩ := reaches_append p [.key k] n m (reaches_of_GetPath n m _ h)
    cases h2 with
    | step hstep hrest =>
      cases hrest
      cases hstep with
      | byKey hkind hsplit hval hbefore =>
        exact ⟨parent, _, _, _, GetPath_eq_of_reaches h1, hkind, hsplit, hval, hbefore, rfl, rfl⟩
  · intro i h
    obtain ⟨parent, h1, h2⟩ := reaches_append p [.index i] n m (reaches_of_GetPath n m _ h)
    cases h2 with
    | step hstep hrest =>
      cases hrest
      cases hstep with
      | byIndex hkind h0 hget =>
        exact ⟨parent, _, GetPath_eq_of_reaches h1, hkind, h0, hget, rfl, rfl⟩

end input

namespace input

/-! ## `cfnConfiguration.Location` -/

theorem Location_of_resource (l : cfnConfiguration) (source : SourceInfoNode)
    (p : List PathSegment) (id : String) (hsource : l.source = some source)
    (hlen : 3 ≤ p.length) (hid : p[2]? = some (.key id)) :
    l.Location p =
      (some [⟨l.path,
          (source.GetPath (if p.length > 3
            then [.key "Resources", .key id] ++ [.key "Properties"] ++ p.drop 3
            else [.key "Resources", .key id])).1.Location.1,
          (source.GetPath (if p.length > 3
            then [.key "Resources", .key id] ++ [.key "Properties"] ++ p.drop 3
            else [.key "Resources", .key id])).1.Location.2⟩],
        (source.GetPath (if p.length > 3
            then [.key "Resources", .key id] ++ [.key "Properties"] ++ p.drop 3
            else [.key "Resources", .key id])).2.map LocationError.message) := by
  unfold cfnConfiguration.Location
  rw [hsource]
  simp only [if_neg (Nat.not_lt.mpr hlen), hid]

theorem Location_of_other (l : cfnConfiguration) (source : SourceInfoNode)
    (p : List PathSegment) (hsource : l.source = some source)
    (hlen : 3 ≤ p.length) (hid : ∀ id, p[2]? ≠ some (.key id)) :
    l.Location p = (none, some (.UnableToResolveLocation p)) := by
  unfold cfnConfiguration.Location
  rw [hsource]
  simp only [if_neg (Nat.not_lt.mpr hlen)]

/-- C21: `cfnConfiguration.Location` returns no stack and no error when no source
index was retained or the path has fewer than three elements; the error
`UnableToResolveLocation` when the third element is not a string; and otherwise
one location, whose path is the file path of the configuration and whose line and
column are the `Location` of the node that `GetPath` returned from the retained
root for `Resources`, the resource ID, and, when the path is longer than three,
`Properties` followed by the rest of the path, together with the error of
`GetPath`.  In the fixture document the attribute `BucketName` of `MyBucket` is
at line 5, column 7, and a missing attribute gives the position of
`Properties` with the error of `GetPath`. -/
theorem Location_contract (l : cfnConfiguration) (p : List PathSegment) :
    (l.source = none ∨ p.length < 3 → l.Location p = (none, none)) ∧
    (∀ source, l.source = some source → 3 ≤ p.length → (∀ id, p[2]? ≠ some (.key id)) →
      l.Location p = (none, some (.UnableToResolveLocation p))) ∧
    (∀ source id, l.source = some source → p.length = 3 → p[2]? = some (.key id) →
      l.Location p =
        (some [⟨l.path,
            (source.GetPath [.key "Resources", .key id]).1.Location.1,
            (source.GetPath [.key "Resources", .key id]).1.Location.2⟩],
          (source.GetPath [.key "Resources", .key id]).2.map LocationError.message)) ∧
    (∀ source id, l.source = some source → 3 < p.length → p[2]? = some (.key id) →
      l.Location p =
        (some [⟨l.path,
            (source.GetPath
              ([.key "Resources", .key id, .key "Properties"] ++ p.drop 3)).1.Location.1,
            (source.GetPath
              ([.key "Resources", .key id, .key "Properties"] ++ p.drop 3)).1.Location.2⟩],
          (source.GetPath
            ([.key "Resources", .key id, .key "Properties"] ++ p.drop 3)).2.map
              LocationError.message)) ∧
    (bucketConfiguration.Location
        [.key "bucket.yaml", .key "AWS::S3::Bucket", .key "MyBucket", .key "BucketName"]
        = (some [⟨"bucket.yaml", 5, 7⟩], none) ∧
      bucketConfiguration.Location
        [.key "bucket.yaml", .key "AWS::S3::Bucket", .key "MyBucket"]
        = (some [⟨"bucket.yaml", 2, 3⟩], none) ∧
      bucketConfiguration.Location
        [.key "bucket.yaml", .key "AWS::S3::Bucket", .key "MyBucket", .key "Missing"]
        = (some [⟨"bucket.yaml", 4, 5⟩], some (.message "Key Missing not found"))) := by
  refine ⟨?_, ?_, ?_, ?_, rfl, rfl, rfl⟩
  · intro h
    unfold cfnConfiguration.Location
    rcases h with h | h
    · rw [h]
    · cases l.source with
      | none => rfl
      | some source => simp only [if_pos h]
  · intro source hsource hlen hid
    exact Location_of_other l source p hsource hlen hid
  · intro source id hsource hlen hid
    rw [Location_of_resource l source p id hsource (le_of_eq hlen.symm) hid,
      if_neg (by omega)]
  · intro source id hsource hlen hid
    rw [Location_of_resource l source p id hsource (le_of_lt hlen) hid, if_pos hlen]
    rfl

theorem getElem?_two_of_drop (p q : List PathSegment) (h : p.drop 2 = q.drop 2) :
    p[2]? = q[2]? := by
  have hp : (p.drop 2)[0]? = p[2]? := by rw [List.getElem?_drop]
  have hq : (q.drop 2)[0]? = q[2]? := by rw [List.getElem?_drop]
  rw [← hp, ← hq, h]

theorem drop_three_of_drop (p q : List PathSegment) (h : p.drop 2 = q.drop 2) :
    p.drop 3 = q.drop 3 := by
  have hp : (p.drop 2).drop 1 = p.drop 3 := by rw [List.drop_drop]
  have hq : (q.drop 2).drop 1 = q.drop 3 := by rw [List.drop_drop]
  rw [← hp, ← hq, h]

theorem length_of_drop (p q : List PathSegment) (hp : 3 ≤ p.length) (hq : 3 ≤ q.length)
    (h : p.drop 2 = q.drop 2) : p.length = q.length := by
  have h1 : (p.drop 2).length = (q.drop 2).length := by rw [h]
  rw [List.length_drop, List.length_drop] at h1
  omega

/-- C28: `cfnConfiguration.Location` ignores the first two elements of the path,
the namespace and the resource type.  For two paths of length at least three
that agree from the third element on, the locations returned are the same; when
the third element is a string the whole results, locations and error, are
equal; and when it is not, both calls return no location and the error
`UnableToResolveLocation`, each wrapping the path it was given.  So one call has
an error of a kind exactly when the other has. -/
theorem Location_ignores_namespace_and_type (l : cfnConfiguration) (p q : List PathSegment)
    (hp : 3 ≤ p.length) (hq : 3 ≤ q.length) (h : p.drop 2 = q.drop 2) :
    (l.Location p).1 = (l.Location q).1 ∧
    ((∃ id, p[2]? = some (.key id)) → l.Location p = l.Location q) ∧
    ((l.Location p).2 = none ↔ (l.Location q).2 = none) ∧
    (∀ text, (l.Location p).2 = some (.message text) ↔
      (l.Location q).2 = some (.message text)) ∧
    ((l.Location p).2 = some (.UnableToResolveLocation p) ↔
      (l.Location q).2 = some (.UnableToResolveLocation q)) := by
  have h2 := getElem?_two_of_drop p q h
  have h3 := drop_three_of_drop p q h
  have hlen := length_of_drop p q hp hq h
  cases hsource : l.source with
  | none =>
    have e1 : l.Location p = (none, none) := by
      unfold cfnConfiguration.Location
      rw [hsource]
    have e2 : l.Location q = (none, none) := by
      unfold cfnConfiguration.Location
      rw [hsource]
    rw [e1, e2]
    simp
  | some source =>
    by_cases hid : ∃ id, p[2]? = some (.key id)
    · obtain ⟨id, hid⟩ := hid
      have e : l.Location p = l.Location q := by
        rw [Location_of_resource l source p id hsource hp hid,
          Location_of_resource l source q id hsource hq (h2 ▸ hid), h3, hlen]
      have e1 := Location_of_resource l source q id hsource hq (h2 ▸ hid)
      refine ⟨by rw [e], fun _ => e, by rw [e], fun text => by rw [e], ?_⟩
      rw [e, e1]
      cases (source.GetPath (if q.length > 3
            then [.key "Resources", .key id] ++ [.key "Properties"] ++ q.drop 3
            else [.key "Resources", .key id])).2 <;> simp
    · have hid1 : ∀ id, p[2]? ≠ some (.key id) := fun id h => hid ⟨id, h⟩
      have hid2 : ∀ id, q[2]? ≠ some (.key id) := fun id h => hid ⟨id, h2 ▸ h⟩
      rw [Location_of_other l source p hsource hp hid1,
        Location_of_other l source q hsource hq hid2]
      refine ⟨rfl, fun h => absurd h hid, by simp, by simp, by simp⟩

/-- Witness of C28: in the fixture document the location of `BucketName` of
`MyBucket` asked under another file name and another resource type. -/
theorem Location_ignores_namespace_and_type_witness :
    bucketConfiguration.Location
        [.key "other.yaml", .key "AWS::EC2::Instance", .key "MyBucket", .key "BucketName"]
      = bucketConfiguration.Location
        [.key "bucket.yaml", .key "AWS::S3::Bucket", .key "MyBucket", .key "BucketName"] :=
  (Location_ignores_namespace_and_type bucketConfiguration
    [.key "other.yaml", .key "AWS::EC2::Instance", .key "MyBucket", .key "BucketName"]
    [.key "bucket.yaml", .key "AWS::S3::Bucket", .key "MyBucket", .key "BucketName"]
    (by decide) (by decide) rfl).2.1 ⟨"MyBucket", rfl⟩

end input

namespace input

/-! ## A key that occurs more than once -/

theorem lookup_map_setField_ne {β : Type} (m : List (String × β)) (key k : String) (val : β)
    (h : k ≠ key) :
    (m.map (fun e => if e.1 = key then (key, val) else e)).lookup k = m.lookup k := by
  induction m with
  | nil => rfl
  | cons e m ih =>
    rw [List.map_cons]
    by_cases he : e.1 = key
    · rw [if_pos he]
      have h1 : (k == key) = false := by simpa using h
      have h2 : (k == e.1) = false := by simpa [he] using h
      rw [List.lookup_cons, List.lookup_cons (k := e.1)]
      simp only [h1, h2]
      exact ih
    · rw [if_neg he]
      cases hk : k == e.1 with
      | true => rw [List.lookup_cons, List.lookup_cons (k := e.1)]; simp only [hk]
      | false =>
        rw [List.lookup_cons, List.lookup_cons (k := e.1)]
        simp only [hk]
        exact ih

theorem lookup_map_setField_self {β : Type} (m : List (String × β)) (key : String) (val : β)
    (h : m.any (fun e => e.1 == key) = true) :
    (m.map (fun e => if e.1 = key then (key, val) else e)).lookup key = some val := by
  induction m with
  | nil => simp at h
  | cons e m ih =>
    rw [List.map_cons]
    by_cases he : e.1 = key
    · rw [if_pos he, List.lookup_cons]
      simp
    · rw [if_neg he, List.lookup_cons]
      have h2 : (key == e.1) = false := by simpa using fun h => he h.symm
      simp only [h2]
      apply ih
      rw [List.any_cons] at h
      have h3 : (e.1 == key) = false := by simpa using he
      rw [h3] at h
      simpa using h

theorem lookup_append_singleton {β : Type} (m : List (String × β)) (key k : String)
    (val : β) :
    (m ++ [(key, val)]).lookup k =
      match m.lookup k with
      | some v => some v
      | none => if k = key then some val else none := by
  induction m with
  | nil =>
    rw [List.nil_append, List.lookup_cons]
    by_cases h : k = key
    · simp [h]
    · have h1 : (k == key) = false := by simpa using h
      simp [h1, h]
  | cons e m ih =>
    rw [List.cons_append, List.lookup_cons, List.lookup_cons (k := e.1)]
    cases hk : k == e.1 with
    | true => rfl
    | false => exact ih

theorem lookup_none_of_not_any {β : Type} (m : List (String × β)) (key : String)
    (h : ¬ m.any (fun e => e.1 == key) = true) : m.lookup key = none := by
  rw [List.lookup_eq_none_iff]
  intro e he
  have : e.1 ≠ key := by
    intro hek
    apply h
    rw [List.any_eq_true]
    exact ⟨e, he, by simpa using hek⟩
  simpa using fun h => this h.symm

/-- The map write `m[key] = val` read back: the key written has the value
written, every other key has the value it had. -/
theorem lookup_setField (m : List (String × Value)) (key k : String) (val : Value) :
    (setField m key val).lookup k = if k = key then some val else m.lookup k := by
  unfold setField
  by_cases hany : m.any (fun e => e.1 == key) = true
  · rw [if_pos hany]
    by_cases hk : k = key
    · rw [if_pos hk, hk]
      exact lookup_map_setField_self m key val hany
    · rw [if_neg hk]
      exact lookup_map_setField_ne m key k val hk
  · rw [if_neg hany, lookup_append_singleton]
    by_cases hk : k = key
    · rw [if_pos hk, hk, lookup_none_of_not_any m key hany]
      simp
    · rw [if_neg hk]
      cases m.lookup k <;> simp [hk]

theorem decodeMapLoop_cons (decode : Node → Except String Value) (m : List (String × Value))
    (keyNode valNode : Node) (rest : List Node) :
    decodeMapLoop decode m (keyNode :: valNode :: rest) =
      if keyNode.Kind ≠ .ScalarNode ∨ keyNode.Tag ≠ "!!str" then
        .error ("Malformed map key at " ++ position keyNode)
      else
        match decodeNode decode valNode with
        | .error err => .error ("Failed to decode map val: " ++ err)
        | .ok val => decodeMapLoop decode (setField m keyNode.Value val) rest := by
  rw [decodeMapLoop]

theorem decodeMapLoop_nil (decode : Node → Except String Value) (m : List (String × Value)) :
    decodeMapLoop decode m [] = .ok m := by
  rw [decodeMapLoop]
  intro _ _ _ h
  exact nomatch h

theorem decodeMapLoop_single (decode : Node → Except String Value)
    (m : List (String × Value)) (node : Node) : decodeMapLoop decode m [node] = .ok m := by
  rw [decodeMapLoop]
  intro _ _ _ h
  exact nomatch h

/-- The loop of `decodeMap` succeeds when every key is a string scalar and every
value decodes, whether or not a key occurs twice. -/
theorem decodeMapLoop_ok (decode : Node → Except String Value) :
    ∀ (content : List Node) (m : List (String × Value)),
      (∀ pair ∈ childPairs content, pair.1.Kind = .ScalarNode ∧ pair.1.Tag = "!!str") →
      (∀ pair ∈ childPairs content, ∃ v, decodeNode decode pair.2 = .ok v) →
      ∃ r, decodeMapLoop decode m content = .ok r
  | [], m, _, _ => ⟨m, decodeMapLoop_nil decode m⟩
  | [node], m, _, _ => ⟨m, decodeMapLoop_single decode m node⟩
  | keyNode :: valNode :: rest, m, hkeys, hvals => by
    have hk := hkeys (keyNode, valNode) (by simp [childPairs])
    obtain ⟨v, hv⟩ := hvals (keyNode, valNode) (by simp [childPairs])
    rw [decodeMapLoop_cons, if_neg (by simp [hk.1, hk.2]), hv]
    exact decodeMapLoop_ok decode rest _
      (fun pair hp => hkeys pair (by simp [childPairs, hp]))
      (fun pair hp => hvals pair (by simp [childPairs, hp]))

/-- The loop of `decodeMap` leaves a key that does not occur as it was. -/
theorem decodeMapLoop_lookup_absent (decode : Node → Except String Value) (k : String) :
    ∀ (content : List Node) (m r : List (String × Value)),
      decodeMapLoop decode m content = .ok r →
      (∀ pair ∈ childPairs content, pair.1.Value ≠ k) → r.lookup k = m.lookup k
  | [], m, r, h, _ => by
    rw [decodeMapLoop_nil] at h
    rw [Except.ok.inj h]
  | [_], m, r, h, _ => by
    rw [decodeMapLoop_single] at h
    rw [Except.ok.inj h]
  | keyNode :: valNode :: rest, m, r, h, hk => by
    rw [decodeMapLoop_cons] at h
    split at h
    · exact nomatch h
    · split at h
      · exact nomatch h
      · rename_i val _
        rw [decodeMapLoop_lookup_absent decode k rest _ r h
          (fun pair hp => hk pair (by simp [childPairs, hp])), lookup_setField,
          if_neg (fun hkk => hk (keyNode, valNode) (by simp [childPairs]) hkk.symm)]

/-- The loop of `decodeMap` maps a key to the decoded value of its last
occurrence. -/
theorem decodeMapLoop_lookup_last (decode : Node → Except String Value) (k : String) :
    ∀ (content : List Node) (m r : List (String × Value)) (before after : List (Node × Node))
      (lastKey lastVal : Node),
      childPairs content = before ++ (lastKey, lastVal) :: after → lastKey.Value = k →
      (∀ pair ∈ after, pair.1.Value ≠ k) → decodeMapLoop decode m content = .ok r →
      ∃ v, decodeNode decode lastVal = .ok v ∧ r.lookup k = some v
  | [], _, _, before, _, _, _, hp, _, _, _ => by
    have hp2 : ([] : List (Node × Node)) = before ++ _ := hp
    exact absurd hp2 (by simp)
  | [_], _, _, before, _, _, _, hp, _, _, _ => by
    have hp2 : ([] : List (Node × Node)) = before ++ _ := hp
    exact absurd hp2 (by simp)
  | keyNode :: valNode :: rest, m, r, before, after, lastKey, lastVal, hp, hkey, hafter, h => by
    rw [decodeMapLoop_cons] at h
    split at h
    · exact nomatch h
    · split at h
      · exact nomatch h
      · rename_i val hval
        rw [childPairs] at hp
        cases before with
        | nil =>
          rw [List.nil_append] at hp
          obtain ⟨h1, h2⟩ := List.cons.inj hp
          obtain ⟨h3, h4⟩ := Prod.mk.inj h1
          subst h3 h4
          refine ⟨val, hval, ?_⟩
          rw [decodeMapLoop_lookup_absent decode k rest _ r h (by rw [h2]; exact hafter),
            lookup_setField, if_pos hkey.symm]
        | cons p before =>
          rw [List.cons_append] at hp
          obtain ⟨-, h2⟩ := List.cons.inj hp
          exact decodeMapLoop_lookup_last decode k rest _ r before after lastKey lastVal
            h2 hkey hafter h

/-- C29: on a mapping node in which the string key `k` occurs more than once,
with keys that are string scalars and values that decode, `decodeMap` succeeds
and maps `k` to the decoded value of its last occurrence, while `GetKey` on the
same node returns the first occurrence, whose `Location` is the position of the
first key node.  So when the first value decodes to something else than the
last, the position reported for `k` is that of an occurrence whose value is not
the one in the decoded map. -/
theorem duplicate_key_first_and_last (decode : Node → Except String Value) (node : Node)
    (key : Option Node) (k : String) (before between after : List (Node × Node))
    (firstKey firstVal lastKey lastVal : Node)
    (hkind : node.Kind = .MappingNode) (heven : node.Content.length % 2 = 0)
    (hpairs : childPairs node.Content =
      before ++ (firstKey, firstVal) :: (between ++ (lastKey, lastVal) :: after))
    (hfirst : firstKey.Value = k) (hlast : lastKey.Value = k)
    (hbefore : ∀ pair ∈ before, pair.1.Value ≠ k) (hafter : ∀ pair ∈ after, pair.1.Value ≠ k)
    (hkeys : ∀ pair ∈ childPairs node.Content,
      pair.1.Kind = .ScalarNode ∧ pair.1.Tag = "!!str")
    (hvals : ∀ pair ∈ childPairs node.Content, ∃ v, decodeNode decode pair.2 = .ok v) :
    ∃ m v, decodeMap decode node = .ok m ∧ decodeNode decode lastVal = .ok v ∧
      m.lookup k = some v ∧
      SourceInfoNode.GetKey ⟨key, node⟩ k = .ok ⟨some firstKey, firstVal⟩ ∧
      SourceInfoNode.Location ⟨some firstKey, firstVal⟩ = (firstKey.Line, firstKey.Column) ∧
      (∀ v1, decodeNode decode firstVal = .ok v1 → v1 ≠ v → m.lookup k ≠ some v1) := by
  obtain ⟨m, hm⟩ := decodeMapLoop_ok decode node.Content [] hkeys hvals
  have hp2 : childPairs node.Content =
      (before ++ (firstKey, firstVal) :: between) ++ (lastKey, lastVal) :: after := by
    rw [hpairs, List.append_assoc, List.cons_append]
  obtain ⟨v, hv, hlook⟩ := decodeMapLoop_lookup_last decode k node.Content [] m _ after
    lastKey lastVal hp2 hlast hafter hm
  refine ⟨m, v, ?_, hv, hlook, ?_, rfl, ?_⟩
  · unfold decodeMap decodeMapWith
    rw [if_neg (not_not.mpr heven)]
    exact hm
  · have hfind : (childPairs node.Content).find? (fun pair => pair.1.Value = k)
        = some (firstKey, firstVal) := by
      rw [hpairs, List.find?_append, List.find?_eq_none.mpr (by simpa using hbefore)]
      simp [hfirst]
    rw [GetKey_of_mapping ⟨key, node⟩ k hkind]
    simp only [hfind]
  · intro v1 _ hne h
    rw [hlook] at h
    exact hne (Option.some.inj h).symm

/-- Witness of C29: in the document `a: x`, `a: y` the decoded map gives `y` for
`a`, and `GetKey` gives the first pair, at line 1, whose value is `x`. -/
theorem duplicate_key_first_and_last_witness :
    decodeMap decodeText duplicateKeyNode = .ok [("a", .str "y")] ∧
    SourceInfoNode.GetKey ⟨none, duplicateKeyNode⟩ "a" = .ok ⟨some firstKeyA, firstValueX⟩ ∧
    SourceInfoNode.Location ⟨some firstKeyA, firstValueX⟩ = (1, 1) ∧
    decodeNode decodeText firstValueX = .ok (.str "x") ∧
    (secondKeyA.Line, secondKeyA.Column) = (2, 1) ∧
    ∃ m v, decodeMap decodeText duplicateKeyNode = .ok m ∧
      decodeNode decodeText secondValueY = .ok v ∧ m.lookup "a" = some v ∧
      SourceInfoNode.GetKey ⟨none, duplicateKeyNode⟩ "a" = .ok ⟨some firstKeyA, firstValueX⟩ ∧
      SourceInfoNode.Location ⟨some firstKeyA, firstValueX⟩
        = (firstKeyA.Line, firstKeyA.Column) ∧
      (∀ v1, decodeNode decodeText firstValueX = .ok v1 → v1 ≠ v → m.lookup "a" ≠ some v1) :=
  ⟨rfl, rfl, rfl, rfl, rfl,
    duplicate_key_first_and_last decodeText duplicateKeyNode none "a" [] [] []
      firstKeyA firstValueX secondKeyA secondValueY rfl rfl rfl rfl rfl
      (fun _ h => nomatch h) (fun _ h => nomatch h)
      (by
        intro pair hp
        have hp2 : pair ∈ [(firstKeyA, firstValueX), (secondKeyA, secondValueY)] := hp
        simp only [List.mem_cons, List.mem_singleton, List.not_mem_nil, or_false] at hp2
        rcases hp2 with h | h <;> subst h <;> exact ⟨rfl, rfl⟩)
      (by
        intro pair hp
        have hp2 : pair ∈ [(firstKeyA, firstValueX), (secondKeyA, secondValueY)] := hp
        simp only [List.mem_cons, List.mem_singleton, List.not_mem_nil, or_false] at hp2
        rcases hp2 with h | h <;> subst h
        · exact ⟨.str "x", rfl⟩
        · exact ⟨.str "y", rfl⟩)⟩

end input

namespace postprocess

open input models

/-! ## The location postprocessor -/

/-- The map write `resource.Meta[key] = val` read back. -/
theorem lookup_setMeta (m : List (String × MetaValue)) (key k : String) (val : MetaValue) :
    (setMeta m key val).lookup k = if k = key then some val else m.lookup k := by
  unfold setMeta
  by_cases hany : m.any (fun e => e.1 == key) = true
  · rw [if_pos hany]
    by_cases hk : k = key
    · rw [if_pos hk, hk]
      exact lookup_map_setField_self m key val hany
    · rw [if_neg hk]
      exact lookup_map_setField_ne m key k val hk
  · rw [if_neg hany, lookup_append_singleton]
    by_cases hk : k = key
    · rw [if_pos hk, hk, lookup_none_of_not_any m key hany]
      simp
    · rw [if_neg hk]
      cases m.lookup k <;> simp [hk]

theorem len_eq_zero {α : Type} (s : Option (List α)) : len s = 0 ↔ s = none ∨ s = some [] := by
  cases s with
  | none => simp [len]
  | some l => cases l <;> simp [len]

theorem AddSourceLocs_results (results : Results) (configurations : Loader) :
    (AddSourceLocs results configurations).1.Results =
      results.Results.map (fun inputResult => (annotateInputResult configurations inputResult).1) := by
  simp [AddSourceLocs, List.map_map, Function.comp_def]

theorem AddSourceLocs_queries (results : Results) (configurations : Loader) :
    (AddSourceLocs results configurations).2 =
      (results.Results.map
        (fun inputResult => (annotateInputResult configurations inputResult).2)).flatten := by
  simp [AddSourceLocs, List.map_map, Function.comp_def]

theorem annotateInputResult_of_filepath (configurations : Loader) (inputResult : Result)
    (filepath : String)
    (h : inputResult.Input.Meta.lookup "filepath" = some (.value (.str filepath))) :
    annotateInputResult configurations inputResult =
      ({ Input := { inputResult.Input with
            Resources := (annotateState configurations filepath inputResult.Input.Resources).1 },
         RuleResults := (annotateRuleResults configurations filepath inputResult.RuleResults).1 },
       (annotateState configurations filepath inputResult.Input.Resources).2 ++
         (annotateRuleResults configurations filepath inputResult.RuleResults).2) := by
  unfold annotateInputResult
  rw [h]

theorem annotateInputResult_of_no_filepath (configurations : Loader) (inputResult : Result)
    (h : ∀ filepath,
      inputResult.Input.Meta.lookup "filepath" ≠ some (.value (.str filepath))) :
    annotateInputResult configurations inputResult = (inputResult, []) := by
  unfold annotateInputResult
  split
  · rename_i filepath heq
    exact absurd heq (h filepath)
  · rfl

/-- C23: an input result whose `Input.Meta` has no string under `filepath`, the
entry missing or holding a value that is not a string, goes through
`AddSourceLocs` without a call of the loader and comes out as it went in: its
state resources, with their `Meta`, and its findings, with their locations, are
the same.  The input results before and after it in the same report are
processed as they are without it, and their calls of the loader are all the
calls made; the function returns no error, it always returns the report. -/
theorem AddSourceLocs_without_filepath (configurations : Loader) (before after : List Result)
    (inputResult : Result)
    (h : ∀ filepath,
      inputResult.Input.Meta.lookup "filepath" ≠ some (.value (.str filepath))) :
    annotateInputResult configurations inputResult = (inputResult, []) ∧
    (AddSourceLocs ⟨before ++ inputResult :: after⟩ configurations).1.Results =
      (AddSourceLocs ⟨before⟩ configurations).1.Results ++
        inputResult :: (AddSourceLocs ⟨after⟩ configurations).1.Results ∧
    (AddSourceLocs ⟨before ++ inputResult :: after⟩ configurations).2 =
      (AddSourceLocs ⟨before⟩ configurations).2 ++ (AddSourceLocs ⟨after⟩ configurations).2 := by
  have h0 := annotateInputResult_of_no_filepath configurations inputResult h
  refine ⟨h0, ?_, ?_⟩
  · rw [AddSourceLocs_results, AddSourceLocs_results, AddSourceLocs_results]
    simp only [List.map_append, List.map_cons, h0]
  · rw [AddSourceLocs_queries, AddSourceLocs_queries, AddSourceLocs_queries]
    simp only [List.map_append, List.map_cons, h0, List.flatten_append, List.flatten_cons,
      List.nil_append]

/-- Witness of C23: the result without the entry `filepath`, followed by the
result of `bucket.yaml`; and the result whose entry `filepath` is a number. -/
theorem AddSourceLocs_without_filepath_witness :
    (annotateInputResult bucketLoader unnamedResult = (unnamedResult, []) ∧
      (AddSourceLocs ⟨[] ++ unnamedResult :: [bucketResult]⟩ bucketLoader).1.Results =
        (AddSourceLocs ⟨[]⟩ bucketLoader).1.Results ++
          unnamedResult :: (AddSourceLocs ⟨[bucketResult]⟩ bucketLoader).1.Results ∧
      (AddSourceLocs ⟨[] ++ unnamedResult :: [bucketResult]⟩ bucketLoader).2 =
        (AddSourceLocs ⟨[]⟩ bucketLoader).2 ++ (AddSourceLocs ⟨[bucketResult]⟩ bucketLoader).2) ∧
    annotateInputResult bucketLoader numberedResult = (numberedResult, []) :=
  ⟨AddSourceLocs_without_filepath bucketLoader [] [bucketResult] unnamedResult
      (fun _ h => nomatch h),
    (AddSourceLocs_without_filepath bucketLoader [] [] numberedResult
      (fun _ h => nomatch h)).1⟩

/-! ### The details of a finding -/

theorem annotateResultResource_attributes (configurations : Loader) (filepath : String)
    (r : RuleResultResource) :
    (annotateResultResource configurations filepath r).1.Attributes =
      r.Attributes.map (fun a =>
        (annotateAttribute configurations filepath r.Namespace r.Type_ r.Id a).1) := by
  simp [annotateResultResource, List.map_map, Function.comp_def]

theorem addSourceLocsToRuleResult_resources (configurations : Loader) (filepath : String)
    (result : RuleResult) :
    (addSourceLocsToRuleResult configurations filepath result).1.Resources =
      result.Resources.map (fun r => (annotateResultResource configurations filepath r).1) := by
  simp [addSourceLocsToRuleResult, List.map_map, Function.comp_def]

theorem annotateRuleResults_results (configurations : Loader) (filepath : String)
    (ruleResults : List RuleResults) :
    (annotateRuleResults configurations filepath ruleResults).1 =
      ruleResults.map (fun ruleResult =>
        ⟨ruleResult.Results.map (fun result =>
          (addSourceLocsToRuleResult configurations filepath result).1)⟩) := by
  simp [annotateRuleResults, List.map_map, Function.comp_def]

theorem annotateResultResource_queries (configurations : Loader) (filepath : String)
    (r : RuleResultResource) :
    (annotateResultResource configurations filepath r).2 =
      (getResourceSourceLoc configurations filepath r.Namespace r.Type_ r.Id).2 ++
        (r.Attributes.map (fun a =>
          (annotateAttribute configurations filepath r.Namespace r.Type_ r.Id a).2)).flatten := by
  simp [annotateResultResource, List.map_map, Function.comp_def]

theorem addSourceLocsToRuleResult_queries (configurations : Loader) (filepath : String)
    (result : RuleResult) :
    (addSourceLocsToRuleResult configurations filepath result).2 =
      (result.Resources.map
        (fun r => (annotateResultResource configurations filepath r).2)).flatten := by
  simp [addSourceLocsToRuleResult, List.map_map, Function.comp_def]

theorem annotateRuleResults_queries (configurations : Loader) (filepath : String)
    (ruleResults : List RuleResults) :
    (annotateRuleResults configurations filepath ruleResults).2 =
      (ruleResults.map (fun ruleResult =>
        (ruleResult.Results.map (fun result =>
          (addSourceLocsToRuleResult configurations filepath result).2)).flatten)).flatten := by
  simp [annotateRuleResults, List.map_map, Function.comp_def]

theorem mem_queries_of_attribute (configurations : Loader) (filepath : String)
    (results : Results) (inputResult : Result) (ruleResults : RuleResults) (result : RuleResult)
    (r : RuleResultResource) (a : RuleResultResourceAttribute)
    (h1 : inputResult ∈ results.Results)
    (h2 : inputResult.Input.Meta.lookup "filepath" = some (.value (.str filepath)))
    (h3 : ruleResults ∈ inputResult.RuleResults) (h4 : result ∈ ruleResults.Results)
    (h5 : r ∈ result.Resources) (h6 : a ∈ r.Attributes) :
    (⟨filepath, [.key r.Namespace, .key r.Type_, .key r.Id] ++ a.Path⟩ : Query) ∈
      (AddSourceLocs results configurations).2 := by
  rw [AddSourceLocs_queries, List.mem_flatten]
  refine ⟨_, List.mem_map.mpr ⟨inputResult, h1, rfl⟩, ?_⟩
  rw [annotateInputResult_of_filepath configurations inputResult filepath h2]
  refine List.mem_append_right _ ?_
  rw [annotateRuleResults_queries, List.mem_flatten]
  refine ⟨_, List.mem_map.mpr ⟨ruleResults, h3, rfl⟩, ?_⟩
  rw [List.mem_flatten]
  refine ⟨_, List.mem_map.mpr ⟨result, h4, rfl⟩, ?_⟩
  rw [addSourceLocsToRuleResult_queries, List.mem_flatten]
  refine ⟨_, List.mem_map.mpr ⟨r, h5, rfl⟩, ?_⟩
  rw [annotateResultResource_queries]
  refine List.mem_append_right _ ?_
  rw [List.mem_flatten]
  refine ⟨_, List.mem_map.mpr ⟨a, h6, rfl⟩, ?_⟩
  exact List.mem_singleton.mpr rfl

/-- C24: for every detail `a` of a finding resource with namespace, type and ID
`ns`, `ty`, `id`, in an input result with file path `f`, the postprocessor makes
the one call `Location(f, [ns, ty, id] ++ a.Path)`; when the list returned is
not empty, the location of `a` becomes its first element with `Path` as
`Filepath`, `Line` as `Line` and `Col` as `Column`; when it is empty, `a` is
left as it was; the path of `a` is never changed.  The details of a finding
resource are updated each on its own, one for one and in order, and
`AddSourceLocs` does so, with that call, for every detail of every finding
resource of every input result that has a file path. -/
theorem AddSourceLocs_attribute_location (configurations : Loader) (f : String) :
    (∀ (ns ty id : String) (a : RuleResultResourceAttribute),
      (annotateAttribute configurations f ns ty id a).2 =
        [⟨f, [.key ns, .key ty, .key id] ++ a.Path⟩] ∧
      (annotateAttribute configurations f ns ty id a).1.Path = a.Path ∧
      (∀ first rest,
        (configurations f ([.key ns, .key ty, .key id] ++ a.Path)).1 = some (first :: rest) →
        (annotateAttribute configurations f ns ty id a).1.Location =
          some { Filepath := first.Path, Line := first.Line, Column := first.Col }) ∧
      (len (configurations f ([.key ns, .key ty, .key id] ++ a.Path)).1 = 0 →
        (annotateAttribute configurations f ns ty id a).1 = a)) ∧
    (∀ r : RuleResultResource,
      (annotateResultResource configurations f r).1.Attributes =
        r.Attributes.map (fun a =>
          (annotateAttribute configurations f r.Namespace r.Type_ r.Id a).1)) ∧
    (∀ (results : Results) (inputResult : Result),
      inputResult.Input.Meta.lookup "filepath" = some (.value (.str f)) →
      (AddSourceLocs results configurations).1.Results =
        results.Results.map (fun inputResult =>
          (annotateInputResult configurations inputResult).1) ∧
      (annotateInputResult configurations inputResult).1.RuleResults =
        inputResult.RuleResults.map (fun ruleResult =>
          ⟨ruleResult.Results.map (fun result =>
            ⟨result.Resources.map (fun r =>
              (annotateResultResource configurations f r).1)⟩)⟩) ∧
      (inputResult ∈ results.Results →
        ∀ ruleResults ∈ inputResult.RuleResults, ∀ result ∈ ruleResults.Results,
          ∀ r ∈ result.Resources, ∀ a ∈ r.Attributes,
            (⟨f, [.key r.Namespace, .key r.Type_, .key r.Id] ++ a.Path⟩ : Query) ∈
              (AddSourceLocs results configurations).2)) := by
  refine ⟨?_, annotateResultResource_attributes configurations f, ?_⟩
  · intro ns ty id a
    refine ⟨rfl, ?_, ?_, ?_⟩
    · unfold annotateAttribute
      simp only []
      split <;> rfl
    · intro first rest h
      unfold annotateAttribute
      simp only [h]
      rfl
    · intro h
      unfold annotateAttribute
      rcases (len_eq_zero _).mp h with h | h <;> simp only [h]
  · intro results inputResult hf
    refine ⟨AddSourceLocs_results results configurations, ?_, ?_⟩
    · rw [annotateInputResult_of_filepath configurations inputResult f hf]
      simp only [annotateRuleResults_results]
      congr 1
      funext ruleResult
      congr 1
      congr 1
      funext result
      rw [← addSourceLocsToRuleResult_resources]
    · intro h1 ruleResults h3 result h4 r h5 a h6
      exact mem_queries_of_attribute configurations f results inputResult ruleResults result
        r a h1 hf h3 h4 h5 h6

/-! ### Lookups that fail -/

/-- C22 refuted on the report of the fixture document: for the resource `Gone`,
which the document does not hold, and for the attribute `Encryption`, which
`MyBucket` does not set, the loader returns an error, and with it the position
of the deepest node that `GetPath` reached.  `AddSourceLocs` drops the error
and attaches that position: to `Meta["location"]` of the state resource `Gone`
and to the finding resource `Gone`, line 1, column 1 of the key `Resources`; to
the detail `Encryption`, line 4, column 5 of the key `Properties`. -/
theorem AddSourceLocs_attaches_with_error :
    bucketLoader "bucket.yaml" [.key "bucket.yaml", .key "AWS::S3::Bucket", .key "Gone"]
      = (some [⟨"bucket.yaml", 1, 1⟩], some (.message "Key Gone not found")) ∧
    bucketLoader "bucket.yaml"
        [.key "bucket.yaml", .key "AWS::S3::Bucket", .key "MyBucket", .key "Encryption"]
      = (some [⟨"bucket.yaml", 4, 5⟩], some (.message "Key Encryption not found")) ∧
    (AddSourceLocs ⟨[bucketResult]⟩ bucketLoader).1 =
      ⟨[{ Input :=
            { Meta := [("filepath", .value (.str "bucket.yaml"))],
              Resources := [("AWS::S3::Bucket",
                [("MyBucket",
                    { Id := "MyBucket", ResourceType := "AWS::S3::Bucket",
                      Namespace := "bucket.yaml",
                      Attributes := [("BucketName", .str "demo")],
                      Meta := some [("location", .locations [⟨"bucket.yaml", 2, 3⟩])] }),
                 ("Gone",
                    { Id := "Gone", ResourceType := "AWS::S3::Bucket",
                      Namespace := "bucket.yaml", Attributes := [],
                      Meta := some [("location", .locations [⟨"bucket.yaml", 1, 1⟩])] })])] },
          RuleResults := [{ Results := [{ Resources := [
            { Id := "MyBucket", Type_ := "AWS::S3::Bucket", Namespace := "bucket.yaml",
              Location := some [⟨"bucket.yaml", 2, 3⟩],
              Attributes := [⟨[.key "BucketName"], some ⟨"bucket.yaml", 5, 7⟩⟩,
                ⟨[.key "Encryption"], some ⟨"bucket.yaml", 4, 5⟩⟩] },
            { Id := "Gone", Type_ := "AWS::S3::Bucket", Namespace := "bucket.yaml",
              Location := some [⟨"bucket.yaml", 1, 1⟩], Attributes := [] }] }] }] }]⟩ :=
  ⟨rfl, rfl, rfl⟩

/-- The postprocessor reads only the lists that the loader returns, not its
errors. -/
theorem AddSourceLocs_congr (configurations other : Loader)
    (h : ∀ filepath path, (other filepath path).1 = (configurations filepath path).1)
    (results : Results) :
    AddSourceLocs results other = AddSourceLocs results configurations := by
  have e1 : getResourceSourceLoc other = getResourceSourceLoc configurations := by
    funext filepath ns ty id
    simp only [getResourceSourceLoc, h]
  have e2 : annotateStateResource other = annotateStateResource configurations := by
    funext filepath resource
    simp only [annotateStateResource, e1]
  have e3 : annotateAttribute other = annotateAttribute configurations := by
    funext filepath ns ty id a
    simp only [annotateAttribute, h]
  have e4 : annotateResultResource other = annotateResultResource configurations := by
    funext filepath r
    simp only [annotateResultResource, e1, e3]
  have e5 : addSourceLocsToRuleResult other = addSourceLocsToRuleResult configurations := by
    funext filepath result
    simp only [addSourceLocsToRuleResult, e4]
  have e6 : annotateState other = annotateState configurations := by
    funext filepath resources
    simp only [annotateState, e2]
  have e7 : annotateRuleResults other = annotateRuleResults configurations := by
    funext filepath ruleResults
    simp only [annotateRuleResults, e5]
  have e8 : annotateInputResult other = annotateInputResult configurations := by
    funext inputResult
    simp only [annotateInputResult, e6, e7]
  simp only [AddSourceLocs, e8]

theorem addSourceLocsToRuleResult_eq (configurations : Loader) (filepath : String)
    (result : RuleResult) :
    (addSourceLocsToRuleResult configurations filepath result).1 =
      ⟨result.Resources.map (fun r => (annotateResultResource configurations filepath r).1)⟩ := by
  simp [addSourceLocsToRuleResult, List.map_map, Function.comp_def]

theorem annotateState_resources (configurations : Loader) (filepath : String)
    (resources : List (String × List (String × ResourceState))) :
    (annotateState configurations filepath resources).1 =
      resources.map (fun entry =>
        (entry.1, entry.2.map (fun rk =>
          (rk.1, (annotateStateResource configurations filepath rk.2).1)))) := by
  simp [annotateState, List.map_map, Function.comp_def]

theorem annotateResultResource_eq (configurations : Loader) (filepath : String)
    (r : RuleResultResource) :
    (annotateResultResource configurations filepath r).1 =
      { r with
        Location := (configurations filepath
          [.key r.Namespace, .key r.Type_, .key r.Id]).1.map (fun locs => locs.map toLocation),
        Attributes := r.Attributes.map (fun a =>
          (annotateAttribute configurations filepath r.Namespace r.Type_ r.Id a).1) } := by
  unfold annotateResultResource getResourceSourceLoc
  simp only [List.map_map, Function.comp_def]
  cases (configurations filepath [.key r.Namespace, .key r.Type_, .key r.Id]).1 <;> rfl

/-- C22 as amended: the lookups of the postprocessor are best-effort, and it is
the list returned that decides, not the error.  `AddSourceLocs` leaves an input
result without a file path as it is, and in an input result with the file path
`f` it replaces every resource of the state, every finding resource and every
detail by what the loop bodies make of them, one for one, and changes nothing
else.  When the loader returns an empty list, nil or of length 0, with or
without an error, nothing is attached: the state resource keeps the entries of
its `Meta` (a nil `Meta` becomes the empty map) and no entry `location` is
written, the `Location` of the finding resource is empty, and the detail is left
as it was.  When the loader returns a list that is not empty, it is attached,
also when an error comes with it: the whole list under `location` in `Meta` and
as `Location` of the finding resource, its first element as `Location` of the
detail.  The error is never read: two loaders that return the same lists give
the same report and the same calls.  The functions have no error to return and
always return the report. -/
theorem AddSourceLocs_best_effort (configurations : Loader) :
    (∀ results : Results,
      (AddSourceLocs results configurations).1 =
        ⟨results.Results.map (fun inputResult =>
          (annotateInputResult configurations inputResult).1)⟩) ∧
    (∀ inputResult : Result,
      (∀ f, inputResult.Input.Meta.lookup "filepath" ≠ some (.value (.str f))) →
      (annotateInputResult configurations inputResult).1 = inputResult) ∧
    (∀ (inputResult : Result) (f : String),
      inputResult.Input.Meta.lookup "filepath" = some (.value (.str f)) →
      (annotateInputResult configurations inputResult).1 =
        { Input :=
            { Meta := inputResult.Input.Meta,
              Resources := inputResult.Input.Resources.map (fun entry =>
                (entry.1, entry.2.map (fun rk =>
                  (rk.1, (annotateStateResource configurations f rk.2).1)))) },
          RuleResults := inputResult.RuleResults.map (fun ruleResult =>
            ⟨ruleResult.Results.map (fun result =>
              ⟨result.Resources.map (fun r =>
                (annotateResultResource configurations f r).1)⟩)⟩) }) ∧
    (∀ (f : String) (resource : ResourceState),
      (len (configurations f
          [.key resource.Namespace, .key resource.ResourceType, .key resource.Id]).1 = 0 →
        (annotateStateResource configurations f resource).1 =
          { resource with Meta := some (resource.Meta.getD []) }) ∧
      (∀ first rest,
        (configurations f
          [.key resource.Namespace, .key resource.ResourceType, .key resource.Id]).1
            = some (first :: rest) →
        (annotateStateResource configurations f resource).1 =
          { resource with
            Meta := some (setMeta (resource.Meta.getD []) "location"
              (.locations ((first :: rest).map toLocation))) } ∧
        (setMeta (resource.Meta.getD []) "location"
            (.locations ((first :: rest).map toLocation))).lookup "location"
          = some (.locations ((first :: rest).map toLocation)))) ∧
    (∀ (f : String) (r : RuleResultResource),
      (annotateResultResource configurations f r).1 =
        { r with
          Location := (configurations f
            [.key r.Namespace, .key r.Type_, .key r.Id]).1.map
              (fun locs => locs.map toLocation),
          Attributes := r.Attributes.map (fun a =>
            (annotateAttribute configurations f r.Namespace r.Type_ r.Id a).1) } ∧
      (len (configurations f [.key r.Namespace, .key r.Type_, .key r.Id]).1 = 0 →
        len (annotateResultResource configurations f r).1.Location = 0)) ∧
    (∀ (f ns ty id : String) (a : RuleResultResourceAttribute),
      (len (configurations f ([.key ns, .key ty, .key id] ++ a.Path)).1 = 0 →
        (annotateAttribute configurations f ns ty id a).1 = a) ∧
      (∀ first rest,
        (configurations f ([.key ns, .key ty, .key id] ++ a.Path)).1 = some (first :: rest) →
        (annotateAttribute configurations f ns ty id a).1 =
          { a with Location := some (toLocation first) })) ∧
    (∀ other : Loader,
      (∀ filepath path, (other filepath path).1 = (configurations filepath path).1) →
      ∀ results, AddSourceLocs results other = AddSourceLocs results configurations) := by
  refine ⟨?_, ?_, ?_, ?_, ?_, ?_,
    fun other h results => AddSourceLocs_congr configurations other h results⟩
  · intro results
    simp [AddSourceLocs, List.map_map, Function.comp_def]
  · intro inputResult h
    rw [annotateInputResult_of_no_filepath configurations inputResult h]
  · intro inputResult f h
    rw [annotateInputResult_of_filepath configurations inputResult f h]
    simp only [annotateState_resources, annotateRuleResults_results,
      addSourceLocsToRuleResult_eq]
  · intro f resource
    constructor
    · intro h
      unfold annotateStateResource getResourceSourceLoc
      rcases (len_eq_zero _).mp h with h | h
      · simp only [h, len]
        cases resource.Meta <;> rfl
      · simp only [h, len, List.map_nil, List.length_nil]
        cases resource.Meta <;> rfl
    · intro first rest h
      refine ⟨?_, by rw [lookup_setMeta, if_pos rfl]⟩
      unfold annotateStateResource getResourceSourceLoc
      simp only [h, len, List.map_cons, List.length_cons]
      rw [if_pos (by omega)]
      cases resource.Meta <;> rfl
  · intro f r
    have heq := annotateResultResource_eq configurations f r
    refine ⟨heq, ?_⟩
    intro h
    rw [heq]
    rcases (len_eq_zero _).mp h with h | h <;> rw [h] <;> rfl
  · intro f ns ty id a
    constructor
    · intro h
      unfold annotateAttribute
      rcases (len_eq_zero _).mp h with h | h <;> simp only [h]
    · intro first rest h
      unfold annotateAttribute
      simp only [h]

end postprocess
